import Mathlib

/-!
# clop: command-line option parser (`src/clop.h`, `src/clop.cpp`)

Shallow embedding of the registry (`clop_t::add`), the argument processor
(`clop_t::parse`, `process_arg`, `assign_value`, `expand_arg`) and the
tracker queries (`clop_t::set`).

Conventions of the embedding
* `std::string` is a list of characters (`Str`).
* A caller variable is identified by its address, a natural number, `0` being
  the null pointer; the caller's memory is a function from addresses to values.
* `std::map` is a key-sorted association list with unique keys; iteration is
  list order, which is what `process_arg` and `add` walk through.
* A function that may throw returns the state reached together with the
  exception, if any, because the C++ mutates the parser and the variables in
  place before an exception leaves `parse`.
* The outer `while` loop of `parse` is iterated with a step budget; `parse`
  supplies a budget that is always sufficient (`parse_loop_enough`).
-/

namespace noto

/-- The type `std::string`. -/
abbrev Str := List Char

/-! ## Caller memory -/

/-- Contents of one caller variable. -/
inductive value_t
  | boolean (b : Bool)
  | string (s : Str)
  | cstr (s : Option Str)
  | character (ch : Char)
  | object (bytes : List Nat)
  deriving DecidableEq

/-- Caller memory: the variables the options are bound to, by address. -/
abbrev memory := Nat → value_t

/-! ## Exceptions (`dau.h`) -/

/-- The `DAU` exceptions thrown by `clop.h` and `clop.cpp`, one constructor per throw
site, carrying the flags or argument the message names.  `assert_failed` is
the `assert(false)` of `typed_option_t<T>::toggle`. -/
inductive dau_t
  | null_variable
  | no_indicator_flag
  | illegal_flag (shortflag : Str)
  | illegal_name (longflag : Str)
  | illegal_flag_name (flag : Str)
  | same_variable (var : Nat)
  | flag_multiple (shortflag : Str)
  | name_multiple (longflag : Str)
  | illegal_option (arg : Str)
  | requires_a_value (flag : Str)
  | double_initialized (first second : Str)
  | assert_failed
  deriving DecidableEq

/-- Error kinds of the specification, section 7. -/
inductive error_kind
  | ConfigError
  | UnknownOptionError
  | MissingValueError
  | DoubleAssignmentError
  | Abort
  deriving DecidableEq

/-- Classification of each throw site into the error kinds of the specification. -/
def dau_t.kind : dau_t → error_kind
  | .null_variable => .ConfigError
  | .no_indicator_flag => .ConfigError
  | .illegal_flag _ => .ConfigError
  | .illegal_name _ => .ConfigError
  | .illegal_flag_name _ => .ConfigError
  | .same_variable _ => .ConfigError
  | .flag_multiple _ => .ConfigError
  | .name_multiple _ => .ConfigError
  | .illegal_option _ => .UnknownOptionError
  | .requires_a_value _ => .MissingValueError
  | .double_initialized _ _ => .DoubleAssignmentError
  | .assert_failed => .Abort

/-! ## `std::map` -/

/-- The order `std::less<std::string>`: lexicographic on character codes. -/
def str_lt : Str → Str → Bool
  | [], [] => false
  | [], _ :: _ => true
  | _ :: _, [] => false
  | a :: as, b :: bs =>
    if a.toNat < b.toNat then true
    else if b.toNat < a.toNat then false
    else str_lt as bs

/-- Lookup `std::map::find`: the value under key `k`, if any. -/
def map_find {K V : Type} [DecidableEq K] : List (K × V) → K → Option V
  | [], _ => none
  | (k', v) :: rest, k => if k' = k then some v else map_find rest k

/-- Assignment `m[k] = v` of `std::map`: overwrite the entry of `k` or insert it in key order. -/
def map_insert {K V : Type} [DecidableEq K] (lt : K → K → Bool) :
    List (K × V) → K → V → List (K × V)
  | [], k, v => [(k, v)]
  | (k', v') :: rest, k, v =>
    if k' = k then (k, v) :: rest
    else if lt k k' then (k, v) :: (k', v') :: rest
    else (k', v') :: map_insert lt rest k v

/-! ## Options (`clop.h`) -/

/-- The template parameter `T` of `typed_option_t<T>`, as far as the parser
can tell types apart. -/
inductive type_tag
  | bool | string | cstr | const_cstr | char
  | int | long | uint | ulong | float | double | other
  deriving DecidableEq

/-- A variable type `T` with its stream operators: `extract text old` is the
value of the variable after `std::istringstream iss(text); iss >> variable`,
`insert v` is the text `oss << v` writes. -/
structure type_t where
  tag : type_tag
  extract : Str → value_t → value_t
  insert : value_t → Str

/-- The overloads of `argument_type` (clop.h:263-276). -/
def argument_type (T : type_t) : Str :=
  match T.tag with
  | .int => "integer".toList
  | .long => "integer".toList
  | .uint => "natural".toList
  | .ulong => "natural".toList
  | .float => "real".toList
  | .double => "real".toList
  | .char => "single character".toList
  | .cstr => "string".toList
  | .const_cstr => "string".toList
  | .string => "string".toList
  | .bool => []
  | .other => "value".toList

/-- The specialisations of `current_value` (clop.h:279-288). -/
def current_value (T : type_t) (v : value_t) : Str :=
  match T.tag with
  | .bool =>
    match v with
    | .boolean true => ['1']
    | _ => ['0']
  | .const_cstr | .cstr =>
    match v with
    | .cstr (some s) => ['"'] ++ s ++ ['"']
    | _ => "NULL".toList
  | .string =>
    match v with
    | .string s => ['"'] ++ s ++ ['"']
    | _ => ['"', '"']
  | .char =>
    match v with
    | .character ch => [Char.ofNat 39, ch, Char.ofNat 39]
    | _ => [Char.ofNat 39, Char.ofNat 39]
  | _ => T.insert v

/-- Help information for an option (`struct help_t`). -/
structure help_t where
  flags : List Str
  metavar : Str
  description : Str
  default_value : Str

/-- An option `typed_option_t<T>`: its help record, its type and the address of
its variable. -/
structure option_t where
  help : help_t
  T : type_t
  var : Nat

/-- Method `varptr`. -/
def option_t.varptr (o : option_t) : Nat := o.var

/-- Method `requires_value`: `true` for every type but `bool` (clop.h:171-175). -/
def option_t.requires_value (o : option_t) : Bool :=
  match o.T.tag with
  | .bool => false
  | _ => true

/-- The text `strcpy` copies: up to the first NUL. -/
def c_str (value : Str) : Str := value.takeWhile (fun ch => ch != Char.ofNat 0)

/-- Method `assign` (clop.h:178-203): a `std::string` variable receives the text
itself, a C string variable a fresh copy of it, every other type goes through
`operator>>`. -/
def option_t.assign (o : option_t) (value : Str) (mem : memory) : memory :=
  match o.T.tag with
  | .string => Function.update mem o.var (.string value)
  | .cstr => Function.update mem o.var (.cstr (some (c_str value)))
  | .const_cstr => Function.update mem o.var (.cstr (some (c_str value)))
  | _ => Function.update mem o.var (o.T.extract value (mem o.var))

/-- Method `toggle` (clop.h:215-220): a `bool` variable becomes `true` exactly
when the default recorded at registration is the text `0`; any other type
asserts. -/
def option_t.toggle (o : option_t) (mem : memory) : Except dau_t memory :=
  match o.T.tag with
  | .bool => .ok (Function.update mem o.var (.boolean (o.help.default_value == ['0'])))
  | _ => .error .assert_failed

/-! ## The parser object -/

/-- The class `clop_t`. -/
structure clop_t where
  options : List option_t
  flagset : List (Str × option_t)
  assigned_options : List (Nat × Str)
  hypen_arg_error : Bool
  interpret_double_hypen : Bool

/-- A freshly constructed parser. -/
def clop_t.new : clop_t :=
  { options := [], flagset := [], assigned_options := [],
    hypen_arg_error := true, interpret_double_hypen := true }

/-- The query `set(const void *variable)` (clop.h:247). -/
def clop_t.set_var (c : clop_t) (var : Nat) : Bool :=
  (map_find c.assigned_options var).isSome

/-- The query `set(const std::string &flag)` (clop.h:248). -/
def clop_t.set_flag (c : clop_t) (flag : Str) : Bool :=
  (map_find c.flagset flag).isSome &&
    match map_find c.flagset flag with
    | some o => (map_find c.assigned_options o.varptr).isSome
    | none => false

/-- The query `set(const char *flag)` (clop.h:249): the bytes at the pointer, up to the first
NUL, looked up as a flag. -/
def clop_t.set_cstr (c : clop_t) (bytes : Str) : Bool :=
  c.set_flag (c_str bytes)

/-- The call `set(&variable)` for a variable of type `T` at the address `var`, with the callee
overload resolution selects among clop.h:247-249.  For `T = char` the argument is a `char*`:
it reaches `const char*` by a qualification conversion, which ranks as an exact match, and
`const void*` by a pointer conversion, so the call is `set(const char*)` and reads `bytes`,
the memory from the variable on (its own character first), as a flag.  The address of a
variable of any other type converts to `const void*` only. -/
def clop_t.set_address (c : clop_t) (T : type_tag) (var : Nat) (bytes : Str) : Bool :=
  match T with
  | .char => c.set_cstr bytes
  | _ => c.set_var var

/-- Shape test `legal_short_flag` (clop.h:259); `none` is the null pointer. -/
def legal_short_flag (flag : Option Str) : Bool :=
  match flag with
  | none => true
  | some f => f.length == 2 && f.get? 0 == some '-' && f.get? 1 != some '-'

/-- Shape test `legal_long_flag` (clop.h:260). -/
def legal_long_flag (flag : Option Str) : Bool :=
  match flag with
  | none => true
  | some f => decide (f.length ≥ 3) && f.get? 0 == some '-' && f.get? 1 == some '-'
      && !(f.contains '=')

/-- The loop of `add` over the existing flags (clop.h:316-322): the first
entry, in key order, that clashes with the new option decides the exception. -/
def add_check (var : Nat) (shortflag longflag : Option Str) :
    List (Str × option_t) → Option dau_t
  | [] => none
  | (first, second) :: it =>
    if second.varptr = var then some (.same_variable var)
    else if shortflag = some first then some (.flag_multiple first)
    else if longflag = some first then some (.name_multiple first)
    else add_check var shortflag longflag it

/-- The option `add` builds (clop.h:306-313): the flags given, the type name, the
description, and the text of the variable's value at the time of the call as default. -/
def make_option (mem : memory) (T : type_t) (var : Nat) (shortflag longflag : Option Str)
    (help_description : Str) : option_t :=
  { help :=
      { flags := shortflag.toList ++ longflag.toList
        metavar := argument_type T
        description := help_description
        default_value := current_value T (mem var) }
    T := T
    var := var }

/-- The two insertions that end `add` (clop.h:325-326). -/
def add_flags (flagset : List (Str × option_t)) (shortflag longflag : Option Str)
    (option : option_t) : List (Str × option_t) :=
  let fs1 := match shortflag with
    | some f => map_insert str_lt flagset f option
    | none => flagset
  match longflag with
  | some f => map_insert str_lt fs1 f option
  | none => fs1

/-- The four-argument `clop_t::add` (clop.h:298-327).  `mem` is the caller memory
at the time of the call, read for the default value.  Returns the parser as
the call leaves it and the exception thrown, if any; the new option is pushed
onto `options` before the duplicate checks run. -/
def clop_t.add (c : clop_t) (mem : memory) (T : type_t) (var : Nat)
    (shortflag longflag : Option Str) (help_description : Str) : clop_t × Option dau_t :=
  if var = 0 then (c, some .null_variable)
  else if shortflag.isNone && longflag.isNone then (c, some .no_indicator_flag)
  else if shortflag.isSome && !legal_short_flag shortflag then
    (c, some (.illegal_flag (shortflag.getD [])))
  else if longflag.isSome && !legal_long_flag longflag then
    (c, some (.illegal_name (longflag.getD [])))
  else
    let option := make_option mem T var shortflag longflag help_description
    let c1 := { c with options := c.options ++ [option] }
    match add_check var shortflag longflag c1.flagset with
    | some e => (c1, some e)
    | none => ({ c1 with flagset := add_flags c1.flagset shortflag longflag option }, none)

/-- The three-argument `clop_t::add` (clop.h:290-296). -/
def clop_t.add3 (c : clop_t) (mem : memory) (T : type_t) (var : Nat)
    (flag : Option Str) (help : Str) : clop_t × Option dau_t :=
  match flag with
  | none => (c, some .no_indicator_flag)
  | some f =>
    if legal_short_flag flag then c.add mem T var flag none help
    else if legal_long_flag flag then c.add mem T var none flag help
    else (c, some (.illegal_flag_name f))

/-! ## Parsing (`clop.cpp`) -/

/-- The state `parse` and its subroutines mutate: the queue `Q`, the tracker
`assigned_options` and the caller variables. -/
structure pstate where
  Q : List Str
  assigned_options : List (Nat × Str)
  mem : memory

/-- Sub-subroutine `assign_value` (clop.cpp:52-65). -/
def assign_value (option : option_t) (flag value : Str) (s : pstate) : pstate × Option dau_t :=
  if (map_find s.assigned_options option.varptr).isSome then
    (s, some (.double_initialized ((map_find s.assigned_options option.varptr).getD []) flag))
  else
    let s1 := { s with assigned_options := map_insert Nat.blt s.assigned_options option.varptr flag }
    if option.requires_value then
      ({ s1 with mem := option.assign value s1.mem }, none)
    else
      match option.toggle s1.mem with
      | .ok m => ({ s1 with mem := m }, none)
      | .error e => (s1, some e)

/-- Sub-subroutine `expand_arg` (clop.cpp:68-77): one flag per character after the first. -/
def expand_arg (arg : Str) : List Str :=
  (arg.drop 1).map (fun ch => ['-', ch])

/-- The legality loop of the bundle branch (clop.cpp:86-92): every expanded flag is a key. -/
def bundle_legal (flagset : List (Str × option_t)) (expanded_args : List Str) : Bool :=
  expanded_args.all (fun f => (map_find flagset f).isSome)

/-- The guard of the bundle branch together with its legality loop (clop.cpp:83-94). -/
def bundle_expands (flagset : List (Str × option_t)) (arg : Str) : Bool :=
  decide (arg.length ≥ 3) && arg.get? 0 == some '-' && arg.get? 1 != some '-'
    && bundle_legal flagset (expand_arg arg)

/-- The push loop of the bundle branch (clop.cpp:95-97): last expanded flag first, each to the front. -/
def push_front_all (expanded_args : List Str) (Q : List Str) : List Str :=
  expanded_args.foldr (fun a q => a :: q) Q

/-- The test of the inline branch (clop.cpp:125-126). -/
def inline_match (arg flag : Str) : Bool :=
  decide (arg.length ≥ flag.length + 2) && flag == arg.take flag.length
    && arg.get? flag.length == some '='

/-- The loop of `process_arg` over the flag map (clop.cpp:105-134). -/
def process_flags (arg : Str) : List (Str × option_t) → pstate → pstate × Except dau_t Bool
  | [], s => (s, .ok false)
  | (flag, option) :: it, s =>
    if arg = flag then
      if option.requires_value then
        match s.Q with
        | [] => (s, .error (.requires_a_value flag))
        | front :: Q =>
          match assign_value option flag front s with
          | (s1, some e) => (s1, .error e)
          | (s1, none) => ({ s1 with Q := Q }, .ok true)
      else
        match assign_value option flag [] s with
        | (s1, some e) => (s1, .error e)
        | (s1, none) => (s1, .ok true)
    else if option.requires_value && inline_match arg flag then
      match assign_value option flag (arg.drop (flag.length + 1)) s with
      | (s1, some e) => (s1, .error e)
      | (s1, none) => (s1, .ok true)
    else process_flags arg it s

/-- Subroutine `process_arg` (clop.cpp:80-135). -/
def process_arg (arg : Str) (flagset : List (Str × option_t)) (s : pstate) :
    pstate × Except dau_t Bool :=
  if bundle_expands flagset arg then
    ({ s with Q := push_front_all (expand_arg arg) s.Q }, .ok true)
  else process_flags arg flagset s

/-- The inner loop of `parse` after the marker (clop.cpp:36-39): move the queue to the result. -/
def drain : List Str → List Str → List Str
  | [], result => result
  | front :: Q, result => drain Q (result ++ [front])

/-- The outer loop of `parse` (clop.cpp:30-47), at most `fuel` iterations;
`none` when the budget runs out with tokens left. -/
def parse_loop (c : clop_t) : Nat → pstate → List Str → Option (pstate × Except dau_t (List Str))
  | fuel, s, result =>
    match s.Q with
    | [] => some (s, .ok result)
    | arg :: Q =>
      match fuel with
      | 0 => none
      | fuel + 1 =>
        if c.interpret_double_hypen && arg == ['-', '-'] then
          parse_loop c fuel { s with Q := [] } (drain Q result)
        else
          match process_arg arg c.flagset { s with Q := Q } with
          | (s1, .error e) => some (s1, .error e)
          | (s1, .ok true) => parse_loop c fuel s1 result
          | (s1, .ok false) =>
            if c.hypen_arg_error && arg.head? == some '-' then
              some (s1, .error (.illegal_option arg))
            else parse_loop c fuel s1 (result ++ [arg])

/-- Iterations one token can cost: itself, plus one per expanded flag when it is a bundle. -/
def token_weight (arg : Str) : Nat := if arg.length ≥ 3 then arg.length else 1

/-- A step budget sufficient for a queue. -/
def queue_weight (Q : List Str) : Nat := (Q.map token_weight).sum

/-- What a call of `parse` leaves behind: the parser, the caller memory, and the
vector returned or the exception thrown. -/
structure outcome where
  clop : clop_t
  mem : memory
  result : Except dau_t (List Str)

/-- The method `clop_t::parse` (clop.cpp:18-49); `argv` includes the program name. -/
def clop_t.parse (c : clop_t) (mem : memory) (argv : List Str) : Option outcome :=
  let Q := argv.drop 1
  match parse_loop c (queue_weight Q) { Q := Q, assigned_options := [], mem := mem } [] with
  | none => none
  | some (s, r) =>
    some { clop := { c with assigned_options := s.assigned_options }, mem := s.mem, result := r }

/-! ## Registries built by `add` -/

/-- Parsers a program can hold: a fresh one, then any calls of `add` (failed ones
included), any setting of the two public switches, any tracker left by `parse`. -/
inductive built : clop_t → Prop
  | new : built clop_t.new
  | add (c : clop_t) (mem : memory) (T : type_t) (var : Nat) (shortflag longflag : Option Str)
      (help : Str) : built c → built (c.add mem T var shortflag longflag help).1
  | add3 (c : clop_t) (mem : memory) (T : type_t) (var : Nat) (flag : Option Str)
      (help : Str) : built c → built (c.add3 mem T var flag help).1
  | switches (c : clop_t) (e d : Bool) :
      built c → built { c with hypen_arg_error := e, interpret_double_hypen := d }
  | tracker (c : clop_t) (asg : List (Nat × Str)) :
      built c → built { c with assigned_options := asg }

/-- Every key of the flag map has the short or the long flag shape. -/
def flags_legal (flagset : List (Str × option_t)) : Prop :=
  ∀ p ∈ flagset, legal_short_flag (some p.1) = true ∨ legal_long_flag (some p.1) = true

/-- Entries of the flag map bound to the same variable hold the same option. -/
def vars_unique (flagset : List (Str × option_t)) : Prop :=
  ∀ p ∈ flagset, ∀ q ∈ flagset, p.2.varptr = q.2.varptr → p.2 = q.2


/-- An entry of the flag map stops the loop of `process_arg`: exact or inline match. -/
def entry_matches (arg : Str) (p : Str × option_t) : Bool :=
  decide (arg = p.1) || (p.2.requires_value && inline_match arg p.1)

/-- Loop invariant of `parse`: every boolean option recorded in the tracker has its variable
at the value `toggle` writes. -/
def toggled_inv (flagset : List (Str × option_t)) (s : pstate) : Prop :=
  ∀ q ∈ flagset, q.2.T.tag = .bool → (map_find s.assigned_options q.2.varptr).isSome = true →
    s.mem q.2.var = .boolean (q.2.help.default_value == ['0'])

/-- Two states of `parse` that differ at most in the caller variables. -/
def same_control (s s' : pstate) : Prop :=
  s.Q = s'.Q ∧ s.assigned_options = s'.assigned_options

/-- The entry of the flag map at which the loop of `process_arg` stops for a token, if any. -/
def matched_entry (arg : Str) : List (Str × option_t) → Option (Str × option_t)
  | [] => none
  | p :: it => if entry_matches arg p then some p else matched_entry arg it

/-- Ghost trace of a run of the outer loop of `parse`: for every token the run processes as an
option (a token taken from the front of the queue, not the marker, not expanded as a bundle,
at which the loop of `process_arg` stops at an entry and `process_arg` returns `true`), the
variable of that entry and its flag, in the order processed.  The queue evolves by
`process_arg` itself, so flags pushed by a bundle are seen when their turn comes and value
tokens are not. -/
def processed (c : clop_t) : Nat → pstate → List (Nat × Str)
  | 0, _ => []
  | fuel + 1, s =>
    match s.Q with
    | [] => []
    | arg :: Q =>
      if c.interpret_double_hypen && arg == ['-', '-'] then []
      else
        match process_arg arg c.flagset { s with Q := Q } with
        | (_, .error _) => []
        | (s1, .ok true) =>
          (if bundle_expands c.flagset arg then []
           else
             match matched_entry arg c.flagset with
             | some p => [(p.2.varptr, p.1)]
             | none => []) ++ processed c fuel s1
        | (s1, .ok false) =>
          if c.hypen_arg_error && arg.head? == some '-' then [] else processed c fuel s1

/-- Parsers on which `parse` has not been called yet: a fresh one, then calls of `add` and
settings of the two public switches. -/
inductive unparsed : clop_t → Prop
  | new : unparsed clop_t.new
  | add (c : clop_t) (mem : memory) (T : type_t) (var : Nat) (shortflag longflag : Option Str)
      (help : Str) : unparsed c → unparsed (c.add mem T var shortflag longflag help).1
  | add3 (c : clop_t) (mem : memory) (T : type_t) (var : Nat) (flag : Option Str)
      (help : Str) : unparsed c → unparsed (c.add3 mem T var flag help).1
  | switches (c : clop_t) (e d : Bool) :
      unparsed c → unparsed { c with hypen_arg_error := e, interpret_double_hypen := d }

/-! ## A sample registry, in the manner of `demo.cpp` -/

/-- The type `bool`; its stream operators are never called by the parser. -/
def T_bool : type_t := { tag := .bool, extract := fun _ v => v, insert := fun _ => ['0'] }

/-- The type `std::string`. -/
def T_string : type_t := { tag := .string, extract := fun _ v => v, insert := fun _ => [] }

/-- Caller memory before parsing: `bool` variables at 1, 2 (both `false`) and 3 (`true`),
`std::string` variables holding `def` at 4 and above. -/
def demo_mem : memory := fun p =>
  if p ≤ 2 then .boolean false else if p = 3 then .boolean true else .string ['d', 'e', 'f']

/-- Options `-a`, `-b`, `-c` (booleans at 1, 2, 3) and `-n`, `--name` (string at 4). -/
def demo_clop : clop_t :=
  ((((clop_t.new.add demo_mem T_bool 1 (some ['-', 'a']) none []).1.add
    demo_mem T_bool 2 (some ['-', 'b']) none []).1.add
    demo_mem T_bool 3 (some ['-', 'c']) none []).1.add
    demo_mem T_string 4 (some ['-', 'n']) (some ['-', '-', 'n', 'a', 'm', 'e']) []).1

/-- The option `add` creates on the sample registry for a variable, its flags and default. -/
def demo_option (T : type_t) (var : Nat) (flags : List Str) (default_value : Str) : option_t :=
  { help := { flags := flags, metavar := argument_type T, description := [],
              default_value := default_value },
    T := T, var := var }

/-- The type `char`: `operator>>` skips white space and stores the next character, and
leaves the variable as it is when there is none. -/
def T_char : type_t :=
  { tag := .char
    extract := fun text v =>
      match text.dropWhile (fun ch => ch == ' ' || (decide (9 ≤ ch.toNat) && decide (ch.toNat ≤ 13))) with
      | ch :: _ => .character ch
      | [] => v
    insert := fun v =>
      match v with
      | .character ch => [ch]
      | _ => [] }

/-- Caller memory of `demo.cpp` with its variable `char g = '8'`, at the address 5. -/
def char_mem : memory := Function.update demo_mem 5 (.character '8')

/-- The sample registry with the option `clop.add( &g, "-g", "char option" )` of `demo.cpp`
(demo.cpp:44-45). -/
def char_clop : clop_t :=
  (demo_clop.add3 char_mem T_char 5 (some ['-', 'g']) "char option".toList).1

/-- Equality of returned vectors and exceptions is decidable. -/
instance instDecidableEqExcept {ε α : Type} [DecidableEq ε] [DecidableEq α] :
    DecidableEq (Except ε α) :=
  fun a b =>
    match a, b with
    | .ok x, .ok y =>
      if h : x = y then isTrue (congrArg Except.ok h)
      else isFalse (fun h2 => h (Except.ok.inj h2))
    | .error x, .error y =>
      if h : x = y then isTrue (congrArg Except.error h)
      else isFalse (fun h2 => h (Except.error.inj h2))
    | .ok _, .error _ => isFalse (fun h => Except.noConfusion h)
    | .error _, .ok _ => isFalse (fun h => Except.noConfusion h)


/-! ## Registry invariants -/

/-- Parsers reached from a fresh one by calls of `add` that all succeed (and settings of the
two public switches). -/
inductive registered_only : clop_t → Prop
  | new : registered_only clop_t.new
  | add (c : clop_t) (mem : memory) (T : type_t) (var : Nat) (shortflag longflag : Option Str)
      (help : Str) : registered_only c → (c.add mem T var shortflag longflag help).2 = none →
      registered_only (c.add mem T var shortflag longflag help).1
  | add3 (c : clop_t) (mem : memory) (T : type_t) (var : Nat) (flag : Option Str)
      (help : Str) : registered_only c → (c.add3 mem T var flag help).2 = none →
      registered_only (c.add3 mem T var flag help).1
  | switches (c : clop_t) (e d : Bool) :
      registered_only c → registered_only { c with hypen_arg_error := e, interpret_double_hypen := d }

/-- The flag map against the option list: every entry's key is a flag of its option, which is
in the list; a key has one entry; every flag of an option in the map is a key sent to that
option; one option per variable. -/
structure registry_inv (c : clop_t) : Prop where
  key_flag : ∀ p ∈ c.flagset, p.1 ∈ p.2.help.flags ∧ p.2 ∈ c.options
  key_once : ∀ p ∈ c.flagset, ∀ q ∈ c.flagset, p.1 = q.1 → p.2 = q.2
  flag_key : ∀ p ∈ c.flagset, ∀ g ∈ p.2.help.flags, (g, p.2) ∈ c.flagset
  one_var : vars_unique c.flagset

/-- Every option of the list is in the flag map, and the list repeats no option. -/
structure options_inv (c : clop_t) : Prop where
  listed : ∀ o ∈ c.options, ∃ f, (f, o) ∈ c.flagset
  nodup : c.options.Nodup


/-! ## Word wrap (`pbreak`, clop.cpp:137-169) -/

/-- The code of a `char` as the comparison with `' '` sees it: a signed byte, as on the
platforms where `char` is signed. -/
def char_code (ch : Char) : Int :=
  if ch.toNat % 256 < 128 then (ch.toNat % 256 : Nat) else ((ch.toNat % 256 : Nat) : Int) - 256

/-- The constant `NBSP` of `pbreak`, the character `\b`. -/
def NBSP : Char := Char.ofNat 8

/-- The highlight character `\033`. -/
def ESC : Char := Char.ofNat 27

/-- The newline character. -/
def NL : Char := Char.ofNat 10

/-- The test of the backward search (clop.cpp:151): no line may end after this character. -/
def unbreakable (ch : Char) : Bool :=
  decide (char_code ch > 32) || ch == ESC || ch == NBSP

/-- The backward search `for (; cur < bp && ...; bp--)` (clop.cpp:151), from the breakpoint
`bp`; `text[bp-1]` past the end reads the terminating NUL. -/
def find_break (text : List Char) (cur : Nat) : Nat → Nat
  | 0 => 0
  | bp + 1 =>
    if cur < bp + 1 && unbreakable (text.getD bp (Char.ofNat 0)) then find_break text cur bp
    else bp + 1

/-- The character `fputc` receives (clop.cpp:161): `NBSP` is written as a space. -/
def render (ch : Char) : Char := if ch == NBSP then ' ' else ch

/-- The printing loop (clop.cpp:156-162) over the text from the cursor on: the characters
written and the breakpoint, which a newline met before the breakpoint moves to just behind
itself. -/
def print_line : List Char → Nat → Nat → List Char × Nat
  | [], _, bp => ([], bp)
  | ch :: rest, cur, bp =>
    if cur < bp then
      if ch == NL then ([], cur + 1)
      else (render ch :: (print_line rest (cur + 1) bp).1, (print_line rest (cur + 1) bp).2)
    else ([], bp)

/-- One iteration of the loop of `pbreak`, as a record: the cursor it starts from, the
breakpoint it ends with (the next cursor), the characters it writes. -/
structure pline where
  cur : Nat
  bp : Nat
  out : List Char
  deriving DecidableEq

/-- The body of the loop of `pbreak` up to the update of the cursor (clop.cpp:149-164), for
the width `w` available and the cursor `cur`. -/
def pbreak_line (text : List Char) (w cur : Nat) : pline :=
  let bp0 := cur + min w (text.length - cur)
  let bp1 := find_break text cur bp0
  let bp2 := if bp1 = cur then bp0 else bp1
  let pr := print_line (text.drop cur) cur bp2
  { cur := cur, bp := pr.2, out := pr.1 }

/-- The loop of `pbreak` (clop.cpp:145-168) from the cursor `cur`, at most `fuel` iterations:
the lines written, between which the delimiter is written; `none` when the budget runs out. -/
def pbreak_loop (text : List Char) (w1 w2 : Nat) : Nat → Nat → Option (List pline)
  | 0, _ => none
  | fuel + 1, cur =>
    let line := pbreak_line text (if cur = 0 then w1 else w2) cur
    if line.bp < text.length then
      match pbreak_loop text w1 w2 fuel line.bp with
      | none => none
      | some ls => some (line :: ls)
    else some [line]

/-- The function `pbreak` (clop.cpp:141-169): what the stream `out` holds afterwards.  The
text ends at its first NUL; the budget is enough whenever both widths are positive. -/
def pbreak (out : List Char) (text : List Char) (w1 w2 : Nat) (delimeter : List Char) :
    Option (List Char) :=
  match pbreak_loop (c_str text) w1 w2 ((c_str text).length + 1) 0 with
  | none => none
  | some ls => some (out ++ delimeter.intercalate (ls.map (fun l => l.out)))


/-! ## Where returned tokens come from -/

/-- What a run of the loop that returns `out` has done, started with `result` on a queue of
expanded flags `E` followed by the input tokens `R` still to come: `out` is `result`, then
tokens `pos` picked in order from a front part `pre` of `R` (none with a leading hyphen when
`hypen_arg_error` is on), then a part `tail`; either `pre` is all of `R` and `tail` is empty,
or `R` holds a marker right behind `pre`, `tail` is everything behind that marker, and the run
on `E` and `pre` alone empties the queue and returns `result ++ pos`: the marker is met at the
front of the queue. -/
def positional_run (c : clop_t) (n : Nat) (E R : List Str) (asg : List (Nat × Str))
    (mem : memory) (result out : List Str) : Prop :=
  ∃ pos pre tail, out = result ++ pos ++ tail ∧ pos.Sublist pre ∧
    (c.hypen_arg_error = true → ∀ t ∈ pos, t.head? ≠ some '-') ∧
    ((R = pre ∧ tail = []) ∨
      (c.interpret_double_hypen = true ∧ R = pre ++ ['-', '-'] :: tail ∧
        ∃ s2, parse_loop c n { Q := E ++ pre, assigned_options := asg, mem := mem } result
          = some (s2, .ok (result ++ pos))))


/-! ## Basic facts about the embedding -/

theorem push_front_all_eq (xs Q : List Str) : push_front_all xs Q = xs ++ Q := by
  induction xs with
  | nil => rfl
  | cons x xs ih => simp [push_front_all] at ih ⊢

theorem drain_eq (Q result : List Str) : drain Q result = result ++ Q := by
  induction Q generalizing result with
  | nil => simp [drain]
  | cons x Q ih => simp [drain, ih]

theorem map_find_insert {K V : Type} [DecidableEq K] (lt : K → K → Bool) (m : List (K × V))
    (k : K) (v : V) (q : K) :
    map_find (map_insert lt m k v) q = if k = q then some v else map_find m q := by
  induction m with
  | nil => simp [map_insert, map_find]
  | cons p m ih =>
    obtain ⟨k', v'⟩ := p
    by_cases h1 : k' = k
    · subst h1
      by_cases h2 : k' = q <;> simp [map_insert, map_find, h2]
    · by_cases h3 : lt k k' = true
      · by_cases h2 : k = q
        · subst h2
          simp [map_insert, map_find, h1, h3]
        · simp [map_insert, map_find, h1, h2, h3]
      · by_cases h2 : k = q
        · subst h2
          simp [map_insert, map_find, h1, h3, ih]
        · simp [map_insert, map_find, h1, h2, h3, ih]

theorem mem_map_insert {K V : Type} [DecidableEq K] (lt : K → K → Bool) (m : List (K × V))
    (k : K) (v : V) (p : K × V) (hp : p ∈ map_insert lt m k v) : p = (k, v) ∨ p ∈ m := by
  induction m with
  | nil => simpa [map_insert] using hp
  | cons e m ih =>
    obtain ⟨k', v'⟩ := e
    by_cases h1 : k' = k
    · simp [map_insert, h1] at hp
      rcases hp with h | h
      · exact Or.inl h
      · exact Or.inr (List.mem_cons_of_mem _ h)
    · by_cases h3 : lt k k' = true
      · simp [map_insert, h1, h3] at hp
        rcases hp with h | h | h
        · exact Or.inl h
        · exact Or.inr (by simp [h])
        · exact Or.inr (List.mem_cons_of_mem _ h)
      · simp [map_insert, h1, h3] at hp
        rcases hp with h | h
        · exact Or.inr (by simp [h])
        · rcases ih h with h4 | h4
          · exact Or.inl h4
          · exact Or.inr (List.mem_cons_of_mem _ h4)

theorem map_find_mem {K V : Type} [DecidableEq K] (m : List (K × V)) (k : K) (v : V)
    (h : map_find m k = some v) : (k, v) ∈ m := by
  induction m with
  | nil => simp [map_find] at h
  | cons e m ih =>
    obtain ⟨k', v'⟩ := e
    by_cases h1 : k' = k
    · simp [map_find, h1] at h
      simp [h1, h]
    · simp [map_find, h1] at h
      exact List.mem_cons_of_mem _ (ih h)

theorem map_find_of_mem {K V : Type} [DecidableEq K] (m : List (K × V)) (k : K) (v : V)
    (hm : (k, v) ∈ m) : ∃ w, map_find m k = some w := by
  induction m with
  | nil => simp at hm
  | cons e m ih =>
    obtain ⟨k', v'⟩ := e
    by_cases h1 : k' = k
    · exact ⟨v', by simp [map_find, h1]⟩
    · have : (k, v) ∈ m := by
        rcases List.mem_cons.mp hm with h | h
        · exact absurd (congrArg Prod.fst h).symm h1
        · exact h
      obtain ⟨w, hw⟩ := ih this
      exact ⟨w, by simp [map_find, h1, hw]⟩

/-! ## Effect of the subroutines on the queue -/

theorem assign_value_Q (o : option_t) (flag value : Str) (s : pstate) :
    (assign_value o flag value s).1.Q = s.Q := by
  unfold assign_value
  split
  · rfl
  · split
    · rfl
    · dsimp only
      cases o.toggle s.mem <;> rfl

theorem process_flags_Q (arg : Str) (fs : List (Str × option_t)) (s s1 : pstate) (b : Bool)
    (h : process_flags arg fs s = (s1, .ok b)) : s1.Q = s.Q ∨ ∃ x, s.Q = x :: s1.Q := by
  induction fs with
  | nil =>
    simp [process_flags] at h
    exact Or.inl (by rw [← h.1])
  | cons e fs ih =>
    obtain ⟨flag, option⟩ := e
    unfold process_flags at h
    split at h
    · split at h
      · split at h
        · simp at h
        · rename_i front Q hQ
          have hq := assign_value_Q option flag front s
          split at h
          · simp at h
          · rename_i s2 heq
            simp at h
            right
            refine ⟨front, ?_⟩
            rw [hQ, ← h.1]
      · have hq := assign_value_Q option flag [] s
        split at h
        · simp at h
        · rename_i s2 heq
          simp at h
          left
          rw [← h.1, ← hq, heq]
    · split at h
      · have hq := assign_value_Q option flag (arg.drop (flag.length + 1)) s
        split at h
        · simp at h
        · rename_i s2 heq
          simp at h
          left
          rw [← h.1, ← hq, heq]
      · exact ih h


/-! ## The outer loop: unfolding, step budget, totality -/

theorem parse_loop_nil (c : clop_t) (n : Nat) (s : pstate) (result : List Str) (h : s.Q = []) :
    parse_loop c n s result = some (s, .ok result) := by
  unfold parse_loop
  simp [h]

theorem parse_loop_zero (c : clop_t) (s : pstate) (result : List Str) (arg : Str) (Q : List Str)
    (h : s.Q = arg :: Q) : parse_loop c 0 s result = none := by
  unfold parse_loop
  simp [h]

theorem parse_loop_succ (c : clop_t) (n : Nat) (s : pstate) (result : List Str) (arg : Str)
    (Q : List Str) (h : s.Q = arg :: Q) :
    parse_loop c (n + 1) s result =
      if c.interpret_double_hypen && arg == ['-', '-'] then
        parse_loop c n { s with Q := [] } (drain Q result)
      else
        match process_arg arg c.flagset { s with Q := Q } with
        | (s1, .error e) => some (s1, .error e)
        | (s1, .ok true) => parse_loop c n s1 result
        | (s1, .ok false) =>
          if c.hypen_arg_error && arg.head? == some '-' then
            some (s1, .error (.illegal_option arg))
          else parse_loop c n s1 (result ++ [arg]) := by
  rw [parse_loop]
  simp only [h]

theorem queue_weight_cons (a : Str) (Q : List Str) :
    queue_weight (a :: Q) = token_weight a + queue_weight Q := by
  simp [queue_weight]

theorem queue_weight_append (P Q : List Str) :
    queue_weight (P ++ Q) = queue_weight P + queue_weight Q := by
  simp [queue_weight]

theorem token_weight_pos (a : Str) : 1 ≤ token_weight a := by
  unfold token_weight
  split <;> omega

theorem queue_weight_flags (cs : List Char) :
    queue_weight (cs.map (fun ch => ['-', ch])) = cs.length := by
  induction cs with
  | nil => rfl
  | cons x cs ih =>
    simp only [List.map_cons, queue_weight_cons, ih, List.length_cons]
    simp [token_weight]
    omega

theorem process_arg_weight (arg : Str) (fs : List (Str × option_t)) (s s1 : pstate) (b : Bool)
    (h : process_arg arg fs s = (s1, .ok b)) :
    queue_weight s1.Q + 1 ≤ token_weight arg + queue_weight s.Q := by
  unfold process_arg at h
  split at h
  · rename_i hb
    simp only [Prod.mk.injEq] at h
    rw [← h.1]
    simp only [push_front_all_eq, queue_weight_append, expand_arg, queue_weight_flags]
    simp only [bundle_expands, Bool.and_eq_true, decide_eq_true_eq] at hb
    have h3 : arg.length ≥ 3 := hb.1.1.1
    simp [token_weight, h3]
    omega
  · have hp := token_weight_pos arg
    rcases process_flags_Q arg fs s s1 b h with hq | ⟨x, hq⟩
    · rw [hq]
      omega
    · rw [hq, queue_weight_cons]
      omega

/-- A larger step budget does not change a result already reached. -/
theorem parse_loop_mono (c : clop_t) (n m : Nat) (s : pstate) (result : List Str)
    (x : pstate × Except dau_t (List Str)) (h : parse_loop c n s result = some x) (hnm : n ≤ m) :
    parse_loop c m s result = some x := by
  induction n generalizing m s result with
  | zero =>
    cases hQ : s.Q with
    | nil => rw [parse_loop_nil c _ s result hQ] at h ⊢; exact h
    | cons arg Q => rw [parse_loop_zero c s result arg Q hQ] at h; cases h
  | succ n ih =>
    cases hQ : s.Q with
    | nil => rw [parse_loop_nil c _ s result hQ] at h ⊢; exact h
    | cons arg Q =>
      obtain ⟨m, rfl⟩ : ∃ k, m = k + 1 := ⟨m - 1, by omega⟩
      rw [parse_loop_succ c n s result arg Q hQ] at h
      rw [parse_loop_succ c m s result arg Q hQ]
      split at h
      · rename_i hc
        rw [if_pos hc]
        exact ih _ _ _ h (by omega)
      · rename_i hc
        rw [if_neg hc]
        split at h
        · rename_i s1 e heq
          exact h
        · rename_i s1 heq
          exact ih _ _ _ h (by omega)
        · rename_i s1 heq
          split at h
          · rename_i hh
            rw [if_pos hh]
            exact h
          · rename_i hh
            rw [if_neg hh]
            exact ih _ _ _ h (by omega)

/-- The loop ends within `queue_weight` iterations. -/
theorem parse_loop_enough (c : clop_t) (n : Nat) (s : pstate) (result : List Str)
    (h : queue_weight s.Q ≤ n) : ∃ x, parse_loop c n s result = some x := by
  induction n generalizing s result with
  | zero =>
    cases hQ : s.Q with
    | nil => exact ⟨_, parse_loop_nil c _ s result hQ⟩
    | cons arg Q =>
      rw [hQ, queue_weight_cons] at h
      have := token_weight_pos arg
      omega
  | succ n ih =>
    cases hQ : s.Q with
    | nil => exact ⟨_, parse_loop_nil c _ s result hQ⟩
    | cons arg Q =>
      rw [hQ, queue_weight_cons] at h
      have hp := token_weight_pos arg
      rw [parse_loop_succ c n s result arg Q hQ]
      split
      · exact ih _ _ (by simp [queue_weight])
      · split
        · exact ⟨_, rfl⟩
        · rename_i s1 heq
          have hw := process_arg_weight arg c.flagset _ s1 true heq
          exact ih _ _ (by simp only at hw; omega)
        · rename_i s1 heq
          have hw := process_arg_weight arg c.flagset _ s1 false heq
          split
          · exact ⟨_, rfl⟩
          · exact ih _ _ (by simp only at hw; omega)

/-- With any budget that is enough, the loop gives what it gives with the budget `parse` uses. -/
theorem parse_loop_fuel (c : clop_t) (n : Nat) (s : pstate) (result : List Str)
    (h : queue_weight s.Q ≤ n) :
    parse_loop c n s result = parse_loop c (queue_weight s.Q) s result := by
  obtain ⟨x, hx⟩ := parse_loop_enough c (queue_weight s.Q) s result (le_refl _)
  rw [hx, parse_loop_mono c _ n s result x hx h]

/-- The method `parse` always returns or throws: the budget never runs out. -/
theorem parse_total (c : clop_t) (mem : memory) (argv : List Str) :
    ∃ o, c.parse mem argv = some o := by
  unfold clop_t.parse
  obtain ⟨x, hx⟩ := parse_loop_enough c (queue_weight (argv.drop 1))
    { Q := argv.drop 1, assigned_options := [], mem := mem } [] (le_refl _)
  simp only [hx]
  exact ⟨_, rfl⟩


theorem parse_loop_indep (c : clop_t) (n m : Nat) (s : pstate) (result : List Str)
    (x y : pstate × Except dau_t (List Str)) (hx : parse_loop c n s result = some x)
    (hy : parse_loop c m s result = some y) : x = y := by
  have h1 := parse_loop_mono c n (max n m) s result x hx (le_max_left _ _)
  have h2 := parse_loop_mono c m (max n m) s result y hy (le_max_right _ _)
  rw [h1] at h2
  exact Option.some.inj h2

/-- The result of `parse` read off a run of the loop with any budget that reaches the end. -/
theorem parse_of_loop (c : clop_t) (mem : memory) (argv : List Str) (n : Nat) (s : pstate)
    (r : Except dau_t (List Str))
    (h : parse_loop c n { Q := argv.drop 1, assigned_options := [], mem := mem } [] = some (s, r)) :
    c.parse mem argv =
      some { clop := { c with assigned_options := s.assigned_options }, mem := s.mem, result := r } := by
  unfold clop_t.parse
  obtain ⟨x, hx⟩ := parse_loop_enough c (queue_weight (argv.drop 1))
    { Q := argv.drop 1, assigned_options := [], mem := mem } [] (le_refl _)
  have := parse_loop_indep c _ _ _ _ _ _ hx h
  subst this
  simp only [hx]

/-- Conversely, the loop run behind an outcome of `parse`. -/
theorem loop_of_parse (c : clop_t) (mem : memory) (argv : List Str) (o : outcome)
    (h : c.parse mem argv = some o) :
    ∃ s, parse_loop c (queue_weight (argv.drop 1))
        { Q := argv.drop 1, assigned_options := [], mem := mem } [] = some (s, o.result) ∧
      o.clop = { c with assigned_options := s.assigned_options } ∧ o.mem = s.mem := by
  unfold clop_t.parse at h
  cases hx : parse_loop c (queue_weight (argv.drop 1))
    { Q := argv.drop 1, assigned_options := [], mem := mem } [] with
  | none =>
    simp only [hx] at h
    cases h
  | some x =>
    obtain ⟨s, r⟩ := x
    simp only [hx, Option.some.injEq] at h
    subst h
    exact ⟨s, rfl, rfl, rfl⟩

/-! ## Matching a token against the flag map -/

theorem process_flags_skip (arg : Str) (p : Str × option_t) (fs : List (Str × option_t))
    (s : pstate) (h : entry_matches arg p = false) :
    process_flags arg (p :: fs) s = process_flags arg fs s := by
  obtain ⟨flag, option⟩ := p
  simp only [entry_matches, Bool.or_eq_false_iff, decide_eq_false_iff_not] at h
  rw [process_flags]
  simp only [if_neg h.1]
  rw [if_neg (by simp [h.2])]

theorem process_flags_hit (arg : Str) (p : Str × option_t) (fs : List (Str × option_t))
    (s : pstate) (h : entry_matches arg p = true) :
    process_flags arg (p :: fs) s = process_flags arg [p] s := by
  obtain ⟨flag, option⟩ := p
  simp only [entry_matches, Bool.or_eq_true, decide_eq_true_eq] at h
  rw [process_flags, process_flags]
  by_cases h1 : arg = flag
  · simp only [if_pos h1]
  · simp only [if_neg h1]
    have h2 := h.resolve_left h1
    rw [if_pos h2, if_pos h2]

theorem process_flags_none (arg : Str) (fs : List (Str × option_t)) (s : pstate)
    (h : ∀ q ∈ fs, entry_matches arg q = false) : process_flags arg fs s = (s, .ok false) := by
  induction fs with
  | nil => rfl
  | cons p fs ih =>
    rw [process_flags_skip arg p fs s (h p (List.mem_cons_self _ _))]
    exact ih (fun q hq => h q (List.mem_cons_of_mem _ hq))

/-- When every matching entry has the key `f`, the entry `map_find` returns for `f` is the
one the loop stops at. -/
theorem process_flags_key (arg f : Str) (o : option_t) (fs : List (Str × option_t)) (s : pstate)
    (hfind : map_find fs f = some o) (hm : entry_matches arg (f, o) = true)
    (hkey : ∀ q ∈ fs, entry_matches arg q = true → q.1 = f) :
    process_flags arg fs s = process_flags arg [(f, o)] s := by
  induction fs with
  | nil => simp [map_find] at hfind
  | cons p fs ih =>
    obtain ⟨k, v⟩ := p
    by_cases hk : k = f
    · subst hk
      simp only [map_find, if_true, Option.some.injEq] at hfind
      subst hfind
      exact process_flags_hit arg _ fs s hm
    · simp only [map_find, if_neg hk] at hfind
      have hno : entry_matches arg (k, v) = false := by
        cases hc : entry_matches arg (k, v) with
        | false => rfl
        | true => exact absurd (hkey (k, v) (List.mem_cons_self _ _) hc) hk
      rw [process_flags_skip arg _ fs s hno]
      exact ih hfind (fun q hq => hkey q (List.mem_cons_of_mem _ hq))

/-- A token of two characters starting with a hyphen matches no flag inline. -/
theorem inline_match_short (x : Char) (flag : Str) : inline_match ['-', x] flag = false := by
  unfold inline_match
  cases flag with
  | nil => simp
  | cons a t => simp

theorem process_flags_short (x : Char) (o : option_t) (fs : List (Str × option_t)) (s : pstate)
    (hfind : map_find fs ['-', x] = some o) :
    process_flags ['-', x] fs s = process_flags ['-', x] [(['-', x], o)] s := by
  apply process_flags_key _ _ _ _ _ hfind
  · simp [entry_matches]
  · intro q _ hq
    simp only [entry_matches, inline_match_short, Bool.and_false, Bool.or_false,
      decide_eq_true_eq] at hq
    exact hq.symm

theorem bundle_expands_short (fs : List (Str × option_t)) (x : Char) :
    bundle_expands fs ['-', x] = false := by
  simp [bundle_expands]

/-! ## Single steps of the outer loop -/

/-- A bundle at the front of the queue is replaced by its expansion. -/
theorem parse_loop_bundle (c : clop_t) (n : Nat) (asg : List (Nat × Str)) (mem : memory)
    (result : List Str) (arg : Str) (Q : List Str) (hb : bundle_expands c.flagset arg = true) :
    parse_loop c (n + 1) { Q := arg :: Q, assigned_options := asg, mem := mem } result =
      parse_loop c n { Q := expand_arg arg ++ Q, assigned_options := asg, mem := mem } result := by
  rw [parse_loop_succ c n _ result arg Q rfl]
  have hlen : arg.length ≥ 3 := by
    simp only [bundle_expands, Bool.and_eq_true, decide_eq_true_eq] at hb
    exact hb.1.1.1
  have hne : ¬ ((c.interpret_double_hypen && arg == ['-', '-']) = true) := by
    intro h
    simp only [Bool.and_eq_true, beq_iff_eq] at h
    rw [h.2] at hlen
    simp at hlen
  rw [if_neg hne]
  simp only [process_arg, hb, if_true, push_front_all_eq]

/-- An unset boolean option whose short flag is at the front of the queue is toggled. -/
theorem parse_loop_toggle (c : clop_t) (n : Nat) (asg : List (Nat × Str)) (mem : memory)
    (result : List Str) (x : Char) (o : option_t) (Q : List Str) (hx : x ≠ '-')
    (hfind : map_find c.flagset ['-', x] = some o) (hbool : o.T.tag = .bool)
    (hun : map_find asg o.varptr = none) :
    parse_loop c (n + 1) { Q := ['-', x] :: Q, assigned_options := asg, mem := mem } result =
      parse_loop c n
        { Q := Q
          assigned_options := map_insert Nat.blt asg o.varptr ['-', x]
          mem := Function.update mem o.var (.boolean (o.help.default_value == ['0'])) }
        result := by
  rw [parse_loop_succ c n _ result _ Q rfl]
  have hne : ¬ ((c.interpret_double_hypen && (['-', x] : Str) == ['-', '-']) = true) := by
    simp [hx]
  rw [if_neg hne]
  have hrv : o.requires_value = false := by simp [option_t.requires_value, hbool]
  simp only [process_arg, bundle_expands_short, Bool.false_eq_true, if_false,
    process_flags_short x o c.flagset _ hfind]
  simp [process_flags, hrv, assign_value, hun, option_t.toggle, hbool]


/-! ## What `add` does to the flag map -/

theorem add_check_none (var : Nat) (sf lf : Option Str) (fs : List (Str × option_t))
    (h : add_check var sf lf fs = none) :
    ∀ p ∈ fs, p.2.varptr ≠ var ∧ sf ≠ some p.1 ∧ lf ≠ some p.1 := by
  induction fs with
  | nil => simp
  | cons e fs ih =>
    obtain ⟨first, second⟩ := e
    unfold add_check at h
    split at h
    · cases h
    · split at h
      · cases h
      · split at h
        · cases h
        · intro p hp
          rcases List.mem_cons.mp hp with rfl | hp
          · exact ⟨by assumption, by assumption, by assumption⟩
          · exact ih h p hp

theorem mem_add_flags (fs : List (Str × option_t)) (sf lf : Option Str) (o : option_t)
    (p : Str × option_t) (hp : p ∈ add_flags fs sf lf o) :
    p ∈ fs ∨ (p.2 = o ∧ (sf = some p.1 ∨ lf = some p.1)) := by
  unfold add_flags at hp
  cases lf with
  | none =>
    cases sf with
    | none => exact Or.inl hp
    | some f =>
      rcases mem_map_insert _ _ _ _ _ hp with h | h
      · exact Or.inr (by simp [h])
      · exact Or.inl h
  | some g =>
    rcases mem_map_insert _ _ _ _ _ hp with h | h
    · exact Or.inr (by simp [h])
    · cases sf with
      | none => exact Or.inl h
      | some f =>
        rcases mem_map_insert _ _ _ _ _ h with h | h
        · exact Or.inr (by simp [h])
        · exact Or.inl h

/-- The flag map after `add`: unchanged when the call throws; otherwise the old map passed
the duplicate checks, the flags given have the legal shapes, and the new option was inserted. -/
theorem add_flagset (c : clop_t) (mem : memory) (T : type_t) (var : Nat) (sf lf : Option Str)
    (d : Str) :
    ((c.add mem T var sf lf d).2 ≠ none ∧ (c.add mem T var sf lf d).1.flagset = c.flagset) ∨
    ((c.add mem T var sf lf d).2 = none ∧ legal_short_flag sf = true ∧
      legal_long_flag lf = true ∧ add_check var sf lf c.flagset = none ∧
      (c.add mem T var sf lf d).1.flagset =
        add_flags c.flagset sf lf (make_option mem T var sf lf d)) := by
  unfold clop_t.add
  split
  · exact Or.inl ⟨by simp, rfl⟩
  · split
    · exact Or.inl ⟨by simp, rfl⟩
    · split
      · exact Or.inl ⟨by simp, rfl⟩
      · split
        · exact Or.inl ⟨by simp, rfl⟩
        · rename_i h1 h2 h3 h4
          dsimp only
          cases hc : add_check var sf lf c.flagset with
          | some e => exact Or.inl ⟨by simp, rfl⟩
          | none =>
            refine Or.inr ⟨rfl, ?_, ?_, rfl, rfl⟩
            · cases sf with
              | none => rfl
              | some f => simpa using h3
            · cases lf with
              | none => rfl
              | some f => simpa using h4

theorem add3_flagset (c : clop_t) (mem : memory) (T : type_t) (var : Nat) (flag : Option Str)
    (d : Str) :
    (c.add3 mem T var flag d).1.flagset = c.flagset ∨
    (∃ sf lf, (c.add3 mem T var flag d).1 = (c.add mem T var sf lf d).1) := by
  unfold clop_t.add3
  cases flag with
  | none => exact Or.inl rfl
  | some f =>
    dsimp only
    split
    · exact Or.inr ⟨_, _, rfl⟩
    · split
      · exact Or.inr ⟨_, _, rfl⟩
      · exact Or.inl rfl

theorem add_flags_legal (c : clop_t) (mem : memory) (T : type_t) (var : Nat) (sf lf : Option Str)
    (d : Str) (h : flags_legal c.flagset) : flags_legal (c.add mem T var sf lf d).1.flagset := by
  rcases add_flagset c mem T var sf lf d with ⟨_, h2⟩ | ⟨_, hs, hl, _, h2⟩
  · rw [h2]
    exact h
  · rw [h2]
    intro p hp
    rcases mem_add_flags _ _ _ _ _ hp with hm | ⟨_, hf | hf⟩
    · exact h p hm
    · exact Or.inl (by rw [← hf]; exact hs)
    · exact Or.inr (by rw [← hf]; exact hl)

theorem add_vars_unique (c : clop_t) (mem : memory) (T : type_t) (var : Nat) (sf lf : Option Str)
    (d : Str) (h : vars_unique c.flagset) : vars_unique (c.add mem T var sf lf d).1.flagset := by
  rcases add_flagset c mem T var sf lf d with ⟨_, h2⟩ | ⟨_, _, _, hc, h2⟩
  · rw [h2]
    exact h
  · rw [h2]
    have hnone := add_check_none var sf lf c.flagset hc
    intro p hp q hq hpq
    rcases mem_add_flags _ _ _ _ _ hp with hm | ⟨ho, _⟩
    · rcases mem_add_flags _ _ _ _ _ hq with hm2 | ⟨ho2, _⟩
      · exact h p hm q hm2 hpq
      · rw [ho2] at hpq
        exact absurd hpq (hnone p hm).1
    · rcases mem_add_flags _ _ _ _ _ hq with hm2 | ⟨ho2, _⟩
      · rw [ho] at hpq
        exact absurd hpq.symm (hnone q hm2).1
      · rw [ho, ho2]

/-- Every parser built by `add` has legal flags only and one option per variable. -/
theorem built_invariant (c : clop_t) (h : built c) :
    flags_legal c.flagset ∧ vars_unique c.flagset := by
  induction h with
  | new => exact ⟨(fun p hp => by cases hp), (fun p hp => by cases hp)⟩
  | add c mem T var sf lf d _ ih =>
    exact ⟨add_flags_legal c mem T var sf lf d ih.1, add_vars_unique c mem T var sf lf d ih.2⟩
  | add3 c mem T var flag d _ ih =>
    rcases add3_flagset c mem T var flag d with h | ⟨sf, lf, h⟩
    · rw [h]
      exact ih
    · rw [h]
      exact ⟨add_flags_legal c mem T var sf lf d ih.1, add_vars_unique c mem T var sf lf d ih.2⟩
  | switches c e d _ ih => exact ih
  | tracker c asg _ ih => exact ih

theorem demo_built : built demo_clop :=
  .add _ _ _ _ _ _ _ (.add _ _ _ _ _ _ _ (.add _ _ _ _ _ _ _ (.add _ _ _ _ _ _ _ .new)))


/-! ## The inline test and the flag shapes -/

theorem get_after_flag (flag v : Str) : (flag ++ '=' :: v).get? flag.length = some '=' := by
  induction flag with
  | nil => rfl
  | cons a t ih => simpa using ih

theorem inline_match_intro (flag v : Str) (hv : v ≠ []) :
    inline_match (flag ++ '=' :: v) flag = true := by
  cases v with
  | nil => exact absurd rfl hv
  | cons a v =>
    simp only [inline_match, get_after_flag, Bool.and_eq_true, decide_eq_true_eq, beq_iff_eq]
    simp

theorem inline_match_elim (arg flag : Str) (h : inline_match arg flag = true) :
    arg = flag ++ '=' :: arg.drop (flag.length + 1) ∧ arg.drop (flag.length + 1) ≠ [] := by
  simp only [inline_match, Bool.and_eq_true, decide_eq_true_eq, beq_iff_eq] at h
  obtain ⟨⟨hlen, htake⟩, hget⟩ := h
  constructor
  · have h1 : arg = arg.take flag.length ++ arg.drop flag.length := (List.take_append_drop _ _).symm
    have h2 : arg.drop flag.length = '=' :: arg.drop (flag.length + 1) := by
      rw [List.get?_eq_getElem?] at hget
      obtain ⟨hlt, hval⟩ := List.getElem?_eq_some_iff.mp hget
      rw [← hval]
      exact List.drop_eq_getElem_cons hlt
    rw [← h2, htake, List.length_take, min_eq_left (by omega)]
    exact h1
  · intro hnil
    have := congrArg List.length hnil
    simp at this
    omega

theorem inline_drop (flag v : Str) : (flag ++ '=' :: v).drop (flag.length + 1) = v := by
  induction flag with
  | nil => simp
  | cons a t ih => simp [ih]

theorem legal_short_elim (f : Str) (h : legal_short_flag (some f) = true) :
    ∃ x, x ≠ '-' ∧ f = ['-', x] := by
  match f with
  | [] => simp [legal_short_flag] at h
  | [_] => simp [legal_short_flag] at h
  | [a, b] =>
    simp [legal_short_flag] at h
    exact ⟨b, h.2, by rw [h.1]⟩
  | _ :: _ :: _ :: _ => simp [legal_short_flag] at h

theorem legal_long_elim (f : Str) (h : legal_long_flag (some f) = true) :
    ∃ x t, f = '-' :: '-' :: x :: t ∧ '=' ∉ f := by
  match f with
  | [] => simp [legal_long_flag] at h
  | [_] => simp [legal_long_flag] at h
  | [_, _] => simp [legal_long_flag] at h
  | a :: b :: x :: t =>
    simp [legal_long_flag] at h
    obtain ⟨⟨h1, h2⟩, h3⟩ := h
    subst h1 h2
    refine ⟨x, t, rfl, ?_⟩
    simpa using h3


/-! ## C1: bundle expansion -/

/-- C1. A bundle `-c1c2...cn` (n >= 2, `c1` not a hyphen) all of whose single-character flags
are registered parses exactly like the flags written separately: the two calls of `parse`
return or throw the same, leave the same variables and the same tracker.  In particular a
bundle of three distinct unset boolean options returns no positional argument, records all
three as set and leaves each variable at the negation of its registered default. -/
theorem C1_bundle_expansion (c : clop_t) (mem : memory) (prog : Str) (c1 c2 : Char)
    (cs : List Char) (rest : List Str) (h1 : c1 ≠ '-')
    (hreg : ∀ ch ∈ c1 :: c2 :: cs, (map_find c.flagset ['-', ch]).isSome = true) :
    (∃ o, c.parse mem (prog :: ('-' :: c1 :: c2 :: cs) :: rest) = some o ∧
        c.parse mem (prog :: ((c1 :: c2 :: cs).map (fun ch => ['-', ch]) ++ rest)) = some o) ∧
    (∀ (c3 : Char) (o1 o2 o3 : option_t), cs = [c3] → rest = [] → c2 ≠ '-' → c3 ≠ '-' →
      map_find c.flagset ['-', c1] = some o1 → map_find c.flagset ['-', c2] = some o2 →
      map_find c.flagset ['-', c3] = some o3 →
      o1.T.tag = .bool → o2.T.tag = .bool → o3.T.tag = .bool →
      o1.varptr ≠ o2.varptr → o1.varptr ≠ o3.varptr → o2.varptr ≠ o3.varptr →
      ∃ o, c.parse mem [prog, ['-', c1, c2, c3]] = some o ∧ o.result = .ok [] ∧
        o.clop.set_var o1.varptr = true ∧ o.clop.set_var o2.varptr = true ∧
        o.clop.set_var o3.varptr = true ∧
        o.clop.set_flag ['-', c1] = true ∧ o.clop.set_flag ['-', c2] = true ∧
        o.clop.set_flag ['-', c3] = true ∧
        o.mem o1.var = .boolean (o1.help.default_value == ['0']) ∧
        o.mem o2.var = .boolean (o2.help.default_value == ['0']) ∧
        o.mem o3.var = .boolean (o3.help.default_value == ['0'])) := by
  have hb : bundle_expands c.flagset ('-' :: c1 :: c2 :: cs) = true := by
    simp only [bundle_expands, bundle_legal, expand_arg, Bool.and_eq_true, decide_eq_true_eq,
      List.all_eq_true, List.mem_map]
    refine ⟨⟨⟨by simp, by simp⟩, by simp [h1]⟩, ?_⟩
    rintro f ⟨ch, hch, rfl⟩
    exact hreg ch (by simpa using hch)
  have hstep : ∀ (n : Nat) (Q : List Str),
      parse_loop c (n + 1)
        { Q := ('-' :: c1 :: c2 :: cs) :: Q, assigned_options := [], mem := mem } [] =
      parse_loop c n
        { Q := (c1 :: c2 :: cs).map (fun ch => ['-', ch]) ++ Q, assigned_options := [], mem := mem }
        [] := by
    intro n Q
    rw [parse_loop_bundle c n [] mem [] _ Q hb]
    rfl
  constructor
  · obtain ⟨o, ho⟩ := parse_total c mem (prog :: ((c1 :: c2 :: cs).map (fun ch => ['-', ch]) ++ rest))
    refine ⟨o, ?_, ho⟩
    obtain ⟨s, hs, hc, hm⟩ := loop_of_parse c mem _ o ho
    have := parse_of_loop c mem (prog :: ('-' :: c1 :: c2 :: cs) :: rest) _ s o.result
      ((hstep _ rest).trans hs)
    rw [this, ← hc, ← hm]
  · intro c3 o1 o2 o3 hcs hrest h2 h3 f1 f2 f3 b1 b2 b3 d12 d13 d23
    subst hcs
    have e1 := hstep 3 []
    simp only [List.map_cons, List.map_nil, List.append_nil] at e1
    have u2 : map_find (map_insert Nat.blt ([] : List (Nat × Str)) o1.varptr ['-', c1]) o2.varptr
        = none := by
      simp [map_find_insert, d12, map_find]
    have u3 : map_find (map_insert Nat.blt (map_insert Nat.blt ([] : List (Nat × Str))
        o1.varptr ['-', c1]) o2.varptr ['-', c2]) o3.varptr = none := by
      simp [map_find_insert, d13, d23, map_find]
    rw [parse_loop_toggle c 2 [] _ [] c1 o1 _ h1 f1 b1 rfl,
      parse_loop_toggle c 1 _ _ [] c2 o2 _ h2 f2 b2 u2,
      parse_loop_toggle c 0 _ _ [] c3 o3 _ h3 f3 b3 u3,
      parse_loop_nil c 0 _ [] rfl] at e1
    refine ⟨_, parse_of_loop c mem _ 4 _ _ e1, rfl, ?_⟩
    have v12 : o1.var ≠ o2.var := d12
    have v13 : o1.var ≠ o3.var := d13
    have v23 : o2.var ≠ o3.var := d23
    simp only [clop_t.set_var, clop_t.set_flag, f1, f2, f3, map_find_insert]
    refine ⟨by split_ifs <;> rfl, by split_ifs <;> rfl, by split_ifs <;> rfl,
      by simp only [Option.isSome_some, Bool.true_and]; split_ifs <;> rfl,
      by simp only [Option.isSome_some, Bool.true_and]; split_ifs <;> rfl,
      by simp only [Option.isSome_some, Bool.true_and]; split_ifs <;> rfl, ?_, ?_, ?_⟩
    · simp [Function.update, v12, v13]
    · simp [Function.update, v23, v12.symm]
    · simp [Function.update]

/-- Witness for C1: the bundle `-abc` on the sample registry. -/
theorem C1_bundle_expansion_witness :
    ('a' ≠ '-' ∧ ∀ ch ∈ ['a', 'b', 'c'], (map_find demo_clop.flagset ['-', ch]).isSome = true) ∧
    (∃ o, demo_clop.parse demo_mem [[], ['-', 'a', 'b', 'c'], ['x']] = some o ∧
        demo_clop.parse demo_mem [[], ['-', 'a'], ['-', 'b'], ['-', 'c'], ['x']] = some o) ∧
    (∃ o, demo_clop.parse demo_mem [[], ['-', 'a', 'b', 'c']] = some o ∧ o.result = .ok [] ∧
        o.clop.set_var 1 = true ∧ o.clop.set_var 2 = true ∧ o.clop.set_var 3 = true ∧
        o.clop.set_flag ['-', 'a'] = true ∧ o.clop.set_flag ['-', 'b'] = true ∧
        o.clop.set_flag ['-', 'c'] = true ∧
        o.mem 1 = .boolean true ∧ o.mem 2 = .boolean true ∧ o.mem 3 = .boolean false) := by
  have h1 : 'a' ≠ '-' := by decide
  have hreg : ∀ ch ∈ ['a', 'b', 'c'], (map_find demo_clop.flagset ['-', ch]).isSome = true := by
    decide
  have hreg2 : ∀ ch ∈ ['a', 'b', 'c'], (map_find demo_clop.flagset ['-', ch]).isSome = true := by
    decide
  exact ⟨⟨h1, hreg⟩, (C1_bundle_expansion demo_clop demo_mem [] 'a' 'b' ['c'] [['x']] h1 hreg).1,
    (C1_bundle_expansion demo_clop demo_mem [] 'a' 'b' ['c'] [] h1 hreg2).2 'c'
      (demo_option T_bool 1 [['-', 'a']] ['0']) (demo_option T_bool 2 [['-', 'b']] ['0'])
      (demo_option T_bool 3 [['-', 'c']] ['1']) rfl rfl (by decide) (by decide) rfl rfl rfl
      rfl rfl rfl (by decide) (by decide) (by decide)⟩


/-! ## C2: bundling is all or nothing -/

/-- A token that is no bundle and matches no entry of the flag map is left to the caller
of `process_arg`, with the state untouched. -/
theorem process_arg_unmatched (arg : Str) (fs : List (Str × option_t)) (s : pstate)
    (hb : bundle_expands fs arg = false) (hm : ∀ q ∈ fs, entry_matches arg q = false) :
    process_arg arg fs s = (s, .ok false) := by
  simp only [process_arg, hb, Bool.false_eq_true, if_false]
  exact process_flags_none arg fs s hm

/-- C2. On a registry of legal flags, a token `-c1c2...cn` (n >= 2, `c1` not a hyphen) with
at least one unregistered expanded flag `-ci`, and not of the form `f=v` for a registered
value-requiring flag `f`, is not bundled at all: `parse` of that single token throws the
unknown-option exception when `hypen_arg_error` is true and returns exactly that token when
it is false; in both cases the variables are unchanged and the tracker is empty. -/
theorem C2_bundle_all_or_nothing (c : clop_t) (mem : memory) (prog : Str) (c1 c2 : Char)
    (cs : List Char) (hlegal : flags_legal c.flagset) (h1 : c1 ≠ '-')
    (hun : ∃ ch ∈ c1 :: c2 :: cs, map_find c.flagset ['-', ch] = none)
    (hinl : ∀ p ∈ c.flagset, p.2.requires_value = true →
      ∀ v, '-' :: c1 :: c2 :: cs ≠ p.1 ++ '=' :: v) :
    c.parse mem [prog, '-' :: c1 :: c2 :: cs] =
      some { clop := { c with assigned_options := [] }
             mem := mem
             result := if c.hypen_arg_error then .error (.illegal_option ('-' :: c1 :: c2 :: cs))
                       else .ok ['-' :: c1 :: c2 :: cs] } ∧
    ∀ o, c.parse mem [prog, '-' :: c1 :: c2 :: cs] = some o →
      (∀ var, o.clop.set_var var = false) ∧ (∀ flag, o.clop.set_flag flag = false) := by
  have hb : bundle_expands c.flagset ('-' :: c1 :: c2 :: cs) = false := by
    obtain ⟨ch, hch, hnone⟩ := hun
    have : bundle_legal c.flagset (expand_arg ('-' :: c1 :: c2 :: cs)) = false := by
      simp only [bundle_legal, expand_arg, List.all_eq_false, List.mem_map]
      exact ⟨['-', ch], ⟨ch, by simpa using hch, rfl⟩, by simp [hnone]⟩
    simp [bundle_expands, this]
  have hm : ∀ q ∈ c.flagset, entry_matches ('-' :: c1 :: c2 :: cs) q = false := by
    intro q hq
    simp only [entry_matches, Bool.or_eq_false_iff, decide_eq_false_iff_not,
      Bool.and_eq_false_iff]
    constructor
    · intro heq
      rcases hlegal q hq with hs | hl
      · obtain ⟨x, _, hx⟩ := legal_short_elim q.1 hs
        rw [hx] at heq
        simp at heq
      · obtain ⟨x, t, hx, _⟩ := legal_long_elim q.1 hl
        rw [hx] at heq
        simp only [List.cons.injEq, true_and] at heq
        exact h1 heq.1
    · cases hr : q.2.requires_value with
      | false => exact Or.inl rfl
      | true =>
        right
        cases hi : inline_match ('-' :: c1 :: c2 :: cs) q.1 with
        | false => rfl
        | true => exact absurd (inline_match_elim _ _ hi).1 (hinl q hq hr _)
  have hloop : parse_loop c 1 { Q := ['-' :: c1 :: c2 :: cs], assigned_options := [], mem := mem } []
      = some ({ Q := [], assigned_options := [], mem := mem },
          if c.hypen_arg_error then .error (.illegal_option ('-' :: c1 :: c2 :: cs))
          else .ok ['-' :: c1 :: c2 :: cs]) := by
    rw [parse_loop_succ c 0 _ [] _ [] rfl]
    have hne : ¬ ((c.interpret_double_hypen && ('-' :: c1 :: c2 :: cs : Str) == ['-', '-']) = true) := by
      simp
    rw [if_neg hne, process_arg_unmatched _ _ _ hb hm]
    cases c.hypen_arg_error with
    | true => simp
    | false => simp [parse_loop_nil]
  have hp := parse_of_loop c mem [prog, '-' :: c1 :: c2 :: cs] 1 _ _ hloop
  refine ⟨hp, ?_⟩
  intro o ho
  rw [hp] at ho
  cases ho
  exact ⟨fun var => rfl, fun flag => by
    unfold clop_t.set_flag
    cases map_find c.flagset flag <;> rfl⟩

/-- The flag map of the sample registry, in key order. -/
theorem demo_flagset :
    demo_clop.flagset =
      [(['-', '-', 'n', 'a', 'm', 'e'],
          demo_option T_string 4 [['-', 'n'], ['-', '-', 'n', 'a', 'm', 'e']]
            ['"', 'd', 'e', 'f', '"']),
        (['-', 'a'], demo_option T_bool 1 [['-', 'a']] ['0']),
        (['-', 'b'], demo_option T_bool 2 [['-', 'b']] ['0']),
        (['-', 'c'], demo_option T_bool 3 [['-', 'c']] ['1']),
        (['-', 'n'], demo_option T_string 4 [['-', 'n'], ['-', '-', 'n', 'a', 'm', 'e']]
            ['"', 'd', 'e', 'f', '"'])] := rfl

/-- The value-requiring flags of the sample registry are `-n` and `--name`. -/
theorem demo_value_flags (p : Str × option_t) (hp : p ∈ demo_clop.flagset)
    (hr : p.2.requires_value = true) :
    p.1 = ['-', 'n'] ∨ p.1 = ['-', '-', 'n', 'a', 'm', 'e'] := by
  rw [demo_flagset] at hp
  simp only [List.mem_cons, List.mem_singleton, List.not_mem_nil, or_false] at hp
  rcases hp with rfl | rfl | rfl | rfl | rfl
  · exact Or.inr rfl
  · cases hr
  · cases hr
  · cases hr
  · exact Or.inl rfl

/-- Witness for C2: `-abz` on the sample registry, where `-z` is not registered, in strict mode
and with `hypen_arg_error` switched off. -/
theorem C2_bundle_all_or_nothing_witness :
    (demo_clop.parse demo_mem [[], ['-', 'a', 'b', 'z']] =
      some { clop := { demo_clop with assigned_options := [] }
             mem := demo_mem
             result := .error (.illegal_option ['-', 'a', 'b', 'z']) }) ∧
    (({ demo_clop with hypen_arg_error := false } : clop_t).parse demo_mem
        [[], ['-', 'a', 'b', 'z']] =
      some { clop := { demo_clop with hypen_arg_error := false, assigned_options := [] }
             mem := demo_mem
             result := .ok [['-', 'a', 'b', 'z']] }) :=
  ⟨(C2_bundle_all_or_nothing demo_clop demo_mem [] 'a' 'b' ['z'] (built_invariant _ demo_built).1
      (by decide) ⟨'z', by decide, rfl⟩
      (fun p hp hr v => by rcases demo_value_flags p hp hr with h | h <;> rw [h] <;> simp)).1,
   (C2_bundle_all_or_nothing ({ demo_clop with hypen_arg_error := false } : clop_t) demo_mem []
      'a' 'b' ['z'] (built_invariant _ demo_built).1
      (by decide) ⟨'z', by decide, rfl⟩
      (fun p hp hr v => by rcases demo_value_flags p hp hr with h | h <;> rw [h] <;> simp)).1⟩


/-! ## Which entries a flag, or an inline token, can match on a registry of legal flags -/

theorem legal_length (f : Str)
    (h : legal_short_flag (some f) = true ∨ legal_long_flag (some f) = true) : 2 ≤ f.length := by
  rcases h with h | h
  · obtain ⟨x, _, rfl⟩ := legal_short_elim f h
    simp
  · obtain ⟨x, t, rfl, _⟩ := legal_long_elim f h
    simp

theorem legal_ne_marker (f : Str)
    (h : legal_short_flag (some f) = true ∨ legal_long_flag (some f) = true) :
    f ≠ ['-', '-'] := by
  rcases h with h | h
  · obtain ⟨x, hx, rfl⟩ := legal_short_elim f h
    simpa using hx
  · obtain ⟨x, t, rfl, _⟩ := legal_long_elim f h
    simp

theorem legal_not_bundle (fs : List (Str × option_t)) (f : Str)
    (h : legal_short_flag (some f) = true ∨ legal_long_flag (some f) = true) :
    bundle_expands fs f = false := by
  rcases h with h | h
  · obtain ⟨x, _, rfl⟩ := legal_short_elim f h
    exact bundle_expands_short fs x
  · obtain ⟨x, t, rfl, _⟩ := legal_long_elim f h
    simp [bundle_expands]

theorem long_inline_not_bundle (fs : List (Str × option_t)) (f v : Str)
    (h : legal_long_flag (some f) = true) : bundle_expands fs (f ++ '=' :: v) = false := by
  obtain ⟨x, t, rfl, _⟩ := legal_long_elim f h
  simp [bundle_expands]

theorem split_at_eq (a b w v : Str) (ha : '=' ∉ a) (hb : '=' ∉ b)
    (h : a ++ '=' :: w = b ++ '=' :: v) : a = b := by
  induction a generalizing b with
  | nil =>
    cases b with
    | nil => rfl
    | cons y b =>
      simp only [List.nil_append, List.cons_append, List.cons.injEq] at h
      exact absurd (by simp [← h.1]) hb
  | cons x a ih =>
    cases b with
    | nil =>
      simp only [List.nil_append, List.cons_append, List.cons.injEq] at h
      exact absurd (by simp [h.1]) ha
    | cons y b =>
      simp only [List.cons_append, List.cons.injEq] at h
      rw [h.1, ih b (fun hm => ha (List.mem_cons_of_mem _ hm))
        (fun hm => hb (List.mem_cons_of_mem _ hm)) h.2]

/-- Two legal flags followed by `=` at the start of the same token are the same flag. -/
theorem legal_split_eq (g f w v : Str)
    (hg : legal_short_flag (some g) = true ∨ legal_long_flag (some g) = true)
    (hf : legal_short_flag (some f) = true ∨ legal_long_flag (some f) = true)
    (h : g ++ '=' :: w = f ++ '=' :: v) : g = f := by
  rcases hg with hg | hg <;> rcases hf with hf | hf
  · obtain ⟨x, _, rfl⟩ := legal_short_elim g hg
    obtain ⟨y, _, rfl⟩ := legal_short_elim f hf
    simp only [List.cons_append, List.nil_append, List.cons.injEq, true_and] at h
    rw [h.1]
  · obtain ⟨x, hx, rfl⟩ := legal_short_elim g hg
    obtain ⟨y, t, rfl, _⟩ := legal_long_elim f hf
    simp only [List.cons_append, List.nil_append, List.cons.injEq, true_and] at h
    exact absurd h.1 hx
  · obtain ⟨x, t, rfl, _⟩ := legal_long_elim g hg
    obtain ⟨y, hy, rfl⟩ := legal_short_elim f hf
    simp only [List.cons_append, List.nil_append, List.cons.injEq, true_and] at h
    exact absurd h.1.symm hy
  · obtain ⟨_, _, _, h1⟩ := legal_long_elim g hg
    obtain ⟨_, _, _, h2⟩ := legal_long_elim f hf
    exact split_at_eq g f w v h1 h2 h

/-- A legal flag is not a shorter legal flag followed by `=` and a value. -/
theorem legal_not_inline (g f : Str)
    (hg : legal_short_flag (some g) = true ∨ legal_long_flag (some g) = true)
    (hf : legal_short_flag (some f) = true ∨ legal_long_flag (some f) = true) :
    inline_match f g = false := by
  cases hi : inline_match f g with
  | false => rfl
  | true =>
    obtain ⟨heq, _⟩ := inline_match_elim f g hi
    have hlen := legal_length g hg
    rcases hf with hf | hf
    · obtain ⟨x, _, rfl⟩ := legal_short_elim f hf
      have := congrArg List.length heq
      simp at this
      omega
    · obtain ⟨_, _, _, h2⟩ := legal_long_elim f hf
      exact absurd (by rw [heq]; simp) h2

theorem matches_exact_key (fs : List (Str × option_t)) (f : Str) (hlegal : flags_legal fs)
    (hf : legal_short_flag (some f) = true ∨ legal_long_flag (some f) = true) :
    ∀ q ∈ fs, entry_matches f q = true → q.1 = f := by
  intro q hq hm
  simp only [entry_matches, Bool.or_eq_true, decide_eq_true_eq, Bool.and_eq_true] at hm
  rcases hm with hm | ⟨_, hm⟩
  · exact hm.symm
  · rw [legal_not_inline q.1 f (hlegal q hq) hf] at hm
    cases hm

theorem matches_inline_key (fs : List (Str × option_t)) (f v : Str) (hlegal : flags_legal fs)
    (hf : legal_short_flag (some f) = true ∨ legal_long_flag (some f) = true) :
    ∀ q ∈ fs, entry_matches (f ++ '=' :: v) q = true → q.1 = f := by
  intro q hq hm
  simp only [entry_matches, Bool.or_eq_true, decide_eq_true_eq, Bool.and_eq_true] at hm
  rcases hm with hm | ⟨_, hm⟩
  · exfalso
    have hlen := legal_length f hf
    rcases hlegal q hq with hs | hl
    · obtain ⟨x, _, hx⟩ := legal_short_elim q.1 hs
      have := congrArg List.length hm
      rw [hx] at this
      simp at this
      omega
    · obtain ⟨_, _, _, h2⟩ := legal_long_elim q.1 hl
      exact h2 (by rw [← hm]; simp)
  · obtain ⟨heq, _⟩ := inline_match_elim _ _ hm
    exact legal_split_eq q.1 f _ v (hlegal q hq) hf heq.symm

theorem find_legal (fs : List (Str × option_t)) (f : Str) (o : option_t) (hlegal : flags_legal fs)
    (hfind : map_find fs f = some o) :
    legal_short_flag (some f) = true ∨ legal_long_flag (some f) = true :=
  hlegal (f, o) (map_find_mem fs f o hfind)

/-! ## Steps of the outer loop on a registered flag -/

/-- The subroutine `assign_value` neither reads nor writes the queue. -/
theorem assign_value_frame (o : option_t) (flag value : Str) (Q : List Str)
    (asg : List (Nat × Str)) (mem : memory) :
    assign_value o flag value { Q := Q, assigned_options := asg, mem := mem } =
      ({ Q := Q
         assigned_options := (assign_value o flag value ⟨[], asg, mem⟩).1.assigned_options
         mem := (assign_value o flag value ⟨[], asg, mem⟩).1.mem },
       (assign_value o flag value ⟨[], asg, mem⟩).2) := by
  unfold assign_value
  dsimp only
  split
  · rfl
  · split
    · rfl
    · cases o.toggle mem <;> rfl

/-- An inline token `F=v` of a registered value-requiring flag at the front of the queue. -/
theorem parse_loop_inline (c : clop_t) (n : Nat) (asg : List (Nat × Str)) (mem : memory)
    (result : List Str) (F v : Str) (o : option_t) (Q : List Str)
    (hlegal : flags_legal c.flagset) (hF : map_find c.flagset F = some o)
    (hrv : o.requires_value = true) (hv : v ≠ [])
    (hnb : bundle_expands c.flagset (F ++ '=' :: v) = false) :
    parse_loop c (n + 1) { Q := (F ++ '=' :: v) :: Q, assigned_options := asg, mem := mem } result =
      match assign_value o F v { Q := Q, assigned_options := asg, mem := mem } with
      | (s1, some e) => some (s1, .error e)
      | (s1, none) => parse_loop c n s1 result := by
  have hf := find_legal c.flagset F o hlegal hF
  have hlen := legal_length F hf
  rw [parse_loop_succ c n _ result _ Q rfl]
  have hne : ¬ ((c.interpret_double_hypen && (F ++ '=' :: v) == ['-', '-']) = true) := by
    intro h
    simp only [Bool.and_eq_true, beq_iff_eq] at h
    have := congrArg List.length h.2
    simp at this
    omega
  rw [if_neg hne]
  have hm : entry_matches (F ++ '=' :: v) (F, o) = true := by
    simp [entry_matches, hrv, inline_match_intro F v hv]
  have hneq : ¬ (F ++ '=' :: v = F) := by
    intro h
    have := congrArg List.length h
    simp at this
  simp only [process_arg, hnb, Bool.false_eq_true, if_false,
    process_flags_key _ F o c.flagset _ hF hm (matches_inline_key c.flagset F v hlegal hf)]
  simp only [process_flags, if_neg hneq, hrv, inline_match_intro F v hv, Bool.and_self, if_true,
    inline_drop]
  cases h2 : (assign_value o F v { Q := Q, assigned_options := asg, mem := mem }) with
  | mk s1 e => cases e <;> rfl

/-- A registered value-requiring flag at the front of the queue, followed by a token. -/
theorem parse_loop_value (c : clop_t) (n : Nat) (asg : List (Nat × Str)) (mem : memory)
    (result : List Str) (F v : Str) (o : option_t) (Q : List Str)
    (hlegal : flags_legal c.flagset) (hF : map_find c.flagset F = some o)
    (hrv : o.requires_value = true) :
    parse_loop c (n + 1) { Q := F :: v :: Q, assigned_options := asg, mem := mem } result =
      match assign_value o F v { Q := Q, assigned_options := asg, mem := mem } with
      | (s1, some e) => some ({ s1 with Q := v :: Q }, .error e)
      | (s1, none) => parse_loop c n s1 result := by
  have hf := find_legal c.flagset F o hlegal hF
  rw [parse_loop_succ c n _ result _ _ rfl]
  have hne : ¬ ((c.interpret_double_hypen && F == ['-', '-']) = true) := by
    intro h
    simp only [Bool.and_eq_true, beq_iff_eq] at h
    exact legal_ne_marker F hf h.2
  rw [if_neg hne]
  have hm : entry_matches F (F, o) = true := by simp [entry_matches]
  simp only [process_arg, legal_not_bundle c.flagset F hf, Bool.false_eq_true, if_false,
    process_flags_key _ F o c.flagset _ hF hm (matches_exact_key c.flagset F hlegal hf)]
  simp only [process_flags, if_true, hrv]
  rw [assign_value_frame o F v (v :: Q), assign_value_frame o F v Q]
  cases (assign_value o F v ⟨[], asg, mem⟩).2 <;> rfl

/-- A registered boolean flag at the front of the queue. -/
theorem parse_loop_flag (c : clop_t) (n : Nat) (asg : List (Nat × Str)) (mem : memory)
    (result : List Str) (F : Str) (o : option_t) (Q : List Str)
    (hlegal : flags_legal c.flagset) (hF : map_find c.flagset F = some o)
    (hrv : o.requires_value = false) :
    parse_loop c (n + 1) { Q := F :: Q, assigned_options := asg, mem := mem } result =
      match assign_value o F [] { Q := Q, assigned_options := asg, mem := mem } with
      | (s1, some e) => some (s1, .error e)
      | (s1, none) => parse_loop c n s1 result := by
  have hf := find_legal c.flagset F o hlegal hF
  rw [parse_loop_succ c n _ result _ _ rfl]
  have hne : ¬ ((c.interpret_double_hypen && F == ['-', '-']) = true) := by
    intro h
    simp only [Bool.and_eq_true, beq_iff_eq] at h
    exact legal_ne_marker F hf h.2
  rw [if_neg hne]
  have hm : entry_matches F (F, o) = true := by simp [entry_matches]
  simp only [process_arg, legal_not_bundle c.flagset F hf, Bool.false_eq_true, if_false,
    process_flags_key _ F o c.flagset _ hF hm (matches_exact_key c.flagset F hlegal hf)]
  simp only [process_flags, if_true, hrv, Bool.false_eq_true, if_false]
  cases h2 : (assign_value o F [] { Q := Q, assigned_options := asg, mem := mem }) with
  | mk s1 e => cases e <;> rfl

/-- A registered value-requiring flag as the last token of the queue. -/
theorem parse_loop_missing (c : clop_t) (n : Nat) (asg : List (Nat × Str)) (mem : memory)
    (result : List Str) (F : Str) (o : option_t)
    (hlegal : flags_legal c.flagset) (hF : map_find c.flagset F = some o)
    (hrv : o.requires_value = true) :
    parse_loop c (n + 1) { Q := [F], assigned_options := asg, mem := mem } result =
      some ({ Q := [], assigned_options := asg, mem := mem }, .error (.requires_a_value F)) := by
  have hf := find_legal c.flagset F o hlegal hF
  rw [parse_loop_succ c n _ result _ _ rfl]
  have hne : ¬ ((c.interpret_double_hypen && F == ['-', '-']) = true) := by
    intro h
    simp only [Bool.and_eq_true, beq_iff_eq] at h
    exact legal_ne_marker F hf h.2
  rw [if_neg hne]
  have hm : entry_matches F (F, o) = true := by simp [entry_matches]
  simp only [process_arg, legal_not_bundle c.flagset F hf, Bool.false_eq_true, if_false,
    process_flags_key _ F o c.flagset _ hF hm (matches_exact_key c.flagset F hlegal hf)]
  simp only [process_flags, if_true, hrv]


/-! ## C3: inline values -/

/-- C3. On a registry of legal flags, for a registered value-requiring flag `F`, a non-empty
value text `v` and any following tokens, the inline token `F=v` (when it is not expandable as a
bundle, which a long flag never is) and the two tokens `F`, `v` give the same outcome of
`parse`: same returned vector or exception, same variables, same tracker.  For a
`std::string` option alone on the command line the variable receives exactly `v` and the flag
is reported set. -/
theorem C3_inline_value (c : clop_t) (mem : memory) (prog F v : Str) (rest : List Str)
    (o : option_t) (hlegal : flags_legal c.flagset) (hF : map_find c.flagset F = some o)
    (hrv : o.requires_value = true) (hv : v ≠ [])
    (hnb : legal_long_flag (some F) = true ∨ bundle_expands c.flagset (F ++ '=' :: v) = false) :
    ∃ r, c.parse mem (prog :: (F ++ '=' :: v) :: rest) = some r ∧
      c.parse mem (prog :: F :: v :: rest) = some r ∧
      (o.T.tag = .string → rest = [] →
        r.result = .ok [] ∧ r.mem o.var = .string v ∧ r.clop.set_flag F = true ∧
        r.clop.set_var o.varptr = true) := by
  have hnb2 : bundle_expands c.flagset (F ++ '=' :: v) = false := by
    rcases hnb with h | h
    · exact long_inline_not_bundle c.flagset F v h
    · exact h
  have hL := parse_loop_inline c (queue_weight rest) [] mem [] F v o rest hlegal hF hrv hv hnb2
  have hR := parse_loop_value c (queue_weight rest) [] mem [] F v o rest hlegal hF hrv
  have hQ := assign_value_Q o F v { Q := rest, assigned_options := [], mem := mem }
  cases hA : assign_value o F v { Q := rest, assigned_options := [], mem := mem } with
  | mk s1 e =>
    rw [hA] at hL hR hQ
    cases e with
    | some err =>
      simp only at hL hR
      refine ⟨_, parse_of_loop c mem _ _ _ _ hL,
        parse_of_loop c mem _ _ ⟨v :: rest, s1.assigned_options, s1.mem⟩ _ hR, ?_⟩
      intro htag _
      exfalso
      have hfalse : (assign_value o F v { Q := rest, assigned_options := [], mem := mem }).2
          = none := by
        simp [assign_value, map_find, hrv]
      rw [hA] at hfalse
      cases hfalse
    | none =>
      obtain ⟨x, hx⟩ := parse_loop_enough c (queue_weight rest) s1 []
        (by simp only at hQ; rw [hQ])
      simp only at hL hR
      rw [hx] at hL hR
      refine ⟨_, parse_of_loop c mem _ _ _ _ hL, parse_of_loop c mem _ _ _ _ hR, ?_⟩
      intro htag hrest
      subst hrest
      have hs1 : s1 = (⟨[], map_insert Nat.blt [] o.varptr F,
          Function.update mem o.var (.string v)⟩ : pstate) := by
        have : (assign_value o F v { Q := [], assigned_options := [], mem := mem }).1 =
            (⟨[], map_insert Nat.blt [] o.varptr F,
              Function.update mem o.var (.string v)⟩ : pstate) := by
          simp [assign_value, map_find, hrv, option_t.assign, htag]
        rw [hA] at this
        exact this
      subst hs1
      rw [parse_loop_nil c _ _ [] rfl] at hx
      cases hx
      refine ⟨rfl, by simp, ?_, ?_⟩
      · simp [clop_t.set_flag, hF, map_find_insert]
      · simp [clop_t.set_var, map_find_insert]

/-- Witness for C3: `--name=bob` against `--name bob` on the sample registry. -/
theorem C3_inline_value_witness :
    ∃ r, demo_clop.parse demo_mem [[], ['-', '-', 'n', 'a', 'm', 'e'] ++ '=' :: ['b', 'o', 'b']]
        = some r ∧
      demo_clop.parse demo_mem [[], ['-', '-', 'n', 'a', 'm', 'e'], ['b', 'o', 'b']] = some r ∧
      r.result = .ok [] ∧ r.mem 4 = .string ['b', 'o', 'b'] ∧
      r.clop.set_flag ['-', '-', 'n', 'a', 'm', 'e'] = true ∧ r.clop.set_var 4 = true := by
  obtain ⟨r, h1, h2, h3⟩ := C3_inline_value demo_clop demo_mem [] ['-', '-', 'n', 'a', 'm', 'e']
    ['b', 'o', 'b'] []
    (demo_option T_string 4 [['-', 'n'], ['-', '-', 'n', 'a', 'm', 'e']] ['"', 'd', 'e', 'f', '"'])
    (built_invariant _ demo_built).1 rfl rfl (by decide) (Or.inl (by decide))
  exact ⟨r, h1, h2, h3 rfl rfl⟩


/-! ## C4 and C5: the marker `--` -/

/-- The marker at the front of the queue ends the loop: the rest of the queue is appended to
the result and the state is left as it is. -/
theorem parse_loop_marker (c : clop_t) (n : Nat) (asg : List (Nat × Str)) (mem : memory)
    (result Q : List Str) (h : c.interpret_double_hypen = true) :
    parse_loop c (n + 1) { Q := ['-', '-'] :: Q, assigned_options := asg, mem := mem } result =
      some ({ Q := [], assigned_options := asg, mem := mem }, .ok (result ++ Q)) := by
  rw [parse_loop_succ c n _ result _ Q rfl]
  rw [if_pos (by simp [h])]
  rw [parse_loop_nil c n _ _ rfl, drain_eq]

/-- C4. With `interpret_double_hypen` enabled, `parse` of `--` followed by any tokens returns
exactly those tokens, in order, whatever the registry; no variable changes and the tracker is
empty, so no option is reported set. -/
theorem C4_marker_first (c : clop_t) (mem : memory) (prog : Str) (rest : List Str)
    (h : c.interpret_double_hypen = true) :
    c.parse mem (prog :: ['-', '-'] :: rest) =
      some { clop := { c with assigned_options := [] }, mem := mem, result := .ok rest } ∧
    ∀ var, ({ c with assigned_options := [] } : clop_t).set_var var = false :=
  ⟨by
    have := parse_of_loop c mem (prog :: ['-', '-'] :: rest) 1 _ _
      (parse_loop_marker c 0 [] mem [] rest h)
    simpa using this,
   fun _ => rfl⟩

/-- Witness for C4: `-- -a foo` on the sample registry returns `-a foo` and leaves `-a` alone. -/
theorem C4_marker_first_witness :
    demo_clop.interpret_double_hypen = true ∧
    (demo_clop.parse demo_mem [[], ['-', '-'], ['-', 'a'], ['f', 'o', 'o']] =
      some { clop := { demo_clop with assigned_options := [] }, mem := demo_mem,
             result := .ok [['-', 'a'], ['f', 'o', 'o']] }) ∧
    demo_mem 1 = .boolean false :=
  ⟨rfl, (C4_marker_first demo_clop demo_mem [] [['-', 'a'], ['f', 'o', 'o']] rfl).1, rfl⟩


/-! ## Tokens behind the part of the queue a run consumes -/

/-- A call of `process_arg` that returns does the same with more tokens at the back of the
queue, and leaves them there. -/
theorem process_flags_append (arg : Str) (fs : List (Str × option_t)) (Q : List Str)
    (asg : List (Nat × Str)) (mem : memory) (suffix : List Str) (s1 : pstate) (b : Bool)
    (h : process_flags arg fs { Q := Q, assigned_options := asg, mem := mem } = (s1, .ok b)) :
    process_flags arg fs { Q := Q ++ suffix, assigned_options := asg, mem := mem } =
      ({ Q := s1.Q ++ suffix, assigned_options := s1.assigned_options, mem := s1.mem }, .ok b) := by
  induction fs with
  | nil =>
    simp only [process_flags, Prod.mk.injEq, Except.ok.injEq] at h ⊢
    obtain ⟨rfl, rfl⟩ := h
    exact ⟨rfl, rfl⟩
  | cons e fs ih =>
    obtain ⟨flag, option⟩ := e
    unfold process_flags at h ⊢
    by_cases h1 : arg = flag
    · simp only [if_pos h1] at h ⊢
      cases hrv : option.requires_value with
      | true =>
        simp only [hrv, if_true] at h ⊢
        cases Q with
        | nil => simp at h
        | cons front Q =>
          simp only [List.cons_append] at h ⊢
          rw [assign_value_frame] at h ⊢
          cases hA : (assign_value option flag front ⟨[], asg, mem⟩).2 with
          | some e => simp [hA] at h
          | none =>
            simp only [hA, Prod.mk.injEq, Except.ok.injEq] at h ⊢
            obtain ⟨rfl, rfl⟩ := h
            exact ⟨rfl, rfl⟩
      | false =>
        simp only [hrv, Bool.false_eq_true, if_false] at h ⊢
        rw [assign_value_frame] at h ⊢
        cases hA : (assign_value option flag [] ⟨[], asg, mem⟩).2 with
        | some e => simp [hA] at h
        | none =>
          simp only [hA, Prod.mk.injEq, Except.ok.injEq] at h ⊢
          obtain ⟨rfl, rfl⟩ := h
          exact ⟨rfl, rfl⟩
    · simp only [if_neg h1] at h ⊢
      by_cases h2 : (option.requires_value && inline_match arg flag) = true
      · simp only [if_pos h2] at h ⊢
        rw [assign_value_frame] at h ⊢
        cases hA : (assign_value option flag (arg.drop (flag.length + 1)) ⟨[], asg, mem⟩).2 with
        | some e => simp [hA] at h
        | none =>
          simp only [hA, Prod.mk.injEq, Except.ok.injEq] at h ⊢
          obtain ⟨rfl, rfl⟩ := h
          exact ⟨rfl, rfl⟩
      · simp only [if_neg h2] at h ⊢
        exact ih h

theorem process_arg_append (arg : Str) (fs : List (Str × option_t)) (Q : List Str)
    (asg : List (Nat × Str)) (mem : memory) (suffix : List Str) (s1 : pstate) (b : Bool)
    (h : process_arg arg fs { Q := Q, assigned_options := asg, mem := mem } = (s1, .ok b)) :
    process_arg arg fs { Q := Q ++ suffix, assigned_options := asg, mem := mem } =
      ({ Q := s1.Q ++ suffix, assigned_options := s1.assigned_options, mem := s1.mem }, .ok b) := by
  unfold process_arg at h ⊢
  split at h
  · rename_i hb
    simp only [if_pos hb, Prod.mk.injEq, Except.ok.injEq] at h ⊢
    obtain ⟨rfl, rfl⟩ := h
    simp [push_front_all_eq]
  · rename_i hb
    simp only [if_neg hb]
    exact process_flags_append arg fs Q asg mem suffix s1 b h

/-- On a registry of legal flags `process_arg` puts no marker into the queue. -/
theorem process_arg_no_marker (arg : Str) (fs : List (Str × option_t)) (s s1 : pstate) (b : Bool)
    (hlegal : flags_legal fs) (h : process_arg arg fs s = (s1, .ok b))
    (hno : ['-', '-'] ∉ s.Q) : ['-', '-'] ∉ s1.Q := by
  unfold process_arg at h
  split at h
  · rename_i hb
    simp only [Prod.mk.injEq, Except.ok.injEq] at h
    rw [← h.1]
    simp only [push_front_all_eq, List.mem_append, not_or]
    refine ⟨?_, hno⟩
    intro hmem
    simp only [bundle_expands, bundle_legal, Bool.and_eq_true, List.all_eq_true] at hb
    have hsome := hb.2 _ hmem
    cases hf : map_find fs ['-', '-'] with
    | none => simp [hf] at hsome
    | some o => exact legal_ne_marker _ (find_legal fs _ o hlegal hf) rfl
  · rcases process_flags_Q arg fs s s1 b h with hq | ⟨x, hq⟩
    · rw [hq]
      exact hno
    · rw [hq] at hno
      exact fun hm => hno (List.mem_cons_of_mem _ hm)

/-- A run of the loop that returns, on a queue without marker, is the first part of the run on
the same queue with more tokens behind: that run goes on from the state reached. -/
theorem parse_loop_append (c : clop_t) (hlegal : flags_legal c.flagset) (n : Nat) (s s' : pstate)
    (result out suffix : List Str) (x : pstate × Except dau_t (List Str))
    (h : parse_loop c n s result = some (s', .ok out)) (hno : ['-', '-'] ∉ s.Q) (k : Nat)
    (hk : parse_loop c k
      { Q := suffix, assigned_options := s'.assigned_options, mem := s'.mem } out = some x) :
    parse_loop c (n + k)
      { Q := s.Q ++ suffix, assigned_options := s.assigned_options, mem := s.mem } result
      = some x := by
  induction n generalizing s result with
  | zero =>
    cases hQ : s.Q with
    | nil =>
      rw [parse_loop_nil c _ s result hQ] at h
      simp only [Option.some.injEq, Prod.mk.injEq, Except.ok.injEq] at h
      obtain ⟨rfl, rfl⟩ := h
      simpa using hk
    | cons arg Q => rw [parse_loop_zero c s result arg Q hQ] at h; cases h
  | succ n ih =>
    cases hQ : s.Q with
    | nil =>
      rw [parse_loop_nil c _ s result hQ] at h
      simp only [Option.some.injEq, Prod.mk.injEq, Except.ok.injEq] at h
      obtain ⟨rfl, rfl⟩ := h
      exact parse_loop_mono c k _ _ _ x (by simpa using hk) (by omega)
    | cons arg Q =>
      rw [hQ] at hno
      have harg : arg ≠ ['-', '-'] := fun e => hno (by simp [e])
      have hnoQ : ['-', '-'] ∉ Q := fun e => hno (List.mem_cons_of_mem _ e)
      rw [parse_loop_succ c n s result arg Q hQ] at h
      have hfuel : n + 1 + k = (n + k) + 1 := by omega
      rw [hfuel, parse_loop_succ c (n + k) _ result arg (Q ++ suffix) (by simp)]
      have hne : ¬ ((c.interpret_double_hypen && arg == ['-', '-']) = true) := by
        simp [harg]
      rw [if_neg hne] at h ⊢
      dsimp only at h ⊢
      cases hp : process_arg arg c.flagset (⟨Q, s.assigned_options, s.mem⟩ : pstate) with
      | mk s1 r =>
        rw [hp] at h
        cases r with
        | error e => simp at h
        | ok b =>
          have hp2 := process_arg_append arg c.flagset Q s.assigned_options s.mem suffix s1 b hp
          have hno1 := process_arg_no_marker arg c.flagset _ s1 b hlegal hp hnoQ
          simp only [hp2]
          cases b with
          | true =>
            simp only at h ⊢
            exact ih s1 result h hno1
          | false =>
            simp only at h ⊢
            split at h
            · simp at h
            · rename_i hh
              rw [if_neg hh]
              exact ih s1 _ h hno1


/-- C5, as stated, fails: on the sample registry `--name -- -a` parses successfully, yet the
first `--` is assigned to the variable of `--name`, and the token `-a` after it is not
returned but toggles its option. -/
theorem C5_marker_consumed_as_value :
    demo_clop.interpret_double_hypen = true ∧
    ['-', '-'] ∈ [['-', '-', 'n', 'a', 'm', 'e'], ['-', '-'], ['-', 'a']] ∧
    ∃ r, demo_clop.parse demo_mem [[], ['-', '-', 'n', 'a', 'm', 'e'], ['-', '-'], ['-', 'a']]
        = some r ∧
      r.result = .ok [] ∧ r.mem 4 = .string ['-', '-'] ∧
      demo_mem 1 = .boolean false ∧ r.mem 1 = .boolean true ∧ r.clop.set_var 1 = true ∧
      ¬ ∃ front : List Str, ([] : List Str) = front ++ [['-', 'a']] := by
  refine ⟨rfl, by decide, ?_⟩
  obtain ⟨r, hr⟩ := parse_total demo_clop demo_mem
    [[], ['-', '-', 'n', 'a', 'm', 'e'], ['-', '-'], ['-', 'a']]
  have h : (demo_clop.parse demo_mem
      [[], ['-', '-', 'n', 'a', 'm', 'e'], ['-', '-'], ['-', 'a']]).map
        (fun o => (o.result, o.mem 4, o.mem 1, o.clop.set_var 1)) =
      some (.ok [], .string ['-', '-'], .boolean true, true) := by decide
  rw [hr] at h
  simp only [Option.map_some', Option.some.injEq, Prod.mk.injEq] at h
  exact ⟨r, hr, h.1, h.2.1, rfl, h.2.2.1, h.2.2.2, by simp⟩

/-- C5, amended. On a registry of legal flags with `interpret_double_hypen` enabled, when the
tokens before the first `--` parse successfully on their own (so the `--` is not taken as the
value of a flag before it), `parse` of the whole list succeeds, the `--` is dropped, every
token after it is returned verbatim and in order behind the positionals of the tokens before
it, and the variables and the tracker are those left by the tokens before it. -/
theorem C5_marker_after_prefix (c : clop_t) (mem : memory) (prog : Str) (pre post : List Str)
    (r : outcome) (res : List Str) (hlegal : flags_legal c.flagset)
    (hd : c.interpret_double_hypen = true) (hno : ['-', '-'] ∉ pre)
    (hpre : c.parse mem (prog :: pre) = some r) (hres : r.result = .ok res) :
    c.parse mem (prog :: (pre ++ ['-', '-'] :: post)) =
      some { clop := r.clop, mem := r.mem, result := .ok (res ++ post) } := by
  obtain ⟨s, hs, hc, hm⟩ := loop_of_parse c mem _ r hpre
  rw [hres] at hs
  have hk := parse_loop_marker c 0 s.assigned_options s.mem res post hd
  have := parse_loop_append c hlegal _ _ s [] res (['-', '-'] :: post) _ hs hno 1 hk
  have hp := parse_of_loop c mem (prog :: (pre ++ ['-', '-'] :: post)) _ _ _ this
  rw [hp, hc, hm]

/-- Witness for C5 amended: `-a x -- -b --name` on the sample registry. -/
theorem C5_marker_after_prefix_witness :
    ∃ r, demo_clop.parse demo_mem [[], ['-', 'a'], ['x']] = some r ∧ r.result = .ok [['x']] ∧
      demo_clop.parse demo_mem
          ([] :: ([['-', 'a'], ['x']] ++
            ['-', '-'] :: [['-', 'b'], ['-', '-', 'n', 'a', 'm', 'e']])) =
        some { clop := r.clop, mem := r.mem,
               result := .ok ([['x']] ++ [['-', 'b'], ['-', '-', 'n', 'a', 'm', 'e']]) } := by
  obtain ⟨r, hr⟩ := parse_total demo_clop demo_mem [[], ['-', 'a'], ['x']]
  have h : (demo_clop.parse demo_mem [[], ['-', 'a'], ['x']]).map (fun o => o.result) =
      some (.ok [['x']]) := by decide
  rw [hr] at h
  simp only [Option.map_some', Option.some.injEq] at h
  exact ⟨r, hr, h, C5_marker_after_prefix demo_clop demo_mem [] [['-', 'a'], ['x']]
    [['-', 'b'], ['-', '-', 'n', 'a', 'm', 'e']] r [['x']] (built_invariant _ demo_built).1 rfl
    (by decide) hr h⟩


/-! ## C6: double assignment -/

/-- The subroutine `assign_value` on an option already in the tracker throws and changes nothing. -/
theorem assign_value_double (o : option_t) (flag value first : Str) (s : pstate)
    (h : map_find s.assigned_options o.varptr = some first) :
    assign_value o flag value s = (s, some (.double_initialized first flag)) := by
  simp [assign_value, h]

/-- C6, as stated, fails: on the sample registry, in `--name x --name` processing reaches the
second `--name` while its option is recorded under the first, and `parse` throws the
missing-value exception, not the double-assignment one. -/
theorem C6_last_flag_missing_value :
    (demo_clop.parse demo_mem
        [[], ['-', '-', 'n', 'a', 'm', 'e'], ['x'], ['-', '-', 'n', 'a', 'm', 'e']]).map
      (fun r => (r.result, r.clop.assigned_options, r.mem 4)) =
      some (.error (.requires_a_value ['-', '-', 'n', 'a', 'm', 'e']),
        [(4, ['-', '-', 'n', 'a', 'm', 'e'])], .string ['x']) ∧
    (dau_t.requires_a_value ['-', '-', 'n', 'a', 'm', 'e']).kind ≠ .DoubleAssignmentError := by
  decide

/-- C6, amended. On a registry of legal flags, when the loop of `parse` reaches a flag `g` of an
option already recorded in the tracker under `f`, it throws the double-assignment exception
naming `f` and `g`, with the variables and the tracker as they were: for `g` a boolean flag as
an exact token, for `g` a value-requiring flag as an exact token with a token after it, for
an inline token `g=v`, and for a bundle starting with the boolean flag `g`. -/
theorem C6_double_assignment (c : clop_t) (hlegal : flags_legal c.flagset) (n : Nat)
    (asg : List (Nat × Str)) (mem : memory) (result : List Str) (f g : Str) (o : option_t)
    (Q : List Str) (hg : map_find c.flagset g = some o)
    (hf : map_find asg o.varptr = some f) :
    (o.requires_value = false →
      parse_loop c (n + 1) { Q := g :: Q, assigned_options := asg, mem := mem } result =
        some ({ Q := Q, assigned_options := asg, mem := mem },
          .error (.double_initialized f g))) ∧
    (o.requires_value = true → ∀ v,
      parse_loop c (n + 1) { Q := g :: v :: Q, assigned_options := asg, mem := mem } result =
        some ({ Q := v :: Q, assigned_options := asg, mem := mem },
          .error (.double_initialized f g))) ∧
    (o.requires_value = true → ∀ v, v ≠ [] → bundle_expands c.flagset (g ++ '=' :: v) = false →
      parse_loop c (n + 1)
          { Q := (g ++ '=' :: v) :: Q, assigned_options := asg, mem := mem } result =
        some ({ Q := Q, assigned_options := asg, mem := mem },
          .error (.double_initialized f g))) ∧
    (o.requires_value = false → ∀ x y cs, g = ['-', x] →
      (∀ ch ∈ y :: cs, (map_find c.flagset ['-', ch]).isSome = true) →
      parse_loop c (n + 2)
          { Q := ('-' :: x :: y :: cs) :: Q, assigned_options := asg, mem := mem } result =
        some ({ Q := (y :: cs).map (fun ch => ['-', ch]) ++ Q, assigned_options := asg,
                mem := mem },
          .error (.double_initialized f g))) := by
  have hflag : o.requires_value = false → ∀ Q' : List Str,
      parse_loop c (n + 1) { Q := g :: Q', assigned_options := asg, mem := mem } result =
        some ({ Q := Q', assigned_options := asg, mem := mem },
          .error (.double_initialized f g)) := by
    intro hrv Q'
    rw [parse_loop_flag c n asg mem result g o Q' hlegal hg hrv,
      assign_value_double o g [] f _ hf]
  refine ⟨fun hrv => hflag hrv Q, ?_, ?_, ?_⟩
  · intro hrv v
    rw [parse_loop_value c n asg mem result g v o Q hlegal hg hrv,
      assign_value_double o g v f _ hf]
  · intro hrv v hv hnb
    rw [parse_loop_inline c n asg mem result g v o Q hlegal hg hrv hv hnb,
      assign_value_double o g v f _ hf]
  · intro hrv x y cs hgx hreg
    subst hgx
    have hx : x ≠ '-' := by
      intro hx
      subst hx
      exact legal_ne_marker _ (find_legal c.flagset _ o hlegal hg) rfl
    have hb : bundle_expands c.flagset ('-' :: x :: y :: cs) = true := by
      simp only [bundle_expands, bundle_legal, expand_arg, Bool.and_eq_true, decide_eq_true_eq,
        List.all_eq_true, List.mem_map]
      refine ⟨⟨⟨by simp, by simp⟩, by simp [hx]⟩, ?_⟩
      rintro fl ⟨ch, hch, rfl⟩
      simp only [List.drop_succ_cons, List.drop_zero, List.mem_cons] at hch
      rcases hch with rfl | hch
      · simp [hg]
      · exact hreg ch (by simpa using hch)
    rw [parse_loop_bundle c (n + 1) asg mem result _ Q hb]
    exact hflag hrv _

/-- Witness for C6 amended: on the sample registry, with `-a` recorded, a second `-a`, a bundle
`-ab`, and with `--name` recorded, its alias `-n` with a value and inline; then the whole
calls `-a -a` and `--name=x -n y`. -/
theorem C6_double_assignment_witness :
    (parse_loop demo_clop 1
        { Q := [['-', 'a'], ['y']], assigned_options := [(1, ['-', 'a'])], mem := demo_mem } [] =
      some ({ Q := [['y']], assigned_options := [(1, ['-', 'a'])], mem := demo_mem },
        .error (.double_initialized ['-', 'a'] ['-', 'a']))) ∧
    (parse_loop demo_clop 1
        { Q := [['-', 'n'], ['v'], ['y']],
          assigned_options := [(4, ['-', '-', 'n', 'a', 'm', 'e'])], mem := demo_mem } [] =
      some ({ Q := [['v'], ['y']],
              assigned_options := [(4, ['-', '-', 'n', 'a', 'm', 'e'])], mem := demo_mem },
        .error (.double_initialized ['-', '-', 'n', 'a', 'm', 'e'] ['-', 'n']))) ∧
    ((demo_clop.parse demo_mem [[], ['-', 'a'], ['-', 'a']]).map
        (fun r => (r.result, r.clop.assigned_options, r.mem 1)) =
      some (.error (.double_initialized ['-', 'a'] ['-', 'a']), [(1, ['-', 'a'])],
        .boolean true)) ∧
    ((demo_clop.parse demo_mem
        [[], ['-', '-', 'n', 'a', 'm', 'e', '=', 'x'], ['-', 'n'], ['y']]).map
        (fun r => (r.result, r.clop.assigned_options, r.mem 4)) =
      some (.error (.double_initialized ['-', '-', 'n', 'a', 'm', 'e'] ['-', 'n']),
        [(4, ['-', '-', 'n', 'a', 'm', 'e'])], .string ['x'])) :=
  ⟨(C6_double_assignment demo_clop (built_invariant _ demo_built).1 0 [(1, ['-', 'a'])] demo_mem
      [] ['-', 'a'] ['-', 'a'] (demo_option T_bool 1 [['-', 'a']] ['0']) [['y']] rfl rfl).1 rfl,
   (C6_double_assignment demo_clop (built_invariant _ demo_built).1 0
      [(4, ['-', '-', 'n', 'a', 'm', 'e'])] demo_mem [] ['-', '-', 'n', 'a', 'm', 'e'] ['-', 'n']
      (demo_option T_string 4 [['-', 'n'], ['-', '-', 'n', 'a', 'm', 'e']]
        ['"', 'd', 'e', 'f', '"']) [['y']] rfl rfl).2.1 rfl ['v'],
   by decide, by decide⟩


/-! ## C7: boolean options are set to the negation of the registered default -/

theorem requires_value_false (o : option_t) (h : o.requires_value = false) : o.T.tag = .bool := by
  unfold option_t.requires_value at h
  split at h
  · assumption
  · cases h

/-- Method `assign` writes the variable of the option and no other. -/
theorem assign_other (o : option_t) (value : Str) (mem : memory) (p : Nat) (h : p ≠ o.var) :
    o.assign value mem p = mem p := by
  unfold option_t.assign
  cases o.T.tag <;> simp [Function.update, h]

theorem assign_value_inv (fs : List (Str × option_t)) (hu : vars_unique fs) (flag value : Str)
    (option : option_t) (hmem : (flag, option) ∈ fs) (s : pstate) (hinv : toggled_inv fs s) :
    toggled_inv fs (assign_value option flag value s).1 := by
  unfold assign_value
  split
  · exact hinv
  · rename_i hnot
    cases hrv : option.requires_value with
    | true =>
      simp only [if_true]
      intro q hq hb hs
      by_cases hv : q.2.varptr = option.varptr
      · have heq := hu q hq (flag, option) hmem hv
        simp only at heq
        rw [heq] at hb
        simp [option_t.requires_value, hb] at hrv
      · simp only [map_find_insert, if_neg (Ne.symm hv)] at hs
        have hvar : q.2.var ≠ option.var := hv
        have := hinv q hq hb hs
        show option.assign value s.mem q.2.var = _
        rw [assign_other option value s.mem _ hvar]
        exact this
    | false =>
      have htag := requires_value_false option hrv
      simp only [Bool.false_eq_true, if_false, option_t.toggle, htag]
      intro q hq hb hs
      by_cases hv : q.2.varptr = option.varptr
      · have heq := hu q hq (flag, option) hmem hv
        simp only at heq
        rw [heq]
        simp [Function.update]
      · simp only [map_find_insert, if_neg (Ne.symm hv)] at hs
        have hvar : q.2.var ≠ option.var := hv
        have := hinv q hq hb hs
        simpa [Function.update, hvar] using this

theorem process_flags_inv (fs : List (Str × option_t)) (hu : vars_unique fs) (arg : Str)
    (entries : List (Str × option_t)) (hsub : ∀ e ∈ entries, e ∈ fs) (s : pstate)
    (hinv : toggled_inv fs s) : toggled_inv fs (process_flags arg entries s).1 := by
  induction entries with
  | nil => exact hinv
  | cons e entries ih =>
    obtain ⟨flag, option⟩ := e
    have hmem : (flag, option) ∈ fs := hsub _ (List.mem_cons_self _ _)
    unfold process_flags
    split
    · split
      · split
        · exact hinv
        · rename_i front Q hQ
          have h := assign_value_inv fs hu flag front option hmem s hinv
          cases hA : assign_value option flag front s with
          | mk s1 e =>
            rw [hA] at h
            cases e <;> exact h
      · have h := assign_value_inv fs hu flag [] option hmem s hinv
        cases hA : assign_value option flag [] s with
        | mk s1 e =>
          rw [hA] at h
          cases e <;> exact h
    · split
      · have h := assign_value_inv fs hu flag (arg.drop (flag.length + 1)) option hmem s hinv
        cases hA : assign_value option flag (arg.drop (flag.length + 1)) s with
        | mk s1 e =>
          rw [hA] at h
          cases e <;> exact h
      · exact ih (fun e he => hsub e (List.mem_cons_of_mem _ he))

theorem process_arg_inv (fs : List (Str × option_t)) (hu : vars_unique fs) (arg : Str)
    (s : pstate) (hinv : toggled_inv fs s) : toggled_inv fs (process_arg arg fs s).1 := by
  unfold process_arg
  split
  · exact hinv
  · exact process_flags_inv fs hu arg fs (fun e he => he) s hinv

theorem parse_loop_inv (c : clop_t) (hu : vars_unique c.flagset) (n : Nat) (s s' : pstate)
    (result : List Str) (r : Except dau_t (List Str))
    (h : parse_loop c n s result = some (s', r)) (hinv : toggled_inv c.flagset s) :
    toggled_inv c.flagset s' := by
  induction n generalizing s result with
  | zero =>
    cases hQ : s.Q with
    | nil =>
      rw [parse_loop_nil c _ s result hQ] at h
      cases h
      exact hinv
    | cons arg Q => rw [parse_loop_zero c s result arg Q hQ] at h; cases h
  | succ n ih =>
    cases hQ : s.Q with
    | nil =>
      rw [parse_loop_nil c _ s result hQ] at h
      cases h
      exact hinv
    | cons arg Q =>
      rw [parse_loop_succ c n s result arg Q hQ] at h
      split at h
      · exact ih _ _ h hinv
      · have hp := process_arg_inv c.flagset hu arg
          (⟨Q, s.assigned_options, s.mem⟩ : pstate) hinv
        split at h
        · rename_i s1 e heq
          rw [heq] at hp
          cases h
          exact hp
        · rename_i s1 heq
          rw [heq] at hp
          exact ih _ _ h hp
        · rename_i s1 heq
          rw [heq] at hp
          split at h
          · cases h
            exact hp
          · exact ih _ _ h hp

/-- After any call of `parse`, every boolean option the tracker records has its variable at
the value `toggle` writes, whatever the variables held before. -/
theorem parse_toggled (c : clop_t) (hu : vars_unique c.flagset) (mem : memory) (argv : List Str)
    (r : outcome) (h : c.parse mem argv = some r) (fl : Str) (o : option_t)
    (hfl : map_find c.flagset fl = some o) (hbool : o.T.tag = .bool)
    (hset : r.clop.set_var o.varptr = true) :
    r.mem o.var = .boolean (o.help.default_value == ['0']) := by
  obtain ⟨s, hs, hc, hm⟩ := loop_of_parse c mem argv r h
  have hinv := parse_loop_inv c hu _ _ s [] _ hs (fun q _ _ hsome => by simp [map_find] at hsome)
  rw [hm]
  apply hinv (fl, o) (map_find_mem _ _ _ hfl) hbool
  rw [hc] at hset
  exact hset

/-- C7. Let a boolean option be the one `add` built when its variable held `b`, and be
registered under some flag.  After any call of `parse` during which the option was recorded in
the tracker, whatever the variables held before the call, its variable holds `not b`; and
after a second call on the parser and variables the first call left, again recording the
option, it still holds `not b`. -/
theorem C7_toggle_negates_default (c : clop_t) (hu : vars_unique c.flagset) (regmem : memory)
    (T : type_t) (var : Nat) (shortflag longflag : Option Str) (help : Str) (b : Bool)
    (fl : Str) (hT : T.tag = .bool) (hb : regmem var = .boolean b)
    (hfl : map_find c.flagset fl = some (make_option regmem T var shortflag longflag help))
    (mem : memory) (argv : List Str) (r : outcome) (hp : c.parse mem argv = some r)
    (hset : r.clop.set_var var = true) :
    r.mem var = .boolean (!b) ∧
    ∀ argv2 r2, r.clop.parse r.mem argv2 = some r2 → r2.clop.set_var var = true →
      r2.mem var = .boolean (!b) := by
  have hdef : ((make_option regmem T var shortflag longflag help).help.default_value == ['0'])
      = !b := by
    simp only [make_option, current_value, hT, hb]
    cases b <;> rfl
  have h1 := parse_toggled c hu mem argv r hp fl _ hfl hT hset
  rw [hdef] at h1
  refine ⟨h1, ?_⟩
  intro argv2 r2 hp2 hset2
  obtain ⟨s, _, hc, _⟩ := loop_of_parse c mem argv r hp
  have hfs : r.clop.flagset = c.flagset := by rw [hc]
  have h2 := parse_toggled r.clop (by rw [hfs]; exact hu) r.mem argv2 r2 hp2 fl
    (make_option regmem T var shortflag longflag help) (by rw [hfs]; exact hfl) hT hset2
  rw [hdef] at h2
  exact h2

/-- Witness for C7: `-c` on the sample registry was registered while its variable held `true`;
parsing `-c` when the variable holds `false` leaves it `false`, and so does parsing `-c a` next. -/
theorem C7_toggle_negates_default_witness :
    T_bool.tag = .bool ∧ demo_mem 3 = .boolean true ∧
    ∃ r, demo_clop.parse (fun _ => .boolean false) [[], ['-', 'c']] = some r ∧
      r.clop.set_var 3 = true ∧ r.mem 3 = .boolean (!true) ∧
      ∀ argv2 r2, r.clop.parse r.mem argv2 = some r2 → r2.clop.set_var 3 = true →
        r2.mem 3 = .boolean (!true) := by
  obtain ⟨r, hr⟩ := parse_total demo_clop (fun _ => .boolean false) [[], ['-', 'c']]
  have hset : (demo_clop.parse (fun _ => .boolean false) [[], ['-', 'c']]).map
      (fun o => o.clop.set_var 3) = some true := by decide
  rw [hr] at hset
  simp only [Option.map_some', Option.some.injEq] at hset
  have h := C7_toggle_negates_default demo_clop (built_invariant _ demo_built).2 demo_mem T_bool 3
    (some ['-', 'c']) none [] true ['-', 'c'] rfl rfl rfl (fun _ => .boolean false)
    [[], ['-', 'c']] r hr hset
  exact ⟨rfl, rfl, r, hr, hset, h.1, h.2⟩


/-! ## C8: every call of `parse` starts from an empty tracker -/

/-- The loop reads the flag map and the two switches of the parser, not its tracker field. -/
theorem parse_loop_clop (c c' : clop_t) (hf : c'.flagset = c.flagset)
    (he : c'.hypen_arg_error = c.hypen_arg_error)
    (hd : c'.interpret_double_hypen = c.interpret_double_hypen) (n : Nat) (s : pstate)
    (result : List Str) : parse_loop c' n s result = parse_loop c n s result := by
  induction n generalizing s result with
  | zero =>
    cases hQ : s.Q with
    | nil => rw [parse_loop_nil c _ s result hQ, parse_loop_nil c' _ s result hQ]
    | cons arg Q => rw [parse_loop_zero c s result arg Q hQ, parse_loop_zero c' s result arg Q hQ]
  | succ n ih =>
    cases hQ : s.Q with
    | nil => rw [parse_loop_nil c _ s result hQ, parse_loop_nil c' _ s result hQ]
    | cons arg Q =>
      rw [parse_loop_succ c n s result arg Q hQ, parse_loop_succ c' n s result arg Q hQ, hf, he,
        hd]
      simp only [ih]

/-- What `assign_value` does to the tracker, and whether it throws, does not depend on the
variables. -/
theorem assign_value_control (o : option_t) (flag value : Str) (s s' : pstate)
    (h : same_control s s') :
    same_control (assign_value o flag value s).1 (assign_value o flag value s').1 ∧
      (assign_value o flag value s).2 = (assign_value o flag value s').2 := by
  obtain ⟨hQ, ha⟩ := h
  unfold assign_value
  rw [ha]
  by_cases h1 : (map_find s'.assigned_options o.varptr).isSome = true
  · rw [if_pos h1, if_pos h1]
    exact ⟨⟨hQ, ha⟩, rfl⟩
  · rw [if_neg h1, if_neg h1]
    by_cases hrv : o.requires_value = true
    · simp only [if_pos hrv]
      exact ⟨⟨hQ, rfl⟩, trivial⟩
    · simp only [if_neg hrv, option_t.toggle]
      cases o.T.tag <;> exact ⟨⟨hQ, rfl⟩, rfl⟩

theorem process_flags_control (arg : Str) (fs : List (Str × option_t)) (s s' : pstate)
    (h : same_control s s') :
    same_control (process_flags arg fs s).1 (process_flags arg fs s').1 ∧
      (process_flags arg fs s).2 = (process_flags arg fs s').2 := by
  induction fs with
  | nil => exact ⟨h, rfl⟩
  | cons e fs ih =>
    obtain ⟨flag, option⟩ := e
    unfold process_flags
    split
    · split
      · rw [← h.1]
        split
        · exact ⟨h, rfl⟩
        · rename_i front Q hQ
          have hA := assign_value_control option flag front s s' h
          cases h1 : assign_value option flag front s with
          | mk s1 e1 =>
            cases h2 : assign_value option flag front s' with
            | mk s2 e2 =>
              rw [h1, h2] at hA
              obtain ⟨⟨hq, ha⟩, he⟩ := hA
              simp only at hq ha he
              subst he
              cases e1 with
              | some e => exact ⟨⟨hq, ha⟩, rfl⟩
              | none => exact ⟨⟨rfl, ha⟩, rfl⟩
      · have hA := assign_value_control option flag [] s s' h
        cases h1 : assign_value option flag [] s with
        | mk s1 e1 =>
          cases h2 : assign_value option flag [] s' with
          | mk s2 e2 =>
            rw [h1, h2] at hA
            obtain ⟨hc, he⟩ := hA
            simp only at hc he
            subst he
            cases e1 <;> exact ⟨hc, rfl⟩
    · split
      · have hA := assign_value_control option flag (arg.drop (flag.length + 1)) s s' h
        cases h1 : assign_value option flag (arg.drop (flag.length + 1)) s with
        | mk s1 e1 =>
          cases h2 : assign_value option flag (arg.drop (flag.length + 1)) s' with
          | mk s2 e2 =>
            rw [h1, h2] at hA
            obtain ⟨hc, he⟩ := hA
            simp only at hc he
            subst he
            cases e1 <;> exact ⟨hc, rfl⟩
      · exact ih

theorem process_arg_control (arg : Str) (fs : List (Str × option_t)) (s s' : pstate)
    (h : same_control s s') :
    same_control (process_arg arg fs s).1 (process_arg arg fs s').1 ∧
      (process_arg arg fs s).2 = (process_arg arg fs s').2 := by
  unfold process_arg
  split
  · exact ⟨⟨by simp only [h.1], h.2⟩, rfl⟩
  · exact process_flags_control arg fs s s' h

/-- The vector returned or the exception thrown by the loop, and the tracker it leaves, do
not depend on what the variables hold. -/
theorem parse_loop_control (c : clop_t) (n : Nat) (s s' s1 : pstate) (result : List Str)
    (r : Except dau_t (List Str)) (h : same_control s s')
    (hs : parse_loop c n s result = some (s1, r)) :
    ∃ s1', parse_loop c n s' result = some (s1', r) ∧ same_control s1 s1' := by
  induction n generalizing s s' result with
  | zero =>
    cases hQ : s.Q with
    | nil =>
      rw [parse_loop_nil c _ s result hQ] at hs
      cases hs
      exact ⟨s', parse_loop_nil c _ s' result (by rw [← h.1, hQ]), h⟩
    | cons arg Q => rw [parse_loop_zero c s result arg Q hQ] at hs; cases hs
  | succ n ih =>
    cases hQ : s.Q with
    | nil =>
      rw [parse_loop_nil c _ s result hQ] at hs
      cases hs
      exact ⟨s', parse_loop_nil c _ s' result (by rw [← h.1, hQ]), h⟩
    | cons arg Q =>
      rw [parse_loop_succ c n s result arg Q hQ] at hs
      rw [parse_loop_succ c n s' result arg Q (by rw [← h.1, hQ])]
      split at hs
      · rename_i hc
        rw [if_pos hc]
        exact ih (⟨[], s.assigned_options, s.mem⟩ : pstate)
          (⟨[], s'.assigned_options, s'.mem⟩ : pstate) _ ⟨rfl, h.2⟩ hs
      · rename_i hc
        rw [if_neg hc]
        have hp := process_arg_control arg c.flagset
          (⟨Q, s.assigned_options, s.mem⟩ : pstate) (⟨Q, s'.assigned_options, s'.mem⟩ : pstate)
          ⟨rfl, h.2⟩
        cases h2 : process_arg arg c.flagset (⟨Q, s'.assigned_options, s'.mem⟩ : pstate) with
        | mk s2 e2 =>
          rw [h2] at hp
          split at hs
          · rename_i sa e heq
            rw [heq] at hp
            obtain ⟨hcc, he⟩ := hp
            simp only at hcc he
            subst he
            cases hs
            exact ⟨s2, rfl, hcc⟩
          · rename_i sa heq
            rw [heq] at hp
            obtain ⟨hcc, he⟩ := hp
            simp only at hcc he
            subst he
            exact ih _ _ _ hcc hs
          · rename_i sa heq
            rw [heq] at hp
            obtain ⟨hcc, he⟩ := hp
            simp only at hcc he
            subst he
            simp only
            split at hs
            · rename_i hh
              rw [if_pos hh]
              cases hs
              exact ⟨s2, rfl, hcc⟩
            · rename_i hh
              rw [if_neg hh]
              exact ih _ _ _ hcc hs

/-- C8. Let `parse` run on any argument list, returning or throwing, and then again on a second
list, on the parser and the variables the first call left.  The second call returns the same
vector or throws the same exception, and leaves the same tracker (hence the same answers of
both `set` queries), as a call on the second list alone by a parser with the same
registrations and an empty tracker, whatever its variables hold. -/
theorem C8_parse_resets_tracker (c : clop_t) (mem mem' : memory) (A1 A2 : List Str)
    (r1 r2 fresh : outcome) (h1 : c.parse mem A1 = some r1)
    (h2 : r1.clop.parse r1.mem A2 = some r2)
    (h3 : ({ c with assigned_options := [] } : clop_t).parse mem' A2 = some fresh) :
    r2.result = fresh.result ∧ r2.clop.assigned_options = fresh.clop.assigned_options ∧
    (∀ var, r2.clop.set_var var = fresh.clop.set_var var) ∧
    (∀ flag, r2.clop.set_flag flag = fresh.clop.set_flag flag) := by
  obtain ⟨s1, _, hc1, _⟩ := loop_of_parse c mem A1 r1 h1
  obtain ⟨s2, hs2, hc2, _⟩ := loop_of_parse r1.clop r1.mem A2 r2 h2
  obtain ⟨s3, hs3, hc3, _⟩ := loop_of_parse _ mem' A2 fresh h3
  rw [parse_loop_clop c r1.clop (by rw [hc1]) (by rw [hc1]) (by rw [hc1])] at hs2
  rw [parse_loop_clop c ({ c with assigned_options := [] } : clop_t) rfl rfl rfl] at hs3
  obtain ⟨s3', hs3', hctl⟩ := parse_loop_control c _ (⟨A2.drop 1, [], r1.mem⟩ : pstate)
    (⟨A2.drop 1, [], mem'⟩ : pstate) s2 [] _ ⟨rfl, rfl⟩ hs2
  rw [hs3] at hs3'
  simp only [Option.some.injEq, Prod.mk.injEq] at hs3'
  obtain ⟨rfl, hres⟩ := hs3'
  have hasg : r2.clop.assigned_options = fresh.clop.assigned_options := by
    rw [hc2, hc3]
    exact hctl.2
  have hfs : r2.clop.flagset = fresh.clop.flagset := by
    rw [hc2, hc3, hc1]
  refine ⟨hres.symm, hasg, ?_, ?_⟩
  · intro var
    simp only [clop_t.set_var, hasg]
  · intro flag
    simp only [clop_t.set_flag, hasg, hfs]

/-- Witness for C8: on the sample registry, after parsing `-a -n x`, parsing `-a -b` throws
nothing and reports `-a` and `-b` set and `-n` not set, exactly as on a fresh parser. -/
theorem C8_parse_resets_tracker_witness :
    ∃ r1 r2 fresh,
      demo_clop.parse demo_mem [[], ['-', 'a'], ['-', 'n'], ['x']] = some r1 ∧
      r1.clop.parse r1.mem [[], ['-', 'a'], ['-', 'b']] = some r2 ∧
      ({ demo_clop with assigned_options := [] } : clop_t).parse demo_mem
        [[], ['-', 'a'], ['-', 'b']] = some fresh ∧
      fresh.result = .ok [] ∧ fresh.clop.set_flag ['-', 'a'] = true ∧
      fresh.clop.set_flag ['-', 'n'] = false ∧
      r2.result = fresh.result ∧ r2.clop.assigned_options = fresh.clop.assigned_options ∧
      (∀ var, r2.clop.set_var var = fresh.clop.set_var var) ∧
      (∀ flag, r2.clop.set_flag flag = fresh.clop.set_flag flag) := by
  obtain ⟨r1, h1⟩ := parse_total demo_clop demo_mem [[], ['-', 'a'], ['-', 'n'], ['x']]
  obtain ⟨r2, h2⟩ := parse_total r1.clop r1.mem [[], ['-', 'a'], ['-', 'b']]
  obtain ⟨fresh, h3⟩ := parse_total ({ demo_clop with assigned_options := [] } : clop_t) demo_mem
    [[], ['-', 'a'], ['-', 'b']]
  have hf : (({ demo_clop with assigned_options := [] } : clop_t).parse demo_mem
      [[], ['-', 'a'], ['-', 'b']]).map
        (fun o => (o.result, o.clop.set_flag ['-', 'a'], o.clop.set_flag ['-', 'n'])) =
      some (.ok [], true, false) := by decide
  rw [h3] at hf
  simp only [Option.map_some', Option.some.injEq, Prod.mk.injEq] at hf
  exact ⟨r1, r2, fresh, h1, h2, h3, hf.1, hf.2.1, hf.2.2,
    C8_parse_resets_tracker demo_clop demo_mem demo_mem _ _ r1 r2 fresh h1 h2 h3⟩


/-! ## C9: the `set` queries -/

theorem assign_value_none (o : option_t) (flag value : Str) (s s1 : pstate)
    (h : assign_value o flag value s = (s1, none)) :
    s1.assigned_options = map_insert Nat.blt s.assigned_options o.varptr flag := by
  unfold assign_value at h
  split at h
  · simp at h
  · split at h
    · simp only [Prod.mk.injEq, and_true] at h
      rw [← h]
    · dsimp only at h
      cases ht : o.toggle s.mem with
      | ok m =>
        rw [ht] at h
        simp only [Prod.mk.injEq, and_true] at h
        rw [← h]
      | error e =>
        rw [ht] at h
        simp at h

/-- A call of the loop of `process_arg` that returns `true` stopped at an entry and recorded
its variable under its flag; one that returns `false` stopped nowhere and changed nothing. -/
theorem process_flags_tracker (arg : Str) (fs : List (Str × option_t)) (s s1 : pstate) (b : Bool)
    (h : process_flags arg fs s = (s1, .ok b)) :
    (b = true → ∃ p, matched_entry arg fs = some p ∧
      s1.assigned_options = map_insert Nat.blt s.assigned_options p.2.varptr p.1) ∧
    (b = false → s1.assigned_options = s.assigned_options) := by
  induction fs with
  | nil =>
    simp only [process_flags, Prod.mk.injEq, Except.ok.injEq] at h
    obtain ⟨rfl, rfl⟩ := h
    exact ⟨fun hb => (by cases hb), fun _ => rfl⟩
  | cons e fs ih =>
    obtain ⟨flag, option⟩ := e
    by_cases hm : entry_matches arg (flag, option) = true
    · have hme : matched_entry arg ((flag, option) :: fs) = some (flag, option) := by
        simp [matched_entry, hm]
      rw [process_flags_hit arg _ fs s hm] at h
      unfold process_flags at h
      have hdone : ∀ (v : Str) (s2 : pstate) (Q : List Str),
          assign_value option flag v s = (s2, none) →
          s1 = { s2 with Q := Q } → b = true →
          (b = true → ∃ p, matched_entry arg ((flag, option) :: fs) = some p ∧
            s1.assigned_options = map_insert Nat.blt s.assigned_options p.2.varptr p.1) ∧
          (b = false → s1.assigned_options = s.assigned_options) := by
        intro v s2 Q hA hs hb
        refine ⟨fun _ => ⟨(flag, option), hme, ?_⟩, fun hf => by rw [hb] at hf; cases hf⟩
        rw [hs]
        exact assign_value_none option flag v s s2 hA
      split at h
      · split at h
        · split at h
          · simp at h
          · rename_i front Q hQ
            cases hA : assign_value option flag front s with
            | mk s2 e =>
              rw [hA] at h
              cases e with
              | some e => simp at h
              | none =>
                simp only [Prod.mk.injEq, Except.ok.injEq] at h
                exact hdone front s2 Q hA h.1.symm h.2.symm
        · cases hA : assign_value option flag [] s with
          | mk s2 e =>
            rw [hA] at h
            cases e with
            | some e => simp at h
            | none =>
              simp only [Prod.mk.injEq, Except.ok.injEq] at h
              exact hdone [] s2 s2.Q hA h.1.symm h.2.symm
      · split at h
        · cases hA : assign_value option flag (arg.drop (flag.length + 1)) s with
          | mk s2 e =>
            rw [hA] at h
            cases e with
            | some e => simp at h
            | none =>
              simp only [Prod.mk.injEq, Except.ok.injEq] at h
              exact hdone _ s2 s2.Q hA h.1.symm h.2.symm
        · rename_i h1 h2
          exfalso
          simp only [entry_matches, Bool.or_eq_true, decide_eq_true_eq] at hm
          rcases hm with hm | hm
          · exact h1 hm
          · exact h2 hm
    · have hm2 : entry_matches arg (flag, option) = false := by
        simpa using hm
      rw [process_flags_skip arg _ fs s hm2] at h
      have := ih h
      simp only [matched_entry, hm2, Bool.false_eq_true, if_false]
      exact this

/-- The tracker at the end of a run that returns holds the variables it held at the start
and those of the trace. -/
theorem parse_loop_tracker (c : clop_t) (n : Nat) (s s' : pstate) (result out : List Str)
    (h : parse_loop c n s result = some (s', .ok out)) (var : Nat) :
    (map_find s'.assigned_options var).isSome = true ↔
      ((map_find s.assigned_options var).isSome = true ∨
        var ∈ (processed c n s).map Prod.fst) := by
  induction n generalizing s result with
  | zero =>
    cases hQ : s.Q with
    | nil =>
      rw [parse_loop_nil c _ s result hQ] at h
      simp only [Option.some.injEq, Prod.mk.injEq] at h
      rw [← h.1]
      simp [processed]
    | cons arg Q => rw [parse_loop_zero c s result arg Q hQ] at h; cases h
  | succ n ih =>
    cases hQ : s.Q with
    | nil =>
      rw [parse_loop_nil c _ s result hQ] at h
      simp only [Option.some.injEq, Prod.mk.injEq] at h
      rw [← h.1]
      simp [processed, hQ]
    | cons arg Q =>
      rw [parse_loop_succ c n s result arg Q hQ] at h
      rw [processed]
      simp only [hQ]
      by_cases hc : (c.interpret_double_hypen && arg == ['-', '-']) = true
      · rw [if_pos hc] at h ⊢
        rw [parse_loop_nil c n _ _ rfl] at h
        simp only [Option.some.injEq, Prod.mk.injEq] at h
        rw [← h.1]
        simp
      · rw [if_neg hc] at h ⊢
        cases hp : process_arg arg c.flagset (⟨Q, s.assigned_options, s.mem⟩ : pstate) with
        | mk s1 r =>
          rw [hp] at h
          cases r with
          | error e => simp at h
          | ok b =>
            have hih : ∀ res2, parse_loop c n s1 res2 = some (s', .ok out) →
                ((map_find s'.assigned_options var).isSome = true ↔
                  ((map_find s1.assigned_options var).isSome = true ∨
                    var ∈ (processed c n s1).map Prod.fst)) := fun res2 h2 => ih s1 res2 h2
            unfold process_arg at hp
            by_cases hb : bundle_expands c.flagset arg = true
            · rw [if_pos hb] at hp
              simp only [Prod.mk.injEq, Except.ok.injEq] at hp
              obtain ⟨rfl, rfl⟩ := hp
              simp only [if_pos hb, List.nil_append] at h ⊢
              exact hih _ h
            · rw [if_neg hb] at hp
              have ht := process_flags_tracker arg c.flagset _ s1 b hp
              cases b with
              | true =>
                obtain ⟨p, hme, hasg⟩ := ht.1 rfl
                simp only [if_neg hb, hme] at h ⊢
                rw [hih _ h, hasg, map_find_insert]
                simp only [List.map_append, List.map_cons, List.map_nil, List.mem_append,
                  List.mem_singleton]
                by_cases hv : p.2.varptr = var
                · simp [hv]
                · simp [hv, Ne.symm hv]
              | false =>
                have hasg := ht.2 rfl
                simp only at h ⊢
                split at h
                · simp at h
                · rename_i hh
                  rw [if_neg hh, hih _ h, hasg]

theorem unparsed_tracker (c : clop_t) (h : unparsed c) : c.assigned_options = [] := by
  induction h with
  | new => rfl
  | add c mem T var sf lf d _ ih =>
    unfold clop_t.add
    split
    · exact ih
    · split
      · exact ih
      · split
        · exact ih
        · split
          · exact ih
          · dsimp only
            split <;> exact ih
  | add3 c mem T var flag d _ ih =>
    unfold clop_t.add3
    cases flag with
    | none => exact ih
    | some f =>
      have hadd : ∀ sf lf, (c.add mem T var sf lf d).1.assigned_options = [] := by
        intro sf lf
        unfold clop_t.add
        split
        · exact ih
        · split
          · exact ih
          · split
            · exact ih
            · split
              · exact ih
              · dsimp only
                split <;> exact ih
      dsimp only
      split
      · exact hadd _ _
      · split
        · exact hadd _ _
        · exact ih
  | switches c e d _ ih => exact ih

/-- The overloads `set(const void*)` and `set(const std::string&)` after a call of `parse`
that returns: for every flag `f` registered to an option, the query by flag and the query by
the address of the option's variable agree; the query by address is true exactly for the
variables of the tokens the run processed as options (exact, inline or expanded from a
bundle); the query by flag is false for a string that is no key of the flag map; and on a
parser not parsed yet both queries are false. -/
theorem set_var_set_flag (c : clop_t) (mem : memory) (argv : List Str) (r : outcome)
    (out : List Str) (hp : c.parse mem argv = some r) (hok : r.result = .ok out) :
    (∀ f o, map_find c.flagset f = some o → r.clop.set_flag f = r.clop.set_var o.varptr) ∧
    (∀ var, r.clop.set_var var = true ↔
      var ∈ (processed c (queue_weight (argv.drop 1))
        { Q := argv.drop 1, assigned_options := [], mem := mem }).map Prod.fst) ∧
    (∀ f o, map_find c.flagset f = some o →
      (r.clop.set_flag f = true ↔
        o.varptr ∈ (processed c (queue_weight (argv.drop 1))
          { Q := argv.drop 1, assigned_options := [], mem := mem }).map Prod.fst)) ∧
    (∀ g, map_find c.flagset g = none → r.clop.set_flag g = false) ∧
    (∀ c0, unparsed c0 → ∀ var flag, c0.set_var var = false ∧ c0.set_flag flag = false) := by
  obtain ⟨s, hs, hc, hm⟩ := loop_of_parse c mem argv r hp
  rw [hok] at hs
  have hfs : r.clop.flagset = c.flagset := by rw [hc]
  have hasg : r.clop.assigned_options = s.assigned_options := by rw [hc]
  have h1 : ∀ f o, map_find c.flagset f = some o →
      r.clop.set_flag f = r.clop.set_var o.varptr := by
    intro f o hf
    simp [clop_t.set_flag, clop_t.set_var, hfs, hf]
  have h2 : ∀ var, r.clop.set_var var = true ↔
      var ∈ (processed c (queue_weight (argv.drop 1))
        { Q := argv.drop 1, assigned_options := [], mem := mem }).map Prod.fst := by
    intro var
    have := parse_loop_tracker c _ _ s [] out hs var
    simp only [map_find, Option.isSome_none, Bool.false_eq_true, false_or] at this
    rw [← this, clop_t.set_var, hasg]
  refine ⟨h1, h2, ?_, ?_, ?_⟩
  · intro f o hf
    rw [h1 f o hf]
    exact h2 o.varptr
  · intro g hg
    simp [clop_t.set_flag, hfs, hg]
  · intro c0 h0 var flag
    have := unparsed_tracker c0 h0
    constructor
    · simp [clop_t.set_var, this, map_find]
    · unfold clop_t.set_flag
      cases map_find c0.flagset flag with
      | none => rfl
      | some o => simp [this, map_find]

theorem demo_unparsed : unparsed demo_clop :=
  .add _ _ _ _ _ _ _ (.add _ _ _ _ _ _ _ (.add _ _ _ _ _ _ _ (.add _ _ _ _ _ _ _ .new)))

/-- No key of a registry of legal flags starts with a character other than the hyphen, so
the query `set(const char*)` on bytes that start with one is false. -/
theorem set_cstr_no_hyphen (c : clop_t) (hlegal : flags_legal c.flagset) (ch : Char)
    (hch : ch ≠ '-') (behind : Str) : c.set_cstr (ch :: behind) = false := by
  have hnone : map_find c.flagset (c_str (ch :: behind)) = none := by
    cases hf : map_find c.flagset (c_str (ch :: behind)) with
    | none => rfl
    | some o =>
      exfalso
      have hhead : ∀ f : Str,
          (legal_short_flag (some f) = true ∨ legal_long_flag (some f) = true) →
          f.head? = some '-' := by
        intro f hl
        rcases hl with hl | hl
        · obtain ⟨x, _, rfl⟩ := legal_short_elim f hl
          rfl
        · obtain ⟨x, t, rfl, _⟩ := legal_long_elim f hl
          rfl
      have h := hhead _ (find_legal c.flagset _ o hlegal hf)
      unfold c_str at h
      rw [List.takeWhile_cons] at h
      split at h
      · simp only [List.head?_cons, Option.some.injEq] at h
        exact hch h
      · simp at h
  simp [clop_t.set_cstr, clop_t.set_flag, hnone]

theorem char_built : built char_clop :=
  .add3 _ _ _ _ _ _ demo_built

/-- C9 fails on the code for an option bound to a `char` variable.  On the sample registry
with the option `-g` of `demo.cpp` (a `char` variable at the address 5), the call on the
arguments `-g x -n bob` returns and the variables hold `x` and `bob`.  For the `std::string`
option the call `set(&variable)` reaches `set(const void*)` and agrees with `set("-n")`: both
are true.  For the `char` option the query by flag `set("-g")` is true, and so is the overload
`set(const void*)` at the address of the variable; but the call `set(&g)` is compiled to
`set(const char*)`: it looks up the bytes at the variable, `x` and whatever lies behind it, as
a flag and answers false. -/
theorem C9_char_variable_query :
    (char_clop.parse char_mem [['p'], ['-', 'g'], ['x'], ['-', 'n'], ['b', 'o', 'b']]).map
        (fun r => (r.result, r.mem 5, r.mem 4)) =
      some (.ok [], .character 'x', .string ['b', 'o', 'b']) ∧
    (char_clop.parse char_mem [['p'], ['-', 'g'], ['x'], ['-', 'n'], ['b', 'o', 'b']]).map
        (fun r => (r.clop.set_flag ['-', 'n'], r.clop.set_address .string 4 [])) =
      some (true, true) ∧
    (char_clop.parse char_mem [['p'], ['-', 'g'], ['x'], ['-', 'n'], ['b', 'o', 'b']]).map
        (fun r => (r.clop.set_flag ['-', 'g'], r.clop.set_var 5)) = some (true, true) ∧
    ∀ behind,
      (char_clop.parse char_mem [['p'], ['-', 'g'], ['x'], ['-', 'n'], ['b', 'o', 'b']]).map
        (fun r => r.clop.set_address .char 5 ('x' :: behind)) = some false := by
  refine ⟨by decide, by decide, by decide, ?_⟩
  intro behind
  obtain ⟨r, hr⟩ := parse_total char_clop char_mem
    [['p'], ['-', 'g'], ['x'], ['-', 'n'], ['b', 'o', 'b']]
  obtain ⟨s, _, hc, _⟩ := loop_of_parse char_clop char_mem _ r hr
  have hlegal : flags_legal r.clop.flagset := by
    rw [hc]
    exact (built_invariant char_clop char_built).1
  rw [hr]
  simp only [Option.map_some', Option.some.injEq, clop_t.set_address]
  exact set_cstr_no_hyphen r.clop hlegal 'x' (by decide) behind


/-! ## C10: `add` rejects duplicates -/

theorem add_check_kind (var : Nat) (sf lf : Option Str) (fs : List (Str × option_t)) (e : dau_t)
    (h : add_check var sf lf fs = some e) : e.kind = .ConfigError := by
  induction fs with
  | nil => simp [add_check] at h
  | cons p fs ih =>
    obtain ⟨first, second⟩ := p
    unfold add_check at h
    split at h
    · cases h; rfl
    · split at h
      · cases h; rfl
      · split at h
        · cases h; rfl
        · exact ih h

/-- Whatever `add` throws is a configuration error, and a call that throws leaves the flag map
as it was. -/
theorem add_error (c : clop_t) (mem : memory) (T : type_t) (var : Nat) (sf lf : Option Str)
    (d : Str) (e : dau_t) (h : (c.add mem T var sf lf d).2 = some e) :
    e.kind = .ConfigError ∧ (c.add mem T var sf lf d).1.flagset = c.flagset := by
  unfold clop_t.add at h ⊢
  split
  · rename_i h1
    simp only [if_pos h1, Option.some.injEq] at h
    exact ⟨by rw [← h]; rfl, rfl⟩
  · rename_i h1
    simp only [if_neg h1] at h
    split
    · rename_i h2
      simp only [if_pos h2, Option.some.injEq] at h
      exact ⟨by rw [← h]; rfl, rfl⟩
    · rename_i h2
      simp only [if_neg h2] at h
      split
      · rename_i h3
        simp only [if_pos h3, Option.some.injEq] at h
        exact ⟨by rw [← h]; rfl, rfl⟩
      · rename_i h3
        simp only [if_neg h3] at h
        split
        · rename_i h4
          simp only [if_pos h4, Option.some.injEq] at h
          exact ⟨by rw [← h]; rfl, rfl⟩
        · rename_i h4
          simp only [if_neg h4] at h
          dsimp only at h ⊢
          cases hc : add_check var sf lf c.flagset with
          | none =>
            rw [hc] at h
            simp at h
          | some e2 =>
            rw [hc] at h
            simp only [Option.some.injEq] at h
            subst h
            exact ⟨add_check_kind var sf lf c.flagset e2 hc, rfl⟩

/-- A call of `add` with a flag that is already a key, or a variable that is already bound,
throws. -/
theorem add_clash (c : clop_t) (mem : memory) (T : type_t) (var : Nat) (sf lf : Option Str)
    (d : Str) (p : Str × option_t) (hp : p ∈ c.flagset)
    (hclash : p.2.varptr = var ∨ sf = some p.1 ∨ lf = some p.1) :
    ∃ e, (c.add mem T var sf lf d).2 = some e := by
  rcases add_flagset c mem T var sf lf d with ⟨h, _⟩ | ⟨_, _, _, hc, _⟩
  · cases hr : (c.add mem T var sf lf d).2 with
    | none => exact absurd hr h
    | some e => exact ⟨e, rfl⟩
  · exfalso
    obtain ⟨h1, h2, h3⟩ := add_check_none var sf lf c.flagset hc p hp
    rcases hclash with h | h | h
    · exact h1 h
    · exact h2 h
    · exact h3 h

/-- C10. For every parser and every call of either `add`: when the short or the long flag given
is already a key of the flag map, the call throws a configuration error; when the variable is
already bound to an option of the flag map, the call throws a configuration error whatever
the flags; in both cases the flag map is left as it was. -/
theorem C10_add_rejects_duplicates (c : clop_t) (mem : memory) (T : type_t) (var : Nat)
    (shortflag longflag : Option Str) (help : Str) :
    (∀ f, (shortflag = some f ∨ longflag = some f) → (map_find c.flagset f).isSome = true →
      ∃ e, (c.add mem T var shortflag longflag help).2 = some e ∧ e.kind = .ConfigError ∧
        (c.add mem T var shortflag longflag help).1.flagset = c.flagset) ∧
    ((∃ p ∈ c.flagset, p.2.varptr = var) →
      ∃ e, (c.add mem T var shortflag longflag help).2 = some e ∧ e.kind = .ConfigError ∧
        (c.add mem T var shortflag longflag help).1.flagset = c.flagset) ∧
    (∀ f, ((map_find c.flagset f).isSome = true ∨ ∃ p ∈ c.flagset, p.2.varptr = var) →
      ∃ e, (c.add3 mem T var (some f) help).2 = some e ∧ e.kind = .ConfigError ∧
        (c.add3 mem T var (some f) help).1.flagset = c.flagset) := by
  have hkey : ∀ f, (map_find c.flagset f).isSome = true → ∃ o, (f, o) ∈ c.flagset := by
    intro f hf
    cases ho : map_find c.flagset f with
    | none => simp [ho] at hf
    | some o => exact ⟨o, map_find_mem _ _ _ ho⟩
  have hfin : ∀ sf lf, (∃ e, (c.add mem T var sf lf help).2 = some e) →
      ∃ e, (c.add mem T var sf lf help).2 = some e ∧ e.kind = .ConfigError ∧
        (c.add mem T var sf lf help).1.flagset = c.flagset := by
    rintro sf lf ⟨e, he⟩
    exact ⟨e, he, (add_error c mem T var sf lf help e he).1,
      (add_error c mem T var sf lf help e he).2⟩
  refine ⟨?_, ?_, ?_⟩
  · intro f hf hsome
    obtain ⟨o, ho⟩ := hkey f hsome
    exact hfin _ _ (add_clash c mem T var shortflag longflag help (f, o) ho (Or.inr hf))
  · rintro ⟨p, hp, hv⟩
    exact hfin _ _ (add_clash c mem T var shortflag longflag help p hp (Or.inl hv))
  · intro f hclash
    unfold clop_t.add3
    dsimp only
    have hadd : ∀ sf lf, (sf = some f ∨ lf = some f) →
        ∃ e, (c.add mem T var sf lf help).2 = some e ∧ e.kind = .ConfigError ∧
          (c.add mem T var sf lf help).1.flagset = c.flagset := by
      intro sf lf hf
      rcases hclash with hsome | ⟨p, hp, hv⟩
      · obtain ⟨o, ho⟩ := hkey f hsome
        exact hfin _ _ (add_clash c mem T var sf lf help (f, o) ho (Or.inr hf))
      · exact hfin _ _ (add_clash c mem T var sf lf help p hp (Or.inl hv))
    split
    · exact hadd _ _ (Or.inl rfl)
    · split
      · exact hadd _ _ (Or.inr rfl)
      · exact ⟨_, rfl, rfl, rfl⟩

/-- Witness for C10: the two registrations `demo.cpp` marks as illegal, on the sample registry:
a new variable under the used flag `-n`, and the bound variable 4 under the new flag `--n2`. -/
theorem C10_add_rejects_duplicates_witness :
    (map_find demo_clop.flagset ['-', 'n']).isSome = true ∧
    (∃ e, (demo_clop.add demo_mem T_string 5 (some ['-', 'n'])
        (some ['-', '-', 'b', 'a', 'd', 'n', '2']) []).2 = some e ∧ e.kind = .ConfigError ∧
      (demo_clop.add demo_mem T_string 5 (some ['-', 'n'])
        (some ['-', '-', 'b', 'a', 'd', 'n', '2']) []).1.flagset = demo_clop.flagset) ∧
    (demo_clop.add demo_mem T_string 5 (some ['-', 'n'])
        (some ['-', '-', 'b', 'a', 'd', 'n', '2']) []).2 = some (.flag_multiple ['-', 'n']) ∧
    (∃ e, (demo_clop.add3 demo_mem T_string 4 (some ['-', '-', 'n', '2']) []).2 = some e ∧
      e.kind = .ConfigError ∧
      (demo_clop.add3 demo_mem T_string 4 (some ['-', '-', 'n', '2']) []).1.flagset
        = demo_clop.flagset) ∧
    (demo_clop.add3 demo_mem T_string 4 (some ['-', '-', 'n', '2']) []).2 =
      some (.same_variable 4) :=
  ⟨by decide,
   (C10_add_rejects_duplicates demo_clop demo_mem T_string 5 (some ['-', 'n'])
      (some ['-', '-', 'b', 'a', 'd', 'n', '2']) []).1 ['-', 'n'] (Or.inl rfl) (by decide),
   by decide,
   (C10_add_rejects_duplicates demo_clop demo_mem T_string 4 none none []).2.2
      ['-', '-', 'n', '2']
      (Or.inr ⟨(['-', 'n'], demo_option T_string 4 [['-', 'n'], ['-', '-', 'n', 'a', 'm', 'e']]
        ['"', 'd', 'e', 'f', '"']), map_find_mem _ _ _ rfl, rfl⟩),
   by decide⟩


/-! ## C11: flag shapes at registration -/

theorem legal_short_iff (f : Str) :
    legal_short_flag (some f) = true ↔ ∃ x, x ≠ '-' ∧ f = ['-', x] := by
  constructor
  · exact legal_short_elim f
  · rintro ⟨x, hx, rfl⟩
    simp [legal_short_flag, hx]

theorem legal_long_iff (f : Str) :
    legal_long_flag (some f) = true ↔ ∃ x t, f = '-' :: '-' :: x :: t ∧ '=' ∉ f := by
  constructor
  · exact legal_long_elim f
  · rintro ⟨x, t, rfl, hno⟩
    simp only [legal_long_flag, Bool.and_eq_true, decide_eq_true_eq, Bool.not_eq_true',
      List.contains_eq_any_beq, List.any_eq_false, beq_iff_eq]
    refine ⟨⟨⟨by simp, by simp⟩, by simp⟩, ?_⟩
    intro y hy hyeq
    exact hno (by rw [hyeq]; exact hy)

theorem short_shape_iff (sf : Option Str) :
    legal_short_flag sf = true ↔ ∀ f, sf = some f → ∃ x, x ≠ '-' ∧ f = ['-', x] := by
  cases sf with
  | none => exact ⟨fun _ f hf => (by cases hf), fun _ => rfl⟩
  | some g =>
    rw [legal_short_iff]
    exact ⟨fun h f hf => (by cases hf; exact h), fun h => h g rfl⟩

theorem long_shape_iff (lf : Option Str) :
    legal_long_flag lf = true ↔
      ∀ f, lf = some f → ∃ x t, f = '-' :: '-' :: x :: t ∧ '=' ∉ f := by
  cases lf with
  | none => exact ⟨fun _ f hf => (by cases hf), fun _ => rfl⟩
  | some g =>
    rw [legal_long_iff]
    exact ⟨fun h f hf => (by cases hf; exact h), fun h => h g rfl⟩

/-- On the empty registry `add` succeeds exactly when its four initial checks pass. -/
theorem new_add_ok (mem : memory) (T : type_t) (var : Nat) (sf lf : Option Str) (d : Str)
    (hvar : var ≠ 0) :
    (clop_t.new.add mem T var sf lf d).2 = none ↔
      ((sf.isSome = true ∨ lf.isSome = true) ∧ legal_short_flag sf = true ∧
        legal_long_flag lf = true) := by
  unfold clop_t.add
  rw [if_neg hvar]
  cases hs : legal_short_flag sf <;> cases hl : legal_long_flag lf <;>
    cases sf <;> cases lf <;>
    simp_all [add_check, clop_t.new, legal_short_flag, legal_long_flag]

/-- C11. On the empty registry, with a non-null variable, the four-argument `add` succeeds
exactly when at least one flag is given, the short flag, if given, is a hyphen followed by one
character other than a hyphen, and the long flag, if given, is two hyphens followed by at least
one character and contains no `=`.  On any registry the three-argument `add` is the
four-argument one with its flag in the short position when it has the short shape, in the long
position when it has the long shape, and throws otherwise; on the empty registry the flag so
given becomes the only key of the flag map. -/
theorem C11_flag_shapes (mem : memory) (T : type_t) (var : Nat) (shortflag longflag : Option Str)
    (help : Str) (hvar : var ≠ 0) :
    ((clop_t.new.add mem T var shortflag longflag help).2 = none ↔
      ((shortflag.isSome = true ∨ longflag.isSome = true) ∧
        (∀ f, shortflag = some f → ∃ x, x ≠ '-' ∧ f = ['-', x]) ∧
        (∀ f, longflag = some f → ∃ x t, f = '-' :: '-' :: x :: t ∧ '=' ∉ f))) ∧
    (∀ (c : clop_t) (f : Str),
      ((∃ x, x ≠ '-' ∧ f = ['-', x]) →
        c.add3 mem T var (some f) help = c.add mem T var (some f) none help) ∧
      ((∃ x t, f = '-' :: '-' :: x :: t ∧ '=' ∉ f) →
        c.add3 mem T var (some f) help = c.add mem T var none (some f) help) ∧
      (¬ (∃ x, x ≠ '-' ∧ f = ['-', x]) → ¬ (∃ x t, f = '-' :: '-' :: x :: t ∧ '=' ∉ f) →
        c.add3 mem T var (some f) help = (c, some (.illegal_flag_name f)))) ∧
    (∀ c : clop_t, c.add3 mem T var none help = (c, some .no_indicator_flag)) ∧
    (∀ f, (∃ x, x ≠ '-' ∧ f = ['-', x]) →
      (clop_t.new.add3 mem T var (some f) help).2 = none ∧
      (clop_t.new.add3 mem T var (some f) help).1.flagset =
        [(f, make_option mem T var (some f) none help)]) ∧
    (∀ f, (∃ x t, f = '-' :: '-' :: x :: t ∧ '=' ∉ f) →
      (clop_t.new.add3 mem T var (some f) help).2 = none ∧
      (clop_t.new.add3 mem T var (some f) help).1.flagset =
        [(f, make_option mem T var none (some f) help)]) := by
  have hadd3 : ∀ (c : clop_t) (f : Str),
      ((∃ x, x ≠ '-' ∧ f = ['-', x]) →
        c.add3 mem T var (some f) help = c.add mem T var (some f) none help) ∧
      ((∃ x t, f = '-' :: '-' :: x :: t ∧ '=' ∉ f) →
        c.add3 mem T var (some f) help = c.add mem T var none (some f) help) ∧
      (¬ (∃ x, x ≠ '-' ∧ f = ['-', x]) → ¬ (∃ x t, f = '-' :: '-' :: x :: t ∧ '=' ∉ f) →
        c.add3 mem T var (some f) help = (c, some (.illegal_flag_name f))) := by
    intro c f
    refine ⟨?_, ?_, ?_⟩
    · intro hs
      have := (legal_short_iff f).2 hs
      simp [clop_t.add3, this]
    · intro hl
      have h2 := (legal_long_iff f).2 hl
      have h1 : legal_short_flag (some f) = false := by
        obtain ⟨x, t, rfl, _⟩ := hl
        simp [legal_short_flag]
      simp [clop_t.add3, h1, h2]
    · intro hs hl
      have h1 : legal_short_flag (some f) = false := by
        cases h : legal_short_flag (some f) with
        | false => rfl
        | true => exact absurd ((legal_short_iff f).1 h) hs
      have h2 : legal_long_flag (some f) = false := by
        cases h : legal_long_flag (some f) with
        | false => rfl
        | true => exact absurd ((legal_long_iff f).1 h) hl
      simp [clop_t.add3, h1, h2]
  refine ⟨?_, hadd3, fun c => rfl, ?_, ?_⟩
  · rw [new_add_ok mem T var shortflag longflag help hvar, short_shape_iff, long_shape_iff]
  · intro f hs
    rw [(hadd3 clop_t.new f).1 hs]
    have h1 := (legal_short_iff f).2 hs
    have h2 : legal_long_flag none = true := rfl
    unfold clop_t.add
    rw [if_neg hvar]
    simp only [h1, h2, Option.isNone_some, Option.isSome_some, Option.isSome_none, Bool.false_and,
      Bool.not_true, Bool.and_false, Bool.false_eq_true, if_false]
    exact ⟨rfl, rfl⟩
  · intro f hl
    rw [(hadd3 clop_t.new f).2.1 hl]
    have h1 := (legal_long_iff f).2 hl
    have h2 : legal_short_flag none = true := rfl
    unfold clop_t.add
    rw [if_neg hvar]
    simp only [h1, h2, Option.isNone_some, Option.isNone_none, Option.isSome_some,
      Option.isSome_none, Bool.false_and, Bool.and_false, Bool.true_and, Bool.not_true,
      Bool.false_eq_true, if_false]
    exact ⟨rfl, rfl⟩

/-- Witness for C11: variable 7 on the empty registry, with `-x` and `--ex`, with the two-hyphen
string alone, and with a long flag containing `=`. -/
theorem C11_flag_shapes_witness :
    (7 : Nat) ≠ 0 ∧
    (clop_t.new.add demo_mem T_bool 7 (some ['-', 'x']) (some ['-', '-', 'e', 'x']) []).2 = none ∧
    (clop_t.new.add demo_mem T_bool 7 (some ['-', '-']) none []).2 =
      some (.illegal_flag ['-', '-']) ∧
    (clop_t.new.add demo_mem T_bool 7 none (some ['-', '-', 'e', '=', 'x']) []).2 =
      some (.illegal_name ['-', '-', 'e', '=', 'x']) ∧
    (clop_t.new.add3 demo_mem T_bool 7 (some ['-', '-', 'e', 'x']) []).1.flagset =
      [(['-', '-', 'e', 'x'], make_option demo_mem T_bool 7 none (some ['-', '-', 'e', 'x']) [])] :=
  ⟨by decide,
   ((C11_flag_shapes demo_mem T_bool 7 (some ['-', 'x']) (some ['-', '-', 'e', 'x']) []
      (by decide)).1).2
      ⟨Or.inl rfl, fun f hf => ⟨'x', by decide, by cases hf; rfl⟩,
        fun f hf => ⟨'e', ['x'], by cases hf; rfl, by cases hf; decide⟩⟩,
   by decide, by decide,
   ((C11_flag_shapes demo_mem T_bool 7 none none [] (by decide)).2.2.2.2
      ['-', '-', 'e', 'x'] ⟨'e', ['x'], rfl, by decide⟩).2⟩


/-! ## C12: the positional and error fallback -/

theorem map_find_none_ne {K V : Type} [DecidableEq K] (m : List (K × V)) (k : K)
    (h : map_find m k = none) : ∀ q ∈ m, q.1 ≠ k := by
  intro q hq heq
  obtain ⟨w, hw⟩ := map_find_of_mem m k q.2 (by rw [← heq]; exact hq)
  rw [h] at hw
  cases hw

/-- A token with a `=` nowhere matches no flag inline. -/
theorem inline_match_no_eq (arg flag : Str) (h : '=' ∉ arg) : inline_match arg flag = false := by
  cases hi : inline_match arg flag with
  | false => rfl
  | true =>
    obtain ⟨heq, _⟩ := inline_match_elim arg flag hi
    exact absurd (by rw [heq]; simp) h

/-- C12. A token taken from the front of the queue that is not the marker (with
`interpret_double_hypen` on), is not expanded as a bundle, is no key of the flag map and
matches no value-requiring flag inline: with `hypen_arg_error` on and a leading hyphen, `parse`
throws the unknown-option exception; otherwise the token is appended to the result and the
loop goes on; either way the variables and the tracker are untouched.  On a registry of legal
flags the lone hyphen is such a token, and so is every prefix of a registered long flag
that is not itself a key or the marker. -/
theorem C12_positional_fallback (c : clop_t) (n : Nat) (asg : List (Nat × Str)) (mem : memory)
    (result : List Str) (t : Str) (Q : List Str)
    (hmark : ¬ (c.interpret_double_hypen = true ∧ t = ['-', '-']))
    (hb : bundle_expands c.flagset t = false) (hexact : map_find c.flagset t = none)
    (hinl : ∀ p ∈ c.flagset, p.2.requires_value = true → inline_match t p.1 = false) :
    (c.hypen_arg_error = true → t.head? = some '-' →
      parse_loop c (n + 1) { Q := t :: Q, assigned_options := asg, mem := mem } result =
        some ({ Q := Q, assigned_options := asg, mem := mem }, .error (.illegal_option t))) ∧
    (¬ (c.hypen_arg_error = true ∧ t.head? = some '-') →
      parse_loop c (n + 1) { Q := t :: Q, assigned_options := asg, mem := mem } result =
        parse_loop c n { Q := Q, assigned_options := asg, mem := mem } (result ++ [t])) ∧
    (flags_legal c.flagset →
      bundle_expands c.flagset ['-'] = false ∧ map_find c.flagset ['-'] = none ∧
      ∀ p ∈ c.flagset, inline_match ['-'] p.1 = false) ∧
    (∀ F o pre, map_find c.flagset F = some o → legal_long_flag (some F) = true → pre <+: F →
      bundle_expands c.flagset pre = false ∧ ∀ p ∈ c.flagset, inline_match pre p.1 = false) := by
  have hm : ∀ q ∈ c.flagset, entry_matches t q = false := by
    intro q hq
    simp only [entry_matches, Bool.or_eq_false_iff, decide_eq_false_iff_not,
      Bool.and_eq_false_iff]
    refine ⟨fun heq => map_find_none_ne c.flagset t hexact q hq heq.symm, ?_⟩
    cases hr : q.2.requires_value with
    | false => exact Or.inl rfl
    | true => exact Or.inr (hinl q hq hr)
  have hstep : parse_loop c (n + 1) { Q := t :: Q, assigned_options := asg, mem := mem } result =
      if c.hypen_arg_error && t.head? == some '-' then
        some ({ Q := Q, assigned_options := asg, mem := mem }, .error (.illegal_option t))
      else parse_loop c n { Q := Q, assigned_options := asg, mem := mem } (result ++ [t]) := by
    rw [parse_loop_succ c n _ result t Q rfl]
    have hne : ¬ ((c.interpret_double_hypen && t == ['-', '-']) = true) := by
      intro h
      simp only [Bool.and_eq_true, beq_iff_eq] at h
      exact hmark h
    rw [if_neg hne, process_arg_unmatched t c.flagset _ hb hm]
  refine ⟨?_, ?_, ?_, ?_⟩
  · intro he hh
    rw [hstep, if_pos (by simp [he, hh])]
  · intro hnot
    rw [hstep, if_neg]
    intro h
    simp only [Bool.and_eq_true, beq_iff_eq] at h
    exact hnot h
  · intro hlegal
    refine ⟨by simp [bundle_expands], ?_, fun p _ => by simp [inline_match]⟩
    cases hf : map_find c.flagset ['-'] with
    | none => rfl
    | some o =>
      have := legal_length _ (find_legal c.flagset _ o hlegal hf)
      simp at this
  · intro F o pre _ hlong hpre
    obtain ⟨x, tl, hF, hno⟩ := legal_long_elim F hlong
    obtain ⟨suf, hsuf⟩ := hpre
    constructor
    · match pre, hsuf with
      | [], _ => simp [bundle_expands]
      | [_], _ => simp [bundle_expands]
      | [_, _], _ => simp [bundle_expands]
      | a :: b :: e :: rest, hsuf =>
        rw [hF] at hsuf
        simp only [List.cons_append, List.cons.injEq] at hsuf
        obtain ⟨_, hb2, _⟩ := hsuf
        subst hb2
        simp [bundle_expands]
    · intro p _
      apply inline_match_no_eq
      intro hmem
      exact hno (by rw [← hsuf]; exact List.mem_append_left _ hmem)

/-- Witness for C12: on the sample registry the abbreviation `--nam` of `--name` is rejected
in strict mode and returned when `hypen_arg_error` is off; the word `pos` is returned. -/
theorem C12_positional_fallback_witness :
    (parse_loop demo_clop 1
        { Q := [['-', '-', 'n', 'a', 'm'], ['x']], assigned_options := [(1, ['-', 'a'])],
          mem := demo_mem } [] =
      some ({ Q := [['x']], assigned_options := [(1, ['-', 'a'])], mem := demo_mem },
        .error (.illegal_option ['-', '-', 'n', 'a', 'm']))) ∧
    (parse_loop demo_clop 1
        { Q := [['p', 'o', 's']], assigned_options := [(1, ['-', 'a'])], mem := demo_mem } [] =
      parse_loop demo_clop 0
        { Q := [], assigned_options := [(1, ['-', 'a'])], mem := demo_mem } ([] ++ [['p', 'o', 's']])) ∧
    ((({ demo_clop with hypen_arg_error := false } : clop_t).parse demo_mem
        [[], ['-', '-', 'n', 'a', 'm'], ['-']]).map (fun r => (r.result, r.clop.assigned_options))
      = some (.ok [['-', '-', 'n', 'a', 'm'], ['-']], [])) := by
  have hinl : ∀ t : Str, '=' ∉ t →
      ∀ p ∈ demo_clop.flagset, p.2.requires_value = true → inline_match t p.1 = false :=
    fun t ht p _ _ => inline_match_no_eq t p.1 ht
  exact ⟨(C12_positional_fallback demo_clop 0 [(1, ['-', 'a'])] demo_mem []
      ['-', '-', 'n', 'a', 'm'] [['x']] (by decide) (by decide) rfl
      (hinl _ (by decide))).1 rfl rfl,
    (C12_positional_fallback demo_clop 0 [(1, ['-', 'a'])] demo_mem []
      ['p', 'o', 's'] [] (by decide) (by decide) rfl (hinl _ (by decide))).2.1 (by decide),
    by decide⟩


/-! ## C13: a value-requiring flag with nothing after it -/

/-- C13. On a registry of legal flags, a registered value-requiring flag `F` taken from the
front of the queue with nothing behind it makes `parse` throw the missing-value exception with
the variables and the tracker as they were.  So `parse` of `F` alone throws it, and so does
`parse` of any list ending in `F` whose tokens before `F` contain no marker and parse
successfully on their own; the variables and tracker are then those left by the tokens before. -/
theorem C13_missing_value (c : clop_t) (F : Str) (o : option_t) (hlegal : flags_legal c.flagset)
    (hF : map_find c.flagset F = some o) (hrv : o.requires_value = true) :
    (∀ n asg mem result,
      parse_loop c (n + 1) { Q := [F], assigned_options := asg, mem := mem } result =
        some ({ Q := [], assigned_options := asg, mem := mem }, .error (.requires_a_value F))) ∧
    (∀ mem prog, c.parse mem [prog, F] =
      some { clop := { c with assigned_options := [] }, mem := mem,
             result := .error (.requires_a_value F) }) ∧
    (∀ mem prog pre r res, ['-', '-'] ∉ pre → c.parse mem (prog :: pre) = some r →
      r.result = .ok res →
      c.parse mem (prog :: (pre ++ [F])) =
        some { clop := r.clop, mem := r.mem, result := .error (.requires_a_value F) }) ∧
    (dau_t.requires_a_value F).kind = .MissingValueError := by
  have h1 : ∀ n asg mem result,
      parse_loop c (n + 1) { Q := [F], assigned_options := asg, mem := mem } result =
        some ({ Q := [], assigned_options := asg, mem := mem }, .error (.requires_a_value F)) :=
    fun n asg mem result => parse_loop_missing c n asg mem result F o hlegal hF hrv
  refine ⟨h1, ?_, ?_, rfl⟩
  · intro mem prog
    exact parse_of_loop c mem [prog, F] 1 _ _ (h1 0 [] mem [])
  · intro mem prog pre r res hno hpre hres
    obtain ⟨s, hs, hc, hm⟩ := loop_of_parse c mem _ r hpre
    rw [hres] at hs
    have := parse_loop_append c hlegal _ _ s [] res [F] _ hs hno 1 (h1 0 _ _ res)
    have hp := parse_of_loop c mem (prog :: (pre ++ [F])) _ _ _ this
    rw [hp, hc, hm]

/-- Witness for C13: `--name` alone, and `-a x -n`, on the sample registry. -/
theorem C13_missing_value_witness :
    (demo_clop.parse demo_mem [[], ['-', '-', 'n', 'a', 'm', 'e']] =
      some { clop := { demo_clop with assigned_options := [] }, mem := demo_mem,
             result := .error (.requires_a_value ['-', '-', 'n', 'a', 'm', 'e']) }) ∧
    ((demo_clop.parse demo_mem [[], ['-', 'a'], ['x'], ['-', 'n']]).map
        (fun r => (r.result, r.clop.assigned_options, r.mem 4)) =
      some (.error (.requires_a_value ['-', 'n']), [(1, ['-', 'a'])], .string ['d', 'e', 'f'])) :=
  ⟨(C13_missing_value demo_clop ['-', '-', 'n', 'a', 'm', 'e']
      (demo_option T_string 4 [['-', 'n'], ['-', '-', 'n', 'a', 'm', 'e']]
        ['"', 'd', 'e', 'f', '"'])
      (built_invariant _ demo_built).1 rfl rfl).2.1 demo_mem [],
   by decide⟩


/-! ## C16: the registry invariant -/

theorem mem_map_insert_self {K V : Type} [DecidableEq K] (lt : K → K → Bool) (m : List (K × V))
    (k : K) (v : V) : (k, v) ∈ map_insert lt m k v := by
  induction m with
  | nil => simp [map_insert]
  | cons e m ih =>
    obtain ⟨k', v'⟩ := e
    unfold map_insert
    split
    · simp
    · split
      · simp
      · exact List.mem_cons_of_mem _ ih

theorem mem_map_insert_of_ne {K V : Type} [DecidableEq K] (lt : K → K → Bool) (m : List (K × V))
    (k : K) (v : V) (p : K × V) (hp : p ∈ m) (hne : p.1 ≠ k) : p ∈ map_insert lt m k v := by
  induction m with
  | nil => cases hp
  | cons e m ih =>
    obtain ⟨k', v'⟩ := e
    unfold map_insert
    rcases List.mem_cons.mp hp with rfl | hp
    · rw [if_neg hne]
      split <;> simp
    · split
      · exact List.mem_cons_of_mem _ hp
      · split
        · exact List.mem_cons_of_mem _ (List.mem_cons_of_mem _ hp)
        · exact List.mem_cons_of_mem _ (ih hp)

/-- The entries after the two insertions of `add`, when neither flag was a key before and the
two flags differ. -/
theorem mem_add_flags_iff (fs : List (Str × option_t)) (sf lf : Option Str) (o : option_t)
    (hnew : ∀ q ∈ fs, sf ≠ some q.1 ∧ lf ≠ some q.1) (hdiff : ∀ f, sf = some f → lf ≠ some f)
    (p : Str × option_t) :
    p ∈ add_flags fs sf lf o ↔ (p ∈ fs ∨ (p.2 = o ∧ (sf = some p.1 ∨ lf = some p.1))) := by
  constructor
  · exact mem_add_flags fs sf lf o p
  · intro h
    unfold add_flags
    cases lf with
    | none =>
      cases sf with
      | none =>
        rcases h with h | ⟨_, h | h⟩
        · exact h
        · cases h
        · cases h
      | some f =>
        rcases h with h | ⟨ho, h | h⟩
        · exact mem_map_insert_of_ne _ _ _ _ _ h (fun e => (hnew p h).1 (by rw [e]))
        · cases h
          have : p = (p.1, o) := by rw [← ho]
          rw [this]
          exact mem_map_insert_self _ _ _ _
        · cases h
    | some g =>
      rcases h with h | ⟨ho, h | h⟩
      · apply mem_map_insert_of_ne _ _ _ _ _ _ (fun e => (hnew p h).2 (by rw [e]))
        cases sf with
        | none => exact h
        | some f => exact mem_map_insert_of_ne _ _ _ _ _ h (fun e => (hnew p h).1 (by rw [e]))
      · subst h
        apply mem_map_insert_of_ne _ _ _ _ _ _ (fun e => hdiff p.1 rfl (by rw [e]))
        have : p = (p.1, o) := by rw [← ho]
        rw [this]
        exact mem_map_insert_self _ _ _ _
      · cases h
        have : p = (p.1, o) := by rw [← ho]
        rw [this]
        exact mem_map_insert_self _ _ _ _

/-- What a call of `add` leaves: a call that throws leaves the flag map alone and the option
list as it was or with the rejected option at its end; a call that succeeds passed all the
checks, pushed the new option and inserted its flags. -/
theorem add_cases (c : clop_t) (mem : memory) (T : type_t) (var : Nat) (sf lf : Option Str)
    (d : Str) :
    ((c.add mem T var sf lf d).2 ≠ none ∧ (c.add mem T var sf lf d).1.flagset = c.flagset ∧
      ((c.add mem T var sf lf d).1.options = c.options ∨
        (c.add mem T var sf lf d).1.options = c.options ++ [make_option mem T var sf lf d])) ∨
    ((c.add mem T var sf lf d).2 = none ∧ (sf.isSome = true ∨ lf.isSome = true) ∧
      legal_short_flag sf = true ∧ legal_long_flag lf = true ∧
      add_check var sf lf c.flagset = none ∧
      (c.add mem T var sf lf d).1.flagset =
        add_flags c.flagset sf lf (make_option mem T var sf lf d) ∧
      (c.add mem T var sf lf d).1.options = c.options ++ [make_option mem T var sf lf d]) := by
  unfold clop_t.add
  split
  · exact Or.inl ⟨by simp, rfl, Or.inl rfl⟩
  · split
    · exact Or.inl ⟨by simp, rfl, Or.inl rfl⟩
    · split
      · exact Or.inl ⟨by simp, rfl, Or.inl rfl⟩
      · split
        · exact Or.inl ⟨by simp, rfl, Or.inl rfl⟩
        · rename_i h1 h2 h3 h4
          dsimp only
          cases hc : add_check var sf lf c.flagset with
          | some e => exact Or.inl ⟨by simp, rfl, Or.inr rfl⟩
          | none =>
            refine Or.inr ⟨rfl, ?_, ?_, ?_, rfl, rfl, rfl⟩
            · cases sf <;> cases lf <;> simp at h2 ⊢
            · cases sf with
              | none => rfl
              | some f => simpa using h3
            · cases lf with
              | none => rfl
              | some f => simpa using h4

theorem add3_cases (c : clop_t) (mem : memory) (T : type_t) (var : Nat) (flag : Option Str)
    (d : Str) :
    (∃ e, c.add3 mem T var flag d = (c, some e)) ∨
    (∃ sf lf, c.add3 mem T var flag d = c.add mem T var sf lf d) := by
  unfold clop_t.add3
  cases flag with
  | none => exact Or.inl ⟨_, rfl⟩
  | some f =>
    dsimp only
    split
    · exact Or.inr ⟨_, _, rfl⟩
    · split
      · exact Or.inr ⟨_, _, rfl⟩
      · exact Or.inl ⟨_, rfl⟩

theorem short_ne_long (sf lf : Option Str) (hs : legal_short_flag sf = true)
    (hl : legal_long_flag lf = true) : ∀ f, sf = some f → lf ≠ some f := by
  intro f h1 h2
  subst h1 h2
  obtain ⟨x, _, hx⟩ := legal_short_elim f hs
  obtain ⟨y, t, hy, _⟩ := legal_long_elim f hl
  rw [hx] at hy
  simp at hy

/-- Any call of `add`, throwing or not, keeps the flag-map invariant. -/
theorem add_registry_inv (c : clop_t) (mem : memory) (T : type_t) (var : Nat) (sf lf : Option Str)
    (d : Str) (h : registry_inv c) : registry_inv (c.add mem T var sf lf d).1 := by
  rcases add_cases c mem T var sf lf d with ⟨_, hfs, hopt⟩ | ⟨_, _, hs, hl, hc, hfs, hopt⟩
  · refine ⟨?_, ?_, ?_, ?_⟩
    · intro p hp
      rw [hfs] at hp
      refine ⟨(h.key_flag p hp).1, ?_⟩
      rcases hopt with ho | ho
      · rw [ho]; exact (h.key_flag p hp).2
      · rw [ho]; exact List.mem_append_left _ (h.key_flag p hp).2
    · rw [hfs]; exact h.key_once
    · rw [hfs]; exact h.flag_key
    · rw [hfs]; exact h.one_var
  · have hnone := add_check_none var sf lf c.flagset hc
    have hnew : ∀ q ∈ c.flagset, sf ≠ some q.1 ∧ lf ≠ some q.1 := fun q hq => (hnone q hq).2
    have hiff := mem_add_flags_iff c.flagset sf lf (make_option mem T var sf lf d) hnew
      (short_ne_long sf lf hs hl)
    refine ⟨?_, ?_, ?_, ?_⟩
    · intro p hp
      rw [hfs] at hp
      rw [hopt]
      rcases (hiff p).1 hp with hold | ⟨ho, hk⟩
      · exact ⟨(h.key_flag p hold).1, List.mem_append_left _ (h.key_flag p hold).2⟩
      · rw [ho]
        refine ⟨?_, by simp⟩
        simp only [make_option, List.mem_append, Option.mem_toList, Option.mem_def]
        exact hk
    · intro p hp q hq hpq
      rw [hfs] at hp hq
      rcases (hiff p).1 hp with hp1 | ⟨hpo, hpk⟩
      · rcases (hiff q).1 hq with hq1 | ⟨_, hqk⟩
        · exact h.key_once p hp1 q hq1 hpq
        · exfalso
          rw [← hpq] at hqk
          rcases hqk with hk | hk
          · exact (hnew p hp1).1 hk
          · exact (hnew p hp1).2 hk
      · rcases (hiff q).1 hq with hq1 | ⟨hqo, _⟩
        · exfalso
          rw [hpq] at hpk
          rcases hpk with hk | hk
          · exact (hnew q hq1).1 hk
          · exact (hnew q hq1).2 hk
        · rw [hpo, hqo]
    · intro p hp g hg
      rw [hfs] at hp ⊢
      rcases (hiff p).1 hp with hp1 | ⟨hpo, _⟩
      · exact (hiff (g, p.2)).2 (Or.inl (h.flag_key p hp1 g hg))
      · refine (hiff (g, p.2)).2 (Or.inr ⟨hpo, ?_⟩)
        rw [hpo] at hg
        simp only [make_option, List.mem_append, Option.mem_toList, Option.mem_def] at hg
        exact hg
    · exact add_vars_unique c mem T var sf lf d h.one_var

/-- Every parser built by calls of `add`, failed ones included, has the flag-map invariant. -/
theorem unparsed_registry_inv (c : clop_t) (h : unparsed c) : registry_inv c := by
  induction h with
  | new => exact ⟨(fun p hp => by cases hp), (fun p hp => by cases hp),
      (fun p hp => by cases hp), (fun p hp => by cases hp)⟩
  | add c mem T var sf lf d _ ih => exact add_registry_inv c mem T var sf lf d ih
  | add3 c mem T var flag d _ ih =>
    rcases add3_cases c mem T var flag d with ⟨e, he⟩ | ⟨sf, lf, he⟩
    · rw [he]; exact ih
    · rw [he]; exact add_registry_inv c mem T var sf lf d ih
  | switches c e d _ ih => exact ⟨ih.key_flag, ih.key_once, ih.flag_key, ih.one_var⟩

/-- A call of `add` that succeeds keeps every listed option in the flag map and the list free
of repetitions. -/
theorem add_options_inv (c : clop_t) (mem : memory) (T : type_t) (var : Nat) (sf lf : Option Str)
    (d : Str) (h : options_inv c) (hok : (c.add mem T var sf lf d).2 = none) :
    options_inv (c.add mem T var sf lf d).1 := by
  rcases add_cases c mem T var sf lf d with ⟨hne, _, _⟩ | ⟨_, hsome, hs, hl, hc, hfs, hopt⟩
  · exact absurd hok hne
  · have hnone := add_check_none var sf lf c.flagset hc
    have hnew : ∀ q ∈ c.flagset, sf ≠ some q.1 ∧ lf ≠ some q.1 := fun q hq => (hnone q hq).2
    have hiff := mem_add_flags_iff c.flagset sf lf (make_option mem T var sf lf d) hnew
      (short_ne_long sf lf hs hl)
    refine ⟨?_, ?_⟩
    · intro o ho
      rw [hopt] at ho
      rw [hfs]
      rcases List.mem_append.mp ho with hold | hnewo
      · obtain ⟨f, hf⟩ := h.listed o hold
        exact ⟨f, (hiff (f, o)).2 (Or.inl hf)⟩
      · simp only [List.mem_singleton] at hnewo
        subst hnewo
        cases sf with
        | some f => exact ⟨f, (hiff _).2 (Or.inr ⟨rfl, Or.inl rfl⟩)⟩
        | none =>
          cases lf with
          | some g => exact ⟨g, (hiff _).2 (Or.inr ⟨rfl, Or.inr rfl⟩)⟩
          | none => simp at hsome
    · rw [hopt]
      apply List.Nodup.append h.nodup (List.nodup_singleton _)
      intro o ho hnewo
      simp only [List.mem_singleton] at hnewo
      subst hnewo
      obtain ⟨f, hf⟩ := h.listed _ ho
      exact (hnone _ hf).1 rfl

theorem registered_options_inv (c : clop_t) (h : registered_only c) :
    registry_inv c ∧ options_inv c := by
  induction h with
  | new => exact ⟨⟨(fun p hp => by cases hp), (fun p hp => by cases hp),
      (fun p hp => by cases hp), (fun p hp => by cases hp)⟩,
      ⟨(fun o ho => by cases ho), List.nodup_nil⟩⟩
  | add c mem T var sf lf d _ hok ih =>
    exact ⟨add_registry_inv c mem T var sf lf d ih.1, add_options_inv c mem T var sf lf d ih.2 hok⟩
  | add3 c mem T var flag d _ hok ih =>
    rcases add3_cases c mem T var flag d with ⟨e, he⟩ | ⟨sf, lf, he⟩
    · rw [he] at hok
      cases hok
    · rw [he] at hok ⊢
      exact ⟨add_registry_inv c mem T var sf lf d ih.1,
        add_options_inv c mem T var sf lf d ih.2 hok⟩
  | switches c e d _ ih =>
    exact ⟨⟨ih.1.key_flag, ih.1.key_once, ih.1.flag_key, ih.1.one_var⟩, ⟨ih.2.listed, ih.2.nodup⟩⟩

/-- C16, as stated, fails: registering a new variable under the used flag `-a` on the sample
registry throws, yet leaves in the option list a second option with the flag `-a`; the key
`-a` is then in the flag lists of two options of the list. -/
theorem C16_failed_add_stays_listed :
    (demo_clop.add demo_mem T_bool 5 (some ['-', 'a']) none []).2 =
      some (.flag_multiple ['-', 'a']) ∧
    (map_find (demo_clop.add demo_mem T_bool 5 (some ['-', 'a']) none []).1.flagset
      ['-', 'a']).isSome = true ∧
    ((demo_clop.add demo_mem T_bool 5 (some ['-', 'a']) none []).1.options.map
        (fun o => (o.var, o.help.flags))).filter (fun q => q.2.contains ['-', 'a']) =
      [(1, [['-', 'a']]), (5, [['-', 'a']])] := by
  decide

/-- C16, amended. In every parser reached from the empty one by calls of `add` that all
succeed, every key of the flag map is a flag of the option the map sends it to, that option is
in the option list and is the only option of the list with that flag; no two options of the
list share a flag or a variable, and the list repeats no option.  In every parser reached by
any calls of `add`, failed ones included, the same holds of the options the flag map refers
to. -/
theorem C16_registry_invariant (c : clop_t) :
    (registered_only c →
      (∀ f o, map_find c.flagset f = some o →
        o ∈ c.options ∧ f ∈ o.help.flags ∧ ∀ o' ∈ c.options, f ∈ o'.help.flags → o' = o) ∧
      (∀ o1 ∈ c.options, ∀ o2 ∈ c.options,
        ((∃ f, f ∈ o1.help.flags ∧ f ∈ o2.help.flags) ∨ o1.varptr = o2.varptr) → o1 = o2) ∧
      c.options.Nodup) ∧
    (unparsed c →
      (∀ f o, map_find c.flagset f = some o →
        o ∈ c.options ∧ f ∈ o.help.flags ∧
        ∀ g o', (g, o') ∈ c.flagset → f ∈ o'.help.flags → o' = o) ∧
      (∀ g1 o1 g2 o2, (g1, o1) ∈ c.flagset → (g2, o2) ∈ c.flagset →
        ((∃ f, f ∈ o1.help.flags ∧ f ∈ o2.help.flags) ∨ o1.varptr = o2.varptr) → o1 = o2)) := by
  have hshare : registry_inv c → ∀ g1 o1 g2 o2, (g1, o1) ∈ c.flagset → (g2, o2) ∈ c.flagset →
      ((∃ f, f ∈ o1.help.flags ∧ f ∈ o2.help.flags) ∨ o1.varptr = o2.varptr) → o1 = o2 := by
    intro hinv g1 o1 g2 o2 h1 h2 hor
    rcases hor with ⟨f, hf1, hf2⟩ | hv
    · exact hinv.key_once _ (hinv.flag_key _ h1 f hf1) _ (hinv.flag_key _ h2 f hf2) rfl
    · exact hinv.one_var _ h1 _ h2 hv
  have hkey : registry_inv c → ∀ f o, map_find c.flagset f = some o →
      o ∈ c.options ∧ f ∈ o.help.flags ∧
        ∀ g o', (g, o') ∈ c.flagset → f ∈ o'.help.flags → o' = o := by
    intro hinv f o hf
    have hm := map_find_mem _ _ _ hf
    refine ⟨(hinv.key_flag _ hm).2, (hinv.key_flag _ hm).1, ?_⟩
    intro g o' hg hfo
    exact hinv.key_once _ (hinv.flag_key _ hg f hfo) _ hm rfl
  constructor
  · intro hreg
    obtain ⟨hinv, hopt⟩ := registered_options_inv c hreg
    refine ⟨?_, ?_, hopt.nodup⟩
    · intro f o hf
      obtain ⟨h1, h2, h3⟩ := hkey hinv f o hf
      refine ⟨h1, h2, ?_⟩
      intro o' ho' hfo
      obtain ⟨g, hg⟩ := hopt.listed o' ho'
      exact h3 g o' hg hfo
    · intro o1 ho1 o2 ho2 hor
      obtain ⟨g1, hg1⟩ := hopt.listed o1 ho1
      obtain ⟨g2, hg2⟩ := hopt.listed o2 ho2
      exact hshare hinv g1 o1 g2 o2 hg1 hg2 hor
  · intro hun
    have hinv := unparsed_registry_inv c hun
    exact ⟨hkey hinv, hshare hinv⟩

theorem demo_registered : registered_only demo_clop :=
  .add _ _ _ _ _ _ _ (.add _ _ _ _ _ _ _ (.add _ _ _ _ _ _ _ (.add _ _ _ _ _ _ _ .new rfl) rfl)
    rfl) rfl

/-- Witness for C16 amended: the sample registry, built by four successful calls, and the
parser the failed call on `-a` leaves. -/
theorem C16_registry_invariant_witness :
    registered_only demo_clop ∧
    ((∀ f o, map_find demo_clop.flagset f = some o →
        o ∈ demo_clop.options ∧ f ∈ o.help.flags ∧
        ∀ o' ∈ demo_clop.options, f ∈ o'.help.flags → o' = o) ∧
      (∀ o1 ∈ demo_clop.options, ∀ o2 ∈ demo_clop.options,
        ((∃ f, f ∈ o1.help.flags ∧ f ∈ o2.help.flags) ∨ o1.varptr = o2.varptr) → o1 = o2) ∧
      demo_clop.options.Nodup) ∧
    unparsed (demo_clop.add demo_mem T_bool 5 (some ['-', 'a']) none []).1 ∧
    (∀ g1 o1 g2 o2,
      (g1, o1) ∈ (demo_clop.add demo_mem T_bool 5 (some ['-', 'a']) none []).1.flagset →
      (g2, o2) ∈ (demo_clop.add demo_mem T_bool 5 (some ['-', 'a']) none []).1.flagset →
      ((∃ f, f ∈ o1.help.flags ∧ f ∈ o2.help.flags) ∨ o1.varptr = o2.varptr) → o1 = o2) :=
  ⟨demo_registered, (C16_registry_invariant demo_clop).1 demo_registered,
   .add _ _ _ _ _ _ _ demo_unparsed,
   ((C16_registry_invariant _).2 (.add _ _ _ _ _ _ _ demo_unparsed)).2⟩


/-! ## C17: value-requiring flags inside a bundle -/

/-- C17 fails on the code: the legality loop of the bundle branch asks only whether every
expanded flag is a key (clop.cpp:88), not whether its option is boolean, and the expanded
flags are then processed like any token.  On the sample registry `-an x` is expanded, `-a` is
toggled and the value-requiring `-n` takes the token after the bundle as its value; `-na` is
expanded and `-n` takes the expanded flag `-a` as its value, so `-a` is never toggled. -/
theorem C17_bundle_assigns_value :
    bundle_expands demo_clop.flagset ['-', 'a', 'n'] = true ∧
    (demo_option T_string 4 [['-', 'n'], ['-', '-', 'n', 'a', 'm', 'e']]
      ['"', 'd', 'e', 'f', '"']).requires_value = true ∧
    ((demo_clop.parse demo_mem [[], ['-', 'a', 'n'], ['x']]).map
        (fun r => (r.result, r.clop.assigned_options, r.mem 1, r.mem 4)) =
      some (.ok [], [(1, ['-', 'a']), (4, ['-', 'n'])], .boolean true, .string ['x'])) ∧
    bundle_expands demo_clop.flagset ['-', 'n', 'a'] = true ∧
    ((demo_clop.parse demo_mem [[], ['-', 'n', 'a']]).map
        (fun r => (r.result, r.clop.assigned_options, r.mem 1, r.mem 4)) =
      some (.ok [], [(4, ['-', 'n'])], .boolean false, .string ['-', 'a'])) :=
  ⟨by decide, rfl, by decide, by decide, by decide⟩


/-! ## C20: the value token is taken as it is -/

/-- C20, as stated, fails when the option of the flag is already assigned: on the sample
registry, in `-n x -n y` the second `-n` is an exact token followed by `y`, yet `parse`
throws the double-assignment exception there; the variable keeps `x`, `y` is never assigned
and nothing behind it is processed. -/
theorem C20_repeated_flag_value_unused :
    (demo_clop.parse demo_mem [['p'], ['-', 'n'], ['x'], ['-', 'n'], ['y']]).map
      (fun r => (r.result, r.clop.assigned_options, r.mem 4)) =
      some (.error (.double_initialized ['-', 'n'] ['-', 'n']), [(4, ['-', 'n'])],
        .string ['x']) ∧
    (parse_loop demo_clop 2
        { Q := [['-', 'n'], ['y']], assigned_options := [(4, ['-', 'n'])],
          mem := Function.update demo_mem 4 (.string ['x']) } []).map
      (fun x => (x.1.Q, x.1.mem 4, x.2)) =
      some ([['y']], .string ['x'], .error (.double_initialized ['-', 'n'] ['-', 'n'])) := by
  constructor <;> decide

/-- C20, amended. On a registry of legal flags, when the loop takes from the front of the
queue a registered value-requiring flag `F` followed by any token `v` at all: if the option
of `F` is not yet in the tracker, the loop goes on with the tokens after `v`, the same result
list, the tracker extended by the option under `F`, and the variables as `assign` with the
text `v` leaves them (only the variable of `F` can differ, and a `std::string` variable holds
exactly `v`), so nothing else is done with `v`: it is not examined as marker, bundle or flag;
if the option of `F` is in the tracker already, under the flag `first`, the call throws the
double-assignment exception naming `first` and `F`, with `v` still in the queue and the
tracker and the variables as they were. -/
theorem C20_value_verbatim (c : clop_t) (hlegal : flags_legal c.flagset) (F : Str) (o : option_t)
    (hF : map_find c.flagset F = some o) (hrv : o.requires_value = true) (n : Nat)
    (asg : List (Nat × Str)) (mem : memory) (result : List Str) (v : Str) (Q : List Str) :
    (map_find asg o.varptr = none →
      parse_loop c (n + 1) { Q := F :: v :: Q, assigned_options := asg, mem := mem } result =
        parse_loop c n
          { Q := Q, assigned_options := map_insert Nat.blt asg o.varptr F,
            mem := o.assign v mem } result) ∧
    (∀ first, map_find asg o.varptr = some first →
      parse_loop c (n + 1) { Q := F :: v :: Q, assigned_options := asg, mem := mem } result =
        some ({ Q := v :: Q, assigned_options := asg, mem := mem },
          .error (.double_initialized first F))) ∧
    (∀ p, p ≠ o.var → o.assign v mem p = mem p) ∧
    (o.T.tag = .string → o.assign v mem o.var = .string v) := by
  refine ⟨?_, ?_, fun p hp => assign_other o v mem p hp, ?_⟩
  · intro hun
    rw [parse_loop_value c n asg mem result F v o Q hlegal hF hrv]
    simp [assign_value, hun, hrv]
  · intro first hfirst
    rw [parse_loop_value c n asg mem result F v o Q hlegal hF hrv,
      assign_value_double o F v first _ hfirst]
  · intro htag
    simp [option_t.assign, htag]

/-- Witness for C20 on the sample registry: `-n` followed by the marker with an empty
tracker, `-n` followed by `y` with the option recorded already, and the whole call
`-n -abc -- -b`, where `-abc` becomes the value and the marker after it is the first token
examined. -/
theorem C20_value_verbatim_witness :
    (parse_loop demo_clop 3
        { Q := [['-', 'n'], ['-', '-'], ['-', 'a']], assigned_options := [], mem := demo_mem } [] =
      parse_loop demo_clop 2
        { Q := [['-', 'a']], assigned_options := map_insert Nat.blt [] 4 ['-', 'n'],
          mem := (demo_option T_string 4 [['-', 'n'], ['-', '-', 'n', 'a', 'm', 'e']]
            ['"', 'd', 'e', 'f', '"']).assign ['-', '-'] demo_mem } []) ∧
    (parse_loop demo_clop 3
        { Q := [['-', 'n'], ['y'], ['-', 'a']], assigned_options := [(4, ['-', 'n'])],
          mem := demo_mem } [] =
      some ({ Q := [['y'], ['-', 'a']], assigned_options := [(4, ['-', 'n'])], mem := demo_mem },
        .error (.double_initialized ['-', 'n'] ['-', 'n']))) ∧
    ((demo_clop.parse demo_mem [[], ['-', 'n'], ['-', 'a', 'b', 'c'], ['-', '-'], ['-', 'b']]).map
        (fun r => (r.result, r.clop.assigned_options, r.mem 1, r.mem 4)) =
      some (.ok [['-', 'b']], [(4, ['-', 'n'])], .boolean false, .string ['-', 'a', 'b', 'c'])) :=
  ⟨(C20_value_verbatim demo_clop (built_invariant _ demo_built).1 ['-', 'n']
      (demo_option T_string 4 [['-', 'n'], ['-', '-', 'n', 'a', 'm', 'e']]
        ['"', 'd', 'e', 'f', '"']) rfl rfl 2 [] demo_mem [] ['-', '-'] [['-', 'a']]).1 rfl,
   (C20_value_verbatim demo_clop (built_invariant _ demo_built).1 ['-', 'n']
      (demo_option T_string 4 [['-', 'n'], ['-', '-', 'n', 'a', 'm', 'e']]
        ['"', 'd', 'e', 'f', '"']) rfl rfl 2 [(4, ['-', 'n'])] demo_mem [] ['y']
      [['-', 'a']]).2.1 ['-', 'n'] rfl,
   by decide⟩


/-! ## The pieces of one iteration of `pbreak` -/

/-- The backward search stops between the cursor and the breakpoint it starts from; where it
stops short of the cursor the character before is breakable; every character it passed is
unbreakable. -/
theorem find_break_spec (text : List Char) (cur bp0 : Nat) (h : cur ≤ bp0) :
    cur ≤ find_break text cur bp0 ∧ find_break text cur bp0 ≤ bp0 ∧
    (cur < find_break text cur bp0 →
      unbreakable (text.getD (find_break text cur bp0 - 1) (Char.ofNat 0)) = false) ∧
    (∀ j, find_break text cur bp0 ≤ j → j < bp0 →
      unbreakable (text.getD j (Char.ofNat 0)) = true) := by
  induction bp0 with
  | zero =>
    have : cur = 0 := by omega
    subst this
    exact ⟨Nat.le_refl _, Nat.le_refl _, fun h => absurd h (by simp [find_break]),
      fun j _ hj => absurd hj (by omega)⟩
  | succ bp ih =>
    unfold find_break
    by_cases hc : (decide (cur < bp + 1) && unbreakable (text.getD bp (Char.ofNat 0))) = true
    · rw [if_pos hc]
      simp only [Bool.and_eq_true, decide_eq_true_eq] at hc
      obtain ⟨h1, h2, h3, h4⟩ := ih (by omega)
      refine ⟨h1, by omega, h3, ?_⟩
      intro j hj hlt
      by_cases hjb : j = bp
      · rw [hjb]; exact hc.2
      · exact h4 j hj (by omega)
    · rw [if_neg hc]
      refine ⟨h, Nat.le_refl _, ?_, fun j hj hlt => absurd hlt (by omega)⟩
      intro hlt
      simp only [Bool.and_eq_true, decide_eq_true_eq, not_and, Bool.not_eq_true] at hc
      simpa using hc hlt

/-- The printing loop writes at most as many characters as lie between cursor and
breakpoint, never moves the breakpoint forward, and moves the cursor on when there is text
and room.  Either it met a newline, which lies before the breakpoint it returns, or it
returns the breakpoint given and wrote the text up to it, character by character. -/
theorem print_line_spec (seg : List Char) (cur bp : Nat) :
    (print_line seg cur bp).1.length ≤ bp - cur ∧
    (cur ≤ bp → (print_line seg cur bp).2 ≤ bp) ∧
    (cur < bp → cur < (print_line seg cur bp).2) ∧
    ((NL ∈ seg.take ((print_line seg cur bp).2 - cur)) ∨
      ((print_line seg cur bp).2 = bp ∧
        (print_line seg cur bp).1 = (seg.take (bp - cur)).map render ∧
        NL ∉ seg.take (bp - cur))) := by
  induction seg generalizing cur with
  | nil => simp [print_line]
  | cons ch rest ih =>
    unfold print_line
    by_cases hlt : cur < bp
    · rw [if_pos hlt]
      by_cases hnl : (ch == NL) = true
      · rw [if_pos hnl]
        simp only [beq_iff_eq] at hnl
        refine ⟨by simp, fun _ => by simpa using hlt, fun _ => by simp, Or.inl ?_⟩
        simp [hnl]
      · rw [if_neg hnl]
        obtain ⟨h1, h2, h3, h4⟩ := ih (cur + 1)
        have hne : ch ≠ NL := by simpa using hnl
        refine ⟨by simp only [List.length_cons]; omega, fun _ => h2 (by omega),
          fun _ => ?_, ?_⟩
        · by_cases hb : cur + 1 < bp
          · have := h3 hb
            simp only
            omega
          · have hb2 : bp = cur + 1 := by omega
            subst hb2
            cases rest with
            | nil => simp [print_line]
            | cons c2 r2 => simp [print_line]
        · rcases h4 with h4 | ⟨h5, h6, h7⟩
          · left
            simp only
            have hpos : (print_line rest (cur + 1) bp).2 - cur =
                ((print_line rest (cur + 1) bp).2 - (cur + 1)) + 1 ∨
                (print_line rest (cur + 1) bp).2 - (cur + 1) = 0 := by omega
            rcases hpos with hp | hp
            · rw [hp, List.take_succ_cons]
              exact List.mem_cons_of_mem _ h4
            · rw [hp] at h4
              simp at h4
          · right
            simp only
            have hsub : bp - cur = (bp - (cur + 1)) + 1 := by omega
            refine ⟨h5, ?_, ?_⟩
            · rw [hsub, List.take_succ_cons, List.map_cons, h6]
            · rw [hsub, List.take_succ_cons]
              simp only [List.mem_cons, not_or]
              exact ⟨fun e => hne e.symm, h7⟩
    · rw [if_neg hlt]
      have : bp - cur = 0 := by omega
      refine ⟨by simp, fun _ => Nat.le_refl _, fun h => absurd h hlt, Or.inr ⟨rfl, ?_, ?_⟩⟩
      · rw [this]; simp
      · rw [this]; simp

/-- One iteration of `pbreak` with text left and a positive width: the cursor moves on, not
past the end; the line is no longer than the width; and unless a newline lies in the part of
the text the iteration covers, the line is that part, character by character, and either the
character before the breakpoint is breakable or the part is `w` unbreakable characters. -/
theorem pbreak_line_spec (text : List Char) (w cur : Nat) (hcur : cur ≤ text.length) :
    (pbreak_line text w cur).cur = cur ∧
    (pbreak_line text w cur).bp ≤ text.length ∧
    (pbreak_line text w cur).out.length ≤ w ∧
    (cur < text.length → 1 ≤ w → cur < (pbreak_line text w cur).bp) ∧
    (NL ∉ (text.drop cur).take ((pbreak_line text w cur).bp - cur) →
      (pbreak_line text w cur).out =
        ((text.drop cur).take ((pbreak_line text w cur).bp - cur)).map render ∧
      ((cur < (pbreak_line text w cur).bp ∧
          unbreakable (text.getD ((pbreak_line text w cur).bp - 1) (Char.ofNat 0)) = false) ∨
        ((pbreak_line text w cur).bp = cur + min w (text.length - cur) ∧
          ∀ j, cur ≤ j → j < (pbreak_line text w cur).bp →
            unbreakable (text.getD j (Char.ofNat 0)) = true))) := by
  have hbp0 : cur ≤ cur + min w (text.length - cur) := Nat.le_add_right _ _
  obtain ⟨f1, f2, f3, f4⟩ := find_break_spec text cur (cur + min w (text.length - cur)) hbp0
  have hbp0le : cur + min w (text.length - cur) ≤ text.length := by
    have := Nat.min_le_right w (text.length - cur)
    omega
  unfold pbreak_line
  dsimp only
  by_cases hb1 : find_break text cur (cur + min w (text.length - cur)) = cur
  · rw [if_pos hb1]
    obtain ⟨p1, p2, p3, p4⟩ := print_line_spec (text.drop cur) cur (cur + min w (text.length - cur))
    refine ⟨rfl, by have := p2 hbp0; omega, ?_, ?_, ?_⟩
    · have := Nat.min_le_left w (text.length - cur)
      omega
    · intro hlt hw
      apply p3
      have : 1 ≤ min w (text.length - cur) := Nat.le_min.mpr ⟨hw, by omega⟩
      omega
    · intro hno
      rcases p4 with p4 | ⟨p5, p6, _⟩
      · exact absurd p4 hno
      · rw [p5]
        refine ⟨by rw [p6], Or.inr ⟨rfl, ?_⟩⟩
        intro j hj hlt
        exact f4 j (by rw [hb1]; exact hj) hlt
  · rw [if_neg hb1]
    have hgt : cur < find_break text cur (cur + min w (text.length - cur)) := by omega
    obtain ⟨p1, p2, p3, p4⟩ := print_line_spec (text.drop cur) cur
      (find_break text cur (cur + min w (text.length - cur)))
    refine ⟨rfl, by have := p2 f1; omega, ?_, fun _ _ => p3 hgt, ?_⟩
    · have := Nat.min_le_left w (text.length - cur)
      omega
    · intro hno
      rcases p4 with p4 | ⟨p5, p6, _⟩
      · exact absurd p4 hno
      · rw [p5]
        exact ⟨by rw [p6], Or.inl ⟨hgt, f3 hgt⟩⟩


/-! ## The loop of `pbreak` -/

theorem print_line_ge (seg : List Char) (cur bp : Nat) (h : cur ≤ bp) :
    cur ≤ (print_line seg cur bp).2 := by
  by_cases hlt : cur < bp
  · exact Nat.le_of_lt ((print_line_spec seg cur bp).2.2.1 hlt)
  · have : bp = cur := by omega
    subst this
    cases seg with
    | nil => simp [print_line]
    | cons ch rest => simp [print_line]

theorem pbreak_line_ge (text : List Char) (w cur : Nat) : cur ≤ (pbreak_line text w cur).bp := by
  have hbp0 : cur ≤ cur + min w (text.length - cur) := Nat.le_add_right _ _
  obtain ⟨f1, _, _, _⟩ := find_break_spec text cur (cur + min w (text.length - cur)) hbp0
  unfold pbreak_line
  dsimp only
  split
  · exact print_line_ge _ _ _ hbp0
  · exact print_line_ge _ _ _ f1

theorem pbreak_loop_succ (text : List Char) (w1 w2 fuel cur : Nat) :
    pbreak_loop text w1 w2 (fuel + 1) cur =
      if (pbreak_line text (if cur = 0 then w1 else w2) cur).bp < text.length then
        match pbreak_loop text w1 w2 fuel (pbreak_line text (if cur = 0 then w1 else w2) cur).bp with
        | none => none
        | some ls => some (pbreak_line text (if cur = 0 then w1 else w2) cur :: ls)
      else some [pbreak_line text (if cur = 0 then w1 else w2) cur] := by
  rw [pbreak_loop]

/-- With positive widths the loop of `pbreak` ends within one iteration per character left,
plus one. -/
theorem pbreak_loop_total (text : List Char) (w1 w2 : Nat) (hw1 : 1 ≤ w1) (hw2 : 1 ≤ w2)
    (fuel cur : Nat) (hcur : cur ≤ text.length) (hfuel : text.length - cur + 1 ≤ fuel) :
    ∃ ls, pbreak_loop text w1 w2 fuel cur = some ls := by
  induction fuel generalizing cur with
  | zero => omega
  | succ fuel ih =>
    rw [pbreak_loop_succ]
    have hw : 1 ≤ (if cur = 0 then w1 else w2) := by split <;> assumption
    obtain ⟨_, hle, _, hprog, _⟩ := pbreak_line_spec text (if cur = 0 then w1 else w2) cur hcur
    by_cases hlt : (pbreak_line text (if cur = 0 then w1 else w2) cur).bp < text.length
    · rw [if_pos hlt]
      have hge := pbreak_line_ge text (if cur = 0 then w1 else w2) cur
      have hclt : cur < text.length := by omega
      have := hprog hclt hw
      obtain ⟨ls, hls⟩ := ih _ hle (by omega)
      rw [hls]
      exact ⟨_, rfl⟩
    · rw [if_neg hlt]
      exact ⟨_, rfl⟩

/-- The lines of a run: the first starts at the cursor the run starts from; every line is the
iteration of `pbreak` at its own cursor, which is within the text; a line followed by another
stops before the end of the text; with positive widths, the lines after the first start
behind the cursor the run starts from. -/
theorem pbreak_loop_trace (text : List Char) (w1 w2 : Nat) (fuel cur : Nat) (ls : List pline)
    (hcur : cur ≤ text.length) (h : pbreak_loop text w1 w2 fuel cur = some ls) :
    (∃ rest, ls = pbreak_line text (if cur = 0 then w1 else w2) cur :: rest ∧
      (1 ≤ w1 → 1 ≤ w2 → ∀ l ∈ rest, cur < l.cur)) ∧
    (∀ l ∈ ls, l.cur ≤ text.length ∧
      l = pbreak_line text (if l.cur = 0 then w1 else w2) l.cur) ∧
    (∀ pre l post, ls = pre ++ l :: post → post ≠ [] → l.bp < text.length) := by
  induction fuel generalizing cur ls with
  | zero => simp [pbreak_loop] at h
  | succ fuel ih =>
    rw [pbreak_loop_succ] at h
    obtain ⟨hc0, hle, _, hprog, _⟩ := pbreak_line_spec text (if cur = 0 then w1 else w2) cur hcur
    by_cases hlt : (pbreak_line text (if cur = 0 then w1 else w2) cur).bp < text.length
    · rw [if_pos hlt] at h
      cases hrec : pbreak_loop text w1 w2 fuel
          (pbreak_line text (if cur = 0 then w1 else w2) cur).bp with
      | none => rw [hrec] at h; cases h
      | some ls' =>
        rw [hrec] at h
        simp only [Option.some.injEq] at h
        subst h
        obtain ⟨⟨rest', hrest', hgt'⟩, hall', hsucc'⟩ := ih _ ls' hle hrec
        have hge := pbreak_line_ge text (if cur = 0 then w1 else w2) cur
        refine ⟨⟨ls', rfl, ?_⟩, ?_, ?_⟩
        · intro hw1 hw2 l hl
          have hw : 1 ≤ (if cur = 0 then w1 else w2) := by split <;> assumption
          have hp := hprog (by omega) hw
          rw [hrest'] at hl
          rcases List.mem_cons.mp hl with rfl | hl
          · rw [(pbreak_line_spec text _ _ hle).1]
            exact hp
          · have := hgt' hw1 hw2 l hl
            omega
        · intro l hl
          rcases List.mem_cons.mp hl with rfl | hl
          · rw [hc0]
            exact ⟨hcur, rfl⟩
          · exact hall' l hl
        · intro pre l post hdec hpost
          cases pre with
          | nil =>
            simp only [List.nil_append, List.cons.injEq] at hdec
            rw [← hdec.1]
            exact hlt
          | cons p pre' =>
            simp only [List.cons_append, List.cons.injEq] at hdec
            exact hsucc' pre' l post hdec.2 hpost
    · rw [if_neg hlt] at h
      simp only [Option.some.injEq] at h
      subst h
      refine ⟨⟨[], rfl, fun _ _ l hl => by cases hl⟩, ?_, ?_⟩
      · intro l hl
        simp only [List.mem_singleton] at hl
        subst hl
        rw [hc0]
        exact ⟨hcur, rfl⟩
      · intro pre l post hdec hpost
        cases pre with
        | nil =>
          simp only [List.nil_append, List.cons.injEq] at hdec
          exact absurd hdec.2.symm hpost
        | cons p pre' =>
          simp only [List.cons_append, List.cons.injEq] at hdec
          have := congrArg List.length hdec.2
          simp at this
          omega


/-! ## C14: the word-wrap example -/

/-- C14, as stated, fails in one particular: on the text `hello world foobarbazqux` with both
widths 10, what is left after the breaks behind `hello` and `world` is the unbreakable word
`foobarbazqux`, which is 12 characters long, not 15. -/
theorem C14_remainder_is_twelve :
    pbreak_loop "hello world foobarbazqux".toList 10 10 25 0 =
      some [⟨0, 6, "hello ".toList⟩, ⟨6, 12, "world ".toList⟩, ⟨12, 22, "foobarbazq".toList⟩,
        ⟨22, 24, "ux".toList⟩] ∧
    "hello world foobarbazqux".toList.drop 12 = "foobarbazqux".toList ∧
    ("hello world foobarbazqux".toList.drop 12).all unbreakable = true ∧
    ("hello world foobarbazqux".toList.drop 12).length = 12 ∧
    ("hello world foobarbazqux".toList.drop 12).length ≠ 15 := by
  decide

/-- C14, amended. With both widths 10 and the newline as delimiter, `pbreak` writes the text
`hello world foobarbazqux` as four lines: `hello ` and `world `, each broken behind its space,
then the unbreakable 12-character word `foobarbazqux` broken by force behind its tenth
character, into `foobarbazq` and `ux`. -/
theorem C14_wrap_example :
    pbreak [] "hello world foobarbazqux".toList 10 10 [NL] =
      some "hello \nworld \nfoobarbazq\nux".toList ∧
    pbreak_loop "hello world foobarbazqux".toList 10 10 25 0 =
      some [⟨0, 6, "hello ".toList⟩, ⟨6, 12, "world ".toList⟩, ⟨12, 22, "foobarbazq".toList⟩,
        ⟨22, 24, "ux".toList⟩] ∧
    unbreakable ' ' = false ∧
    ("hello world foobarbazqux".toList.drop 12).all unbreakable = true ∧
    ("hello world foobarbazqux".toList.drop 12).length = 12 := by
  decide

/-! ## C19: text that fits -/

/-- C19 fails on the code: the backward search of `pbreak` starts from the end of the text
even when all of it fits the width, so a text whose last character is unbreakable is broken
behind its last breakable character.  `hello world`, 11 characters without newline, at width
80 is written as `hello `, the delimiter, `world`. -/
theorem C19_fitting_text_is_wrapped :
    NL ∉ "hello world".toList ∧ "hello world".toList.length ≤ 80 ∧
    pbreak_loop "hello world".toList 80 80 12 0 =
      some [⟨0, 6, "hello ".toList⟩, ⟨6, 11, "world".toList⟩] ∧
    pbreak [] "hello world".toList 80 80 [NL] = some "hello \nworld".toList := by
  decide


/-! ## C15 and C18: where `pbreak` breaks, and how long its lines are -/

theorem unbreakable_false (ch : Char) (h : unbreakable ch = false) :
    char_code ch ≤ 32 ∧ ch ≠ ESC ∧ ch ≠ NBSP := by
  simp only [unbreakable, Bool.or_eq_false_iff, decide_eq_false_iff_not, beq_eq_false_iff_ne,
    ne_eq] at h
  exact ⟨by omega, h.1.2, h.2⟩

theorem getD_mem_segment (text : List Char) (cur bp : Nat) (hbp : bp ≤ text.length)
    (ch : Char) (h : ch ∈ (text.drop cur).take (bp - cur)) :
    ∃ j, cur ≤ j ∧ j < bp ∧ text.getD j (Char.ofNat 0) = ch := by
  obtain ⟨i, hi, hget⟩ := List.getElem_of_mem h
  simp only [List.length_take, List.length_drop] at hi
  refine ⟨cur + i, by omega, by omega, ?_⟩
  rw [List.getElem_take, List.getElem_drop] at hget
  rw [List.getD_eq_getElem?_getD, List.getElem?_eq_getElem (by omega)]
  exact hget

/-- Where `pbreak` breaks.  With positive widths the run ends, and for every line after
which it writes the delimiter, unless a newline lies in the part of the text the line covers:
the line is that part of the text, character by character (with `\b` written as a space), and
either the last character of the part compares as at most the space, as a signed `char`, and
is neither `\033` nor `\b`, or the part is exactly as long as the width available and every
character in it fails that test. -/
theorem pbreak_breaks (text : List Char) (w1 w2 : Nat) (hw1 : 1 ≤ w1)
    (hw2 : 1 ≤ w2) :
    ∃ ls, pbreak_loop text w1 w2 (text.length + 1) 0 = some ls ∧
      ∀ pre l post, ls = pre ++ l :: post → post ≠ [] →
        NL ∉ (text.drop l.cur).take (l.bp - l.cur) →
        l.out = ((text.drop l.cur).take (l.bp - l.cur)).map render ∧
        ((l.cur < l.bp ∧ ∃ ch, text.get? (l.bp - 1) = some ch ∧
            char_code ch ≤ 32 ∧ ch ≠ ESC ∧ ch ≠ NBSP) ∨
          (l.bp - l.cur = (if l.cur = 0 then w1 else w2) ∧
            ∀ ch ∈ (text.drop l.cur).take (l.bp - l.cur), unbreakable ch = true)) ∧
        (∀ ch, text.get? (l.bp - 1) = some ch → unbreakable ch = true →
          l.bp - l.cur = (if l.cur = 0 then w1 else w2) ∧
            ∀ ch ∈ (text.drop l.cur).take (l.bp - l.cur), unbreakable ch = true) := by
  obtain ⟨ls, hls⟩ := pbreak_loop_total text w1 w2 hw1 hw2 (text.length + 1) 0 (Nat.zero_le _)
    (by omega)
  refine ⟨ls, hls, ?_⟩
  intro pre l post hdec hpost hnl
  obtain ⟨_, hall, hsucc⟩ := pbreak_loop_trace text w1 w2 _ 0 ls (Nat.zero_le _) hls
  have hl : l ∈ ls := by rw [hdec]; simp
  obtain ⟨hcur, heq⟩ := hall l hl
  have hlt := hsucc pre l post hdec hpost
  obtain ⟨_, hle, _, _, hspec⟩ :=
    pbreak_line_spec text (if l.cur = 0 then w1 else w2) l.cur hcur
  rw [← heq] at hle hspec
  obtain ⟨hout, hor⟩ := hspec hnl
  have hforced : (l.bp = l.cur + min (if l.cur = 0 then w1 else w2) (text.length - l.cur) ∧
      ∀ j, l.cur ≤ j → j < l.bp → unbreakable (text.getD j (Char.ofNat 0)) = true) →
      l.bp - l.cur = (if l.cur = 0 then w1 else w2) ∧
        ∀ ch ∈ (text.drop l.cur).take (l.bp - l.cur), unbreakable ch = true := by
    rintro ⟨hbp, hunb⟩
    constructor
    · have h1 := Nat.min_le_left (if l.cur = 0 then w1 else w2) (text.length - l.cur)
      by_cases hmin : (if l.cur = 0 then w1 else w2) ≤ text.length - l.cur
      · rw [Nat.min_eq_left hmin] at hbp
        omega
      · rw [Nat.min_eq_right (by omega)] at hbp
        omega
    · intro ch hch
      obtain ⟨j, hj1, hj2, hj3⟩ := getD_mem_segment text l.cur l.bp hle ch hch
      rw [← hj3]
      exact hunb j hj1 hj2
  refine ⟨hout, ?_, ?_⟩
  · rcases hor with ⟨hpos, hbr⟩ | hf
    · left
      refine ⟨hpos, text.getD (l.bp - 1) (Char.ofNat 0), ?_, unbreakable_false _ hbr⟩
      rw [List.getD_eq_getElem?_getD, List.get?_eq_getElem?,
        List.getElem?_eq_getElem (by omega)]
      rfl
    · exact Or.inr (hforced hf)
  · intro ch hget hunb
    rcases hor with ⟨hpos, hbr⟩ | hf
    · exfalso
      rw [List.getD_eq_getElem?_getD, ← List.get?_eq_getElem?, hget] at hbr
      simp only [Option.getD_some] at hbr
      rw [hunb] at hbr
      cases hbr
    · exact hforced hf

/-- C15 fails on the code for characters outside ASCII.  The test of the backward search
compares a plain `char` with the space, so every byte from 0x80 on, negative as a signed
`char`, counts as a place to break.  The text `go na\xc3\xafve` (UTF-8, nine bytes) at width 8
has a space to break behind, yet the first line is `go na\xc3\xaf`: seven bytes, one short
of the width, ending in the byte 0xaf, whose code 175 is above that of the space; the word is
split and `ve` follows the delimiter.  At width 6 the first line ends between the two bytes
of the one character and the second line is the byte 0xaf alone. -/
theorem C15_word_split_behind_high_byte :
    (Char.ofNat 175).toNat = 175 ∧ char_code (Char.ofNat 175) = -81 ∧
    unbreakable (Char.ofNat 175) = false ∧ unbreakable ' ' = false ∧
    NL ∉ ['g', 'o', ' ', 'n', 'a', Char.ofNat 195, Char.ofNat 175, 'v', 'e'] ∧
    pbreak_loop ['g', 'o', ' ', 'n', 'a', Char.ofNat 195, Char.ofNat 175, 'v', 'e'] 8 8 10 0 =
      some [⟨0, 7, ['g', 'o', ' ', 'n', 'a', Char.ofNat 195, Char.ofNat 175]⟩,
        ⟨7, 9, ['v', 'e']⟩] ∧
    pbreak [] ['g', 'o', ' ', 'n', 'a', Char.ofNat 195, Char.ofNat 175, 'v', 'e'] 8 8 [NL] =
      some ['g', 'o', ' ', 'n', 'a', Char.ofNat 195, Char.ofNat 175, NL, 'v', 'e'] ∧
    pbreak [] ['g', 'o', ' ', 'n', 'a', Char.ofNat 195, Char.ofNat 175, 'v', 'e'] 6 6 [NL] =
      some ['g', 'o', ' ', 'n', 'a', Char.ofNat 195, NL, Char.ofNat 175, NL, 'v', 'e'] := by
  decide

/-- C18. With positive widths the run of `pbreak` ends; what it leaves on the stream is the
lines of its iterations with the delimiter between them; the first line has at most `w1`
characters and every later line at most `w2`. -/
theorem C18_line_width (out text delimeter : List Char) (w1 w2 : Nat) (hw1 : 1 ≤ w1)
    (hw2 : 1 ≤ w2) :
    ∃ l0 rest, pbreak_loop (c_str text) w1 w2 ((c_str text).length + 1) 0 = some (l0 :: rest) ∧
      pbreak out text w1 w2 delimeter =
        some (out ++ delimeter.intercalate ((l0 :: rest).map (fun l => l.out))) ∧
      l0.out.length ≤ w1 ∧ ∀ l ∈ rest, l.out.length ≤ w2 := by
  obtain ⟨ls, hls⟩ := pbreak_loop_total (c_str text) w1 w2 hw1 hw2 ((c_str text).length + 1) 0
    (Nat.zero_le _) (by omega)
  obtain ⟨⟨rest, hrest, hgt⟩, hall, _⟩ :=
    pbreak_loop_trace (c_str text) w1 w2 _ 0 ls (Nat.zero_le _) hls
  refine ⟨_, rest, by rw [hls, hrest], ?_, ?_, ?_⟩
  · unfold pbreak
    rw [hls, hrest]
  · have := (pbreak_line_spec (c_str text) (if (0 : Nat) = 0 then w1 else w2) 0
      (Nat.zero_le _)).2.2.1
    simpa using this
  · intro l hl
    have hmem : l ∈ ls := by rw [hrest]; exact List.mem_cons_of_mem _ hl
    obtain ⟨hcur, heq⟩ := hall l hmem
    have hpos := hgt hw1 hw2 l hl
    have := (pbreak_line_spec (c_str text) (if l.cur = 0 then w1 else w2) l.cur hcur).2.2.1
    rw [← heq, if_neg (by omega)] at this
    exact this

/-- Witness for C18: widths 7 and 10 on `hello world foobarbazqux`. -/
theorem C18_line_width_witness :
    (pbreak ['>'] "hello world foobarbazqux".toList 7 10 ['|'] =
      some ">hello |world |foobarbazq|ux".toList) ∧
    ∃ l0 rest, pbreak_loop (c_str "hello world foobarbazqux".toList) 7 10
        ((c_str "hello world foobarbazqux".toList).length + 1) 0 = some (l0 :: rest) ∧
      pbreak ['>'] "hello world foobarbazqux".toList 7 10 ['|'] =
        some (['>'] ++ ['|'].intercalate ((l0 :: rest).map (fun l => l.out))) ∧
      l0.out.length ≤ 7 ∧ ∀ l ∈ rest, l.out.length ≤ 10 :=
  ⟨by decide,
   C18_line_width ['>'] "hello world foobarbazqux".toList ['|'] 7 10 (by decide) (by decide)⟩


/-! ## C21: an inline token with an empty value -/

/-- On a registry of legal flags the token `F=`, for a legal flag `F`, matches no entry. -/
theorem empty_inline_unmatched (fs : List (Str × option_t)) (F : Str) (hlegal : flags_legal fs)
    (hf : legal_short_flag (some F) = true ∨ legal_long_flag (some F) = true) :
    ∀ q ∈ fs, entry_matches (F ++ ['=']) q = false := by
  intro q hq
  cases hm : entry_matches (F ++ ['=']) q with
  | false => rfl
  | true =>
    exfalso
    have hkey := matches_inline_key fs F [] hlegal hf q hq hm
    simp only [entry_matches, Bool.or_eq_true, decide_eq_true_eq, Bool.and_eq_true] at hm
    rcases hm with hm | ⟨_, hm⟩
    · rw [hkey] at hm
      have := congrArg List.length hm
      simp at this
    · rw [hkey] at hm
      obtain ⟨_, hne⟩ := inline_match_elim _ _ hm
      exact hne (inline_drop F [])

/-- C21. On a registry of legal flags, for a registered value-requiring long flag `F`, the
token `F=` is no inline match: `parse` of it alone throws the unknown-option exception when
`hypen_arg_error` is on and returns it as a positional argument otherwise, with the variables
unchanged and the tracker empty; whereas `parse` of `F` followed by the empty token records
the option and assigns the empty text. -/
theorem C21_empty_inline_value (c : clop_t) (mem : memory) (prog F : Str) (o : option_t)
    (hlegal : flags_legal c.flagset) (hF : map_find c.flagset F = some o)
    (hrv : o.requires_value = true) (hlong : legal_long_flag (some F) = true) :
    inline_match (F ++ ['=']) F = false ∧
    c.parse mem [prog, F ++ ['=']] =
      some { clop := { c with assigned_options := [] }
             mem := mem
             result := if c.hypen_arg_error then .error (.illegal_option (F ++ ['=']))
                       else .ok [F ++ ['=']] } ∧
    c.parse mem [prog, F, []] =
      some { clop := { c with assigned_options := map_insert Nat.blt [] o.varptr F }
             mem := o.assign [] mem
             result := .ok [] } ∧
    (o.T.tag = .string → o.assign [] mem o.var = .string []) := by
  have hm := empty_inline_unmatched c.flagset F hlegal (Or.inr hlong)
  have hb := long_inline_not_bundle c.flagset F [] hlong
  obtain ⟨x, t, hFeq, _⟩ := legal_long_elim F hlong
  refine ⟨?_, ?_, ?_, ?_⟩
  · have := hm (F, o) (map_find_mem _ _ _ hF)
    simp only [entry_matches, Bool.or_eq_false_iff, Bool.and_eq_false_iff] at this
    rcases this.2 with h | h
    · rw [hrv] at h
      cases h
    · exact h
  · have hloop : parse_loop c 1 { Q := [F ++ ['=']], assigned_options := [], mem := mem } [] =
        some ({ Q := [], assigned_options := [], mem := mem },
          if c.hypen_arg_error then .error (.illegal_option (F ++ ['=']))
          else .ok [F ++ ['=']]) := by
      rw [parse_loop_succ c 0 _ [] _ [] rfl]
      have hne : ¬ ((c.interpret_double_hypen && (F ++ ['=']) == ['-', '-']) = true) := by
        intro h
        simp only [Bool.and_eq_true, beq_iff_eq] at h
        have := congrArg List.length h.2
        rw [hFeq] at this
        simp at this
      rw [if_neg hne, process_arg_unmatched _ _ _ hb hm]
      have hhead : (F ++ ['=']).head? = some '-' := by rw [hFeq]; rfl
      cases c.hypen_arg_error with
      | true => simp [hhead]
      | false => simp [parse_loop_nil]
    exact parse_of_loop c mem [prog, F ++ ['=']] 1 _ _ hloop
  · have hloop : parse_loop c 1 { Q := [F, []], assigned_options := [], mem := mem } [] =
        some ({ Q := [], assigned_options := map_insert Nat.blt [] o.varptr F,
                mem := o.assign [] mem }, .ok []) := by
      rw [parse_loop_value c 0 [] mem [] F [] o [] hlegal hF hrv]
      simp [assign_value, map_find, hrv, parse_loop_nil]
    exact parse_of_loop c mem [prog, F, []] 1 _ _ hloop
  · intro htag
    simp [option_t.assign, htag]

/-- Witness for C21: `--name=` against `--name` followed by the empty token, on the sample
registry. -/
theorem C21_empty_inline_value_witness :
    (demo_clop.parse demo_mem [[], ['-', '-', 'n', 'a', 'm', 'e'] ++ ['=']] =
      some { clop := { demo_clop with assigned_options := [] }
             mem := demo_mem
             result := if demo_clop.hypen_arg_error then
                         .error (.illegal_option (['-', '-', 'n', 'a', 'm', 'e'] ++ ['=']))
                       else .ok [['-', '-', 'n', 'a', 'm', 'e'] ++ ['=']] }) ∧
    ((demo_clop.parse demo_mem [[], ['-', '-', 'n', 'a', 'm', 'e'], []]).map
        (fun r => (r.result, r.clop.assigned_options, r.mem 4)) =
      some (.ok [], [(4, ['-', '-', 'n', 'a', 'm', 'e'])], .string [])) :=
  ⟨(C21_empty_inline_value demo_clop demo_mem [] ['-', '-', 'n', 'a', 'm', 'e']
      (demo_option T_string 4 [['-', 'n'], ['-', '-', 'n', 'a', 'm', 'e']]
        ['"', 'd', 'e', 'f', '"'])
      (built_invariant _ demo_built).1 rfl rfl (by decide)).2.1,
   by decide⟩


/-! ## C22 and C24: `pbreak` keeps the text and ends -/

/-- The printing loop writes the text between the cursor and the breakpoint it returns,
without the newline it may have met there. -/
theorem print_line_content (seg : List Char) (cur bp : Nat) (h : cur ≤ bp) :
    (print_line seg cur bp).1 =
      ((seg.take ((print_line seg cur bp).2 - cur)).filter (fun ch => ch != NL)).map render := by
  induction seg generalizing cur with
  | nil => simp [print_line]
  | cons ch rest ih =>
    unfold print_line
    by_cases hlt : cur < bp
    · rw [if_pos hlt]
      by_cases hnl : (ch == NL) = true
      · rw [if_pos hnl]
        simp only [beq_iff_eq] at hnl
        simp [hnl]
      · rw [if_neg hnl]
        have hge := print_line_ge rest (cur + 1) bp (by omega)
        have hsub : (print_line rest (cur + 1) bp).2 - cur =
            ((print_line rest (cur + 1) bp).2 - (cur + 1)) + 1 := by omega
        simp only
        rw [hsub, List.take_succ_cons, List.filter_cons]
        have hne : (ch != NL) = true := by simpa using hnl
        rw [if_pos hne, List.map_cons, ← ih (cur + 1) (by omega)]
    · rw [if_neg hlt]
      have : bp - cur = 0 := by omega
      simp [this]

theorem pbreak_line_content (text : List Char) (w cur : Nat) :
    (pbreak_line text w cur).out =
      (((text.drop cur).take ((pbreak_line text w cur).bp - cur)).filter
        (fun ch => ch != NL)).map render := by
  have hbp0 : cur ≤ cur + min w (text.length - cur) := Nat.le_add_right _ _
  obtain ⟨f1, _, _, _⟩ := find_break_spec text cur (cur + min w (text.length - cur)) hbp0
  unfold pbreak_line
  dsimp only
  split
  · exact print_line_content _ _ _ hbp0
  · exact print_line_content _ _ _ f1

/-- The lines of a run from a cursor, put together, are the text from that cursor on without
its newlines and with `\b` written as a space. -/
theorem pbreak_loop_content (text : List Char) (w1 w2 : Nat) (fuel cur : Nat) (ls : List pline)
    (hcur : cur ≤ text.length) (h : pbreak_loop text w1 w2 fuel cur = some ls) :
    (ls.map (fun l => l.out)).flatten =
      ((text.drop cur).filter (fun ch => ch != NL)).map render := by
  induction fuel generalizing cur ls with
  | zero => simp [pbreak_loop] at h
  | succ fuel ih =>
    rw [pbreak_loop_succ] at h
    have hle := (pbreak_line_spec text (if cur = 0 then w1 else w2) cur hcur).2.1
    have hge := pbreak_line_ge text (if cur = 0 then w1 else w2) cur
    have hcont := pbreak_line_content text (if cur = 0 then w1 else w2) cur
    by_cases hlt : (pbreak_line text (if cur = 0 then w1 else w2) cur).bp < text.length
    · rw [if_pos hlt] at h
      cases hrec : pbreak_loop text w1 w2 fuel
          (pbreak_line text (if cur = 0 then w1 else w2) cur).bp with
      | none => rw [hrec] at h; cases h
      | some ls' =>
        rw [hrec] at h
        simp only [Option.some.injEq] at h
        subst h
        have hih := ih _ ls' hle hrec
        simp only [List.map_cons, List.flatten_cons, hih, hcont]
        rw [← List.map_append, ← List.filter_append]
        congr 2
        have hsplit := List.take_append_drop
          ((pbreak_line text (if cur = 0 then w1 else w2) cur).bp - cur) (text.drop cur)
        rw [List.drop_drop] at hsplit
        have hidx : cur + ((pbreak_line text (if cur = 0 then w1 else w2) cur).bp - cur) =
            (pbreak_line text (if cur = 0 then w1 else w2) cur).bp := by omega
        rw [hidx] at hsplit
        exact hsplit
    · rw [if_neg hlt] at h
      simp only [Option.some.injEq] at h
      subst h
      have hbp : (pbreak_line text (if cur = 0 then w1 else w2) cur).bp = text.length := by omega
      simp only [List.map_cons, List.map_nil, List.flatten_cons, List.flatten_nil, List.append_nil,
        hcont, hbp]
      rw [List.take_of_length_le (by simp)]

/-- C22. With positive widths the run of `pbreak` ends; what it leaves on the stream is the
lines of its iterations with the delimiter between them, none after the last; and the lines
put together are the text without its newline characters and with every `\b` written as a
space, in the order of the text. -/
theorem C22_content_preserved (out text delimeter : List Char) (w1 w2 : Nat) (hw1 : 1 ≤ w1)
    (hw2 : 1 ≤ w2) :
    ∃ ls, pbreak_loop (c_str text) w1 w2 ((c_str text).length + 1) 0 = some ls ∧
      pbreak out text w1 w2 delimeter =
        some (out ++ delimeter.intercalate (ls.map (fun l => l.out))) ∧
      (ls.map (fun l => l.out)).flatten =
        ((c_str text).filter (fun ch => ch != NL)).map (fun ch => if ch == NBSP then ' ' else ch) := by
  obtain ⟨ls, hls⟩ := pbreak_loop_total (c_str text) w1 w2 hw1 hw2 ((c_str text).length + 1) 0
    (Nat.zero_le _) (by omega)
  refine ⟨ls, hls, ?_, ?_⟩
  · unfold pbreak
    rw [hls]
  · have := pbreak_loop_content (c_str text) w1 w2 _ 0 ls (Nat.zero_le _) hls
    rw [this, List.drop_zero]
    rfl

/-- Witness for C22: a text with a newline and a `\b`, widths 12. -/
theorem C22_content_preserved_witness :
    (pbreak [] [ 'J', 'o', NBSP, 'S', 'm', ' ', 'w', 'e', NL, 'n', 't', ' ', 'h', 'o', 'm', 'e']
        5 12 ['|'] = some "Jo Sm| we|nt |home".toList) ∧
    ∃ ls, pbreak_loop
        (c_str [ 'J', 'o', NBSP, 'S', 'm', ' ', 'w', 'e', NL, 'n', 't', ' ', 'h', 'o', 'm', 'e'])
        5 12
        ((c_str [ 'J', 'o', NBSP, 'S', 'm', ' ', 'w', 'e', NL, 'n', 't', ' ', 'h', 'o', 'm', 'e']).length
          + 1) 0 = some ls ∧
      pbreak [] [ 'J', 'o', NBSP, 'S', 'm', ' ', 'w', 'e', NL, 'n', 't', ' ', 'h', 'o', 'm', 'e']
        5 12 ['|'] = some ([] ++ ['|'].intercalate (ls.map (fun l => l.out))) ∧
      (ls.map (fun l => l.out)).flatten =
        ((c_str [ 'J', 'o', NBSP, 'S', 'm', ' ', 'w', 'e', NL, 'n', 't', ' ', 'h', 'o', 'm', 'e']).filter
          (fun ch => ch != NL)).map (fun ch => if ch == NBSP then ' ' else ch) :=
  ⟨by decide,
   C22_content_preserved [] _ ['|'] 5 12 (by decide) (by decide)⟩

/-- C24. With both widths positive the loop of `pbreak` ends, within one iteration per
character of the text plus one, for every text and delimiter: an iteration that starts before
the end of the text moves the cursor forward by at least one character and not past the end.
With width 0 an iteration leaves the cursor where it is, and on a non-empty text with `w1 = 0`
the loop never ends. -/
theorem C24_pbreak_terminates (out text delimeter : List Char) (w1 w2 : Nat) (hw1 : 1 ≤ w1)
    (hw2 : 1 ≤ w2) :
    (∃ ls, pbreak_loop (c_str text) w1 w2 ((c_str text).length + 1) 0 = some ls ∧
      pbreak out text w1 w2 delimeter =
        some (out ++ delimeter.intercalate (ls.map (fun l => l.out)))) ∧
    (∀ w cur, 1 ≤ w → cur < text.length →
      cur < (pbreak_line text w cur).bp ∧ (pbreak_line text w cur).bp ≤ text.length) ∧
    (∀ cur, (pbreak_line text 0 cur).bp = cur) ∧
    (text ≠ [] → ∀ fuel v2, pbreak_loop text 0 v2 fuel 0 = none) := by
  have hzero : ∀ cur, (pbreak_line text 0 cur).bp = cur := by
    intro cur
    obtain ⟨f1, f2, _, _⟩ := find_break_spec text cur cur (Nat.le_refl _)
    have hfb : find_break text cur cur = cur := Nat.le_antisymm f2 f1
    unfold pbreak_line
    simp only [Nat.zero_min, Nat.add_zero, hfb, if_true]
    exact Nat.le_antisymm ((print_line_spec _ cur cur).2.1 (Nat.le_refl _))
      (print_line_ge _ cur cur (Nat.le_refl _))
  refine ⟨?_, ?_, hzero, ?_⟩
  · obtain ⟨ls, hls⟩ := pbreak_loop_total (c_str text) w1 w2 hw1 hw2 ((c_str text).length + 1) 0
      (Nat.zero_le _) (by omega)
    refine ⟨ls, hls, ?_⟩
    unfold pbreak
    rw [hls]
  · intro w cur hw hcur
    obtain ⟨_, hle, _, hprog, _⟩ := pbreak_line_spec text w cur (Nat.le_of_lt hcur)
    exact ⟨hprog hcur hw, hle⟩
  · intro hne fuel v2
    have hlen : 0 < text.length := List.length_pos.mpr hne
    induction fuel with
    | zero => rfl
    | succ fuel ih =>
      rw [pbreak_loop_succ]
      simp only [if_true, hzero 0, hlen, ih]

/-- Witness for C24: widths 3 and 4 on the text `abc def`, and width 0 on the same text. -/
theorem C24_pbreak_terminates_witness :
    (pbreak [] "abc def".toList 3 4 ['|'] = some "abc| |def".toList) ∧
    (∃ ls, pbreak_loop (c_str "abc def".toList) 3 4 ((c_str "abc def".toList).length + 1) 0
        = some ls ∧
      pbreak [] "abc def".toList 3 4 ['|'] =
        some ([] ++ ['|'].intercalate (ls.map (fun l => l.out)))) ∧
    pbreak [] "abc def".toList 0 4 ['|'] = none :=
  ⟨by decide,
   (C24_pbreak_terminates [] "abc def".toList ['|'] 3 4 (by decide) (by decide)).1,
   by decide⟩


/-! ## C23: `parse` terminates -/

theorem queue_weight_le_chars (Q : List Str) :
    queue_weight Q ≤ (Q.map List.length).sum + (Q.filter (fun t => t.isEmpty)).length := by
  induction Q with
  | nil => simp [queue_weight]
  | cons t Q ih =>
    rw [queue_weight_cons]
    cases t with
    | nil =>
      simp only [token_weight, List.length_nil, List.map_cons, List.sum_cons, List.filter_cons,
        List.isEmpty_nil, if_true, List.length_cons]
      simp
      omega
    | cons a t =>
      simp only [token_weight, List.length_cons, List.map_cons, List.sum_cons, List.filter_cons,
        List.isEmpty_cons, Bool.false_eq_true, if_false]
      split <;> omega

/-- C23, as stated, fails in its bound: the argument list holding one empty token has no
character at all, yet the loop needs one iteration for it; a budget of zero iterations is
not enough, a budget of one is. -/
theorem C23_empty_token_costs_an_iteration :
    (([[]] : List Str).map List.length).sum = 0 ∧
    (parse_loop demo_clop 0 { Q := [[]], assigned_options := [], mem := demo_mem } []).isSome
      = false ∧
    (parse_loop demo_clop 1 { Q := [[]], assigned_options := [], mem := demo_mem } []).isSome
      = true ∧
    (demo_clop.parse demo_mem [['p'], []]).map (fun r => r.result) = some (.ok [[]]) := by
  decide

/-- C23, amended. For every registry and every argument list `parse` returns or throws.  The
loop ends within as many iterations as the input tokens have characters, plus one for every
empty token.  A token expanded as a bundle is replaced at the front of the queue by its
expanded flags, each of which has length 2, is a key of the flag map, and is not expanded
again. -/
theorem C23_parse_terminates (c : clop_t) :
    (∀ mem argv, ∃ o, c.parse mem argv = some o) ∧
    (∀ n asg mem result Q,
      (Q.map List.length).sum + (Q.filter (fun t => t.isEmpty)).length ≤ n →
      ∃ x, parse_loop c n { Q := Q, assigned_options := asg, mem := mem } result = some x) ∧
    (∀ arg s, bundle_expands c.flagset arg = true →
      process_arg arg c.flagset s = ({ s with Q := expand_arg arg ++ s.Q }, .ok true) ∧
      ∀ t ∈ expand_arg arg, t.length = 2 ∧ (map_find c.flagset t).isSome = true ∧
        bundle_expands c.flagset t = false) := by
  refine ⟨fun mem argv => parse_total c mem argv, ?_, ?_⟩
  · intro n asg mem result Q hn
    exact parse_loop_enough c n _ result (Nat.le_trans (queue_weight_le_chars Q) hn)
  · intro arg s hb
    refine ⟨by simp [process_arg, hb, push_front_all_eq], ?_⟩
    intro t ht
    simp only [bundle_expands, bundle_legal, Bool.and_eq_true, List.all_eq_true] at hb
    have hkey := hb.2 t ht
    simp only [expand_arg, List.mem_map] at ht
    obtain ⟨ch, _, rfl⟩ := ht
    exact ⟨rfl, hkey, bundle_expands_short c.flagset ch⟩

/-- Witness for C23 on the sample registry: the queue holding an empty token and the bundle
`-ab` has three characters and one empty token, and four iterations are enough; the bundle
`-ab` is replaced by `-a` and `-b`, both of length 2, registered and not expanded again. -/
theorem C23_parse_terminates_witness :
    (∃ x, parse_loop demo_clop 4
      { Q := [[], ['-', 'a', 'b']], assigned_options := [], mem := demo_mem } [] = some x) ∧
    bundle_expands demo_clop.flagset ['-', 'a', 'b'] = true ∧
    (∀ t ∈ expand_arg ['-', 'a', 'b'], t.length = 2 ∧
      (map_find demo_clop.flagset t).isSome = true ∧
      bundle_expands demo_clop.flagset t = false) :=
  ⟨(C23_parse_terminates demo_clop).2.1 4 [] demo_mem [] [[], ['-', 'a', 'b']] (by decide),
   by decide,
   ((C23_parse_terminates demo_clop).2.2 ['-', 'a', 'b'] ⟨[], [], demo_mem⟩ (by decide)).2⟩


/-! ## C25: the returned tokens are input tokens -/

/-- On a registry of legal flags a token that is a key is always handled as a flag. -/
theorem process_flags_key_true (fs : List (Str × option_t)) (hlegal : flags_legal fs) (t : Str)
    (o : option_t) (hfind : map_find fs t = some o) (s s1 : pstate) (b : Bool)
    (h : process_flags t fs s = (s1, .ok b)) : b = true := by
  have hleg := find_legal fs t o hlegal hfind
  rw [process_flags_key t t o fs s hfind (by simp [entry_matches])
    (matches_exact_key fs t hlegal hleg)] at h
  unfold process_flags at h
  rw [if_pos rfl] at h
  split at h
  · split at h
    · simp at h
    · split at h
      · simp at h
      · simp at h
        exact h.2
  · split at h
    · simp at h
    · simp at h
      exact h.2

/-- Tokens at the back of the queue that a call of `process_arg` leaves in place play no part
in it. -/
theorem process_flags_cancel (arg : Str) (fs : List (Str × option_t)) (Qp S : List Str)
    (asg : List (Nat × Str)) (mem : memory) (s1 : pstate) (b : Bool) (Q1 : List Str)
    (h : process_flags arg fs { Q := Qp ++ S, assigned_options := asg, mem := mem } = (s1, .ok b))
    (hQ1 : s1.Q = Q1 ++ S) :
    process_flags arg fs { Q := Qp, assigned_options := asg, mem := mem } =
      ({ Q := Q1, assigned_options := s1.assigned_options, mem := s1.mem }, .ok b) := by
  induction fs with
  | nil =>
    simp only [process_flags, Prod.mk.injEq, Except.ok.injEq] at h ⊢
    obtain ⟨rfl, rfl⟩ := h
    have hq := List.append_cancel_right hQ1
    subst hq
    exact ⟨rfl, rfl⟩
  | cons e fs ih =>
    obtain ⟨flag, option⟩ := e
    unfold process_flags at h ⊢
    by_cases h1 : arg = flag
    · simp only [if_pos h1] at h ⊢
      cases hrv : option.requires_value with
      | true =>
        simp only [hrv, if_true] at h ⊢
        cases Qp with
        | nil =>
          exfalso
          cases S with
          | nil => simp at h
          | cons front S =>
            simp only [List.nil_append] at h
            rw [assign_value_frame] at h
            cases hA : (assign_value option flag front ⟨[], asg, mem⟩).2 with
            | some e => simp [hA] at h
            | none =>
              simp only [hA, Prod.mk.injEq, Except.ok.injEq] at h
              obtain ⟨rfl, _⟩ := h
              have hl := congrArg List.length hQ1
              simp at hl
              omega
        | cons front Qp =>
          simp only [List.cons_append] at h ⊢
          rw [assign_value_frame] at h ⊢
          cases hA : (assign_value option flag front ⟨[], asg, mem⟩).2 with
          | some e => simp [hA] at h
          | none =>
            simp only [hA, Prod.mk.injEq, Except.ok.injEq] at h ⊢
            obtain ⟨rfl, rfl⟩ := h
            have hq := List.append_cancel_right hQ1
            subst hq
            exact ⟨rfl, rfl⟩
      | false =>
        simp only [hrv, Bool.false_eq_true, if_false] at h ⊢
        rw [assign_value_frame] at h ⊢
        cases hA : (assign_value option flag [] ⟨[], asg, mem⟩).2 with
        | some e => simp [hA] at h
        | none =>
          simp only [hA, Prod.mk.injEq, Except.ok.injEq] at h ⊢
          obtain ⟨rfl, rfl⟩ := h
          have hq := List.append_cancel_right hQ1
          subst hq
          exact ⟨rfl, rfl⟩
    · simp only [if_neg h1] at h ⊢
      by_cases h2 : (option.requires_value && inline_match arg flag) = true
      · simp only [if_pos h2] at h ⊢
        rw [assign_value_frame] at h ⊢
        cases hA : (assign_value option flag (arg.drop (flag.length + 1)) ⟨[], asg, mem⟩).2 with
        | some e => simp [hA] at h
        | none =>
          simp only [hA, Prod.mk.injEq, Except.ok.injEq] at h ⊢
          obtain ⟨rfl, rfl⟩ := h
          have hq := List.append_cancel_right hQ1
          subst hq
          exact ⟨rfl, rfl⟩
      · simp only [if_neg h2] at h ⊢
        exact ih h

theorem process_arg_cancel (arg : Str) (fs : List (Str × option_t)) (Qp S : List Str)
    (asg : List (Nat × Str)) (mem : memory) (s1 : pstate) (b : Bool) (Q1 : List Str)
    (h : process_arg arg fs { Q := Qp ++ S, assigned_options := asg, mem := mem } = (s1, .ok b))
    (hQ1 : s1.Q = Q1 ++ S) :
    process_arg arg fs { Q := Qp, assigned_options := asg, mem := mem } =
      ({ Q := Q1, assigned_options := s1.assigned_options, mem := s1.mem }, .ok b) := by
  unfold process_arg at h ⊢
  split at h
  · rename_i hb
    simp only [if_pos hb, Prod.mk.injEq, Except.ok.injEq] at h ⊢
    obtain ⟨rfl, rfl⟩ := h
    simp only [push_front_all_eq] at hQ1 ⊢
    rw [← List.append_assoc] at hQ1
    have hq := List.append_cancel_right hQ1
    subst hq
    exact ⟨rfl, trivial⟩
  · rename_i hb
    simp only [if_neg hb]
    exact process_flags_cancel arg fs Qp S asg mem s1 b Q1 h hQ1

/-- The two ways `process_arg` returns: the bundle branch, or the loop over the flag map. -/
theorem process_arg_shape (arg : Str) (fs : List (Str × option_t)) (s s1 : pstate) (b : Bool)
    (h : process_arg arg fs s = (s1, .ok b)) :
    (bundle_expands fs arg = true ∧ b = true ∧ s1.Q = expand_arg arg ++ s.Q) ∨
    (bundle_expands fs arg = false ∧ process_flags arg fs s = (s1, .ok b)) := by
  unfold process_arg at h
  split at h
  · rename_i hb
    simp only [Prod.mk.injEq, Except.ok.injEq] at h
    obtain ⟨rfl, rfl⟩ := h
    exact Or.inl ⟨hb, rfl, push_front_all_eq _ _⟩
  · rename_i hb
    exact Or.inr ⟨by simpa using hb, h⟩

/-- An iteration of the outer loop that is not the marker branch and does not throw. -/
theorem parse_loop_step_ok (c : clop_t) (n : Nat) (arg : Str) (Q : List Str)
    (asg : List (Nat × Str)) (mem : memory) (result : List Str) (s' : pstate) (out : List Str)
    (hm : ¬ ((c.interpret_double_hypen && arg == ['-', '-']) = true))
    (h : parse_loop c (n + 1) { Q := arg :: Q, assigned_options := asg, mem := mem } result
      = some (s', .ok out)) :
    ∃ s1 b result1,
      process_arg arg c.flagset { Q := Q, assigned_options := asg, mem := mem } = (s1, .ok b) ∧
      parse_loop c n s1 result1 = some (s', .ok out) ∧
      ((b = true ∧ result1 = result) ∨
        (b = false ∧ ¬ ((c.hypen_arg_error && arg.head? == some '-') = true) ∧
          result1 = result ++ [arg])) := by
  rw [parse_loop_succ c n _ result arg Q rfl, if_neg hm] at h
  dsimp only at h
  cases hp : process_arg arg c.flagset { Q := Q, assigned_options := asg, mem := mem } with
  | mk s1 r =>
    rw [hp] at h
    cases r with
    | error e => simp at h
    | ok b =>
      cases b with
      | true => exact ⟨s1, true, result, rfl, h, Or.inl ⟨rfl, rfl⟩⟩
      | false =>
        dsimp only at h
        split at h
        · simp at h
        · rename_i hh
          exact ⟨s1, false, _, rfl, h, Or.inr ⟨rfl, hh, rfl⟩⟩

theorem parse_loop_step_back (c : clop_t) (n : Nat) (arg : Str) (Q : List Str)
    (asg : List (Nat × Str)) (mem : memory) (result result1 : List Str) (s1 : pstate) (b : Bool)
    (x : pstate × Except dau_t (List Str))
    (hm : ¬ ((c.interpret_double_hypen && arg == ['-', '-']) = true))
    (hp : process_arg arg c.flagset { Q := Q, assigned_options := asg, mem := mem }
      = (s1, .ok b))
    (hb : (b = true ∧ result1 = result) ∨
        (b = false ∧ ¬ ((c.hypen_arg_error && arg.head? == some '-') = true) ∧
          result1 = result ++ [arg]))
    (hrun : parse_loop c n s1 result1 = some x) :
    parse_loop c (n + 1) { Q := arg :: Q, assigned_options := asg, mem := mem } result
      = some x := by
  rw [parse_loop_succ c n _ result arg Q rfl, if_neg hm]
  dsimp only
  rw [hp]
  rcases hb with ⟨rfl, rfl⟩ | ⟨rfl, hh, rfl⟩
  · exact hrun
  · dsimp only
    rw [if_neg hh]
    exact hrun

/-- One iteration in front of a run of known shape: the tokens `d` the iteration takes from
the input are added in front of `pre`, and the token it returns, if any, in front of `pos`. -/
theorem positional_run_step (c : clop_t) (n : Nat) (E R E1 R1 d : List Str) (arg : Str)
    (Q : List Str) (asg : List (Nat × Str)) (mem : memory) (result result1 out : List Str)
    (s1 : pstate) (b : Bool)
    (hQ0 : E ++ R = arg :: Q) (hR : R = d ++ R1)
    (hm : ¬ ((c.interpret_double_hypen && arg == ['-', '-']) = true))
    (hp : process_arg arg c.flagset { Q := Q, assigned_options := asg, mem := mem }
      = (s1, .ok b))
    (hs1 : s1.Q = E1 ++ R1)
    (hb : (b = true ∧ result1 = result) ∨
        (b = false ∧ ¬ ((c.hypen_arg_error && arg.head? == some '-') = true) ∧
          result1 = result ++ [arg]))
    (hd : b = false → ∃ d2, d = arg :: d2)
    (ih : positional_run c n E1 R1 s1.assigned_options s1.mem result1 out) :
    positional_run c (n + 1) E R asg mem result out := by
  obtain ⟨pos, pre, tail, hout, hsub, hhy, hcase⟩ := ih
  have hmark : c.interpret_double_hypen = true → R1 = pre ++ ['-', '-'] :: tail →
      ∀ x, parse_loop c n ⟨E1 ++ pre, s1.assigned_options, s1.mem⟩ result1 = some x →
        parse_loop c (n + 1) { Q := E ++ (d ++ pre), assigned_options := asg, mem := mem } result
          = some x := by
    intro hidh h1 x hrun
    have hfull : (E ++ (d ++ pre)) ++ ['-', '-'] :: tail = arg :: Q := by
      rw [← hQ0, hR, h1]
      simp only [List.append_assoc]
    cases hq : E ++ (d ++ pre) with
    | nil =>
      rw [hq] at hfull
      simp only [List.nil_append, List.cons.injEq] at hfull
      exact absurd (by simp [hidh, ← hfull.1]) hm
    | cons a Qp =>
      rw [hq] at hfull
      simp only [List.cons_append, List.cons.injEq] at hfull
      obtain ⟨rfl, hQ⟩ := hfull
      have hs1b : s1.Q = (E1 ++ pre) ++ ['-', '-'] :: tail := by
        rw [hs1, h1, List.append_assoc]
      rw [← hQ] at hp
      have hp2 := process_arg_cancel a c.flagset Qp _ asg mem s1 b _ hp hs1b
      exact parse_loop_step_back c n a Qp asg mem result result1 _ b x hm hp2 hb hrun
  rcases hb with ⟨hbt, rfl⟩ | ⟨hbf, hh, rfl⟩
  · refine ⟨pos, d ++ pre, tail, hout, hsub.trans (List.sublist_append_right d pre), hhy, ?_⟩
    rcases hcase with ⟨h1, h2⟩ | ⟨hidh, h1, s2, hrun⟩
    · exact Or.inl ⟨by rw [hR, h1], h2⟩
    · exact Or.inr ⟨hidh, by rw [hR, h1, List.append_assoc], s2, hmark hidh h1 _ hrun⟩
  · obtain ⟨d2, rfl⟩ := hd hbf
    refine ⟨arg :: pos, arg :: d2 ++ pre, tail, by simp [hout],
      (hsub.trans (List.sublist_append_right d2 pre)).cons₂ arg, ?_, ?_⟩
    · intro hae t ht
      rcases List.mem_cons.1 ht with rfl | ht
      · intro hhead
        exact hh (by simp [hae, hhead])
      · exact hhy hae t ht
    · rcases hcase with ⟨h1, h2⟩ | ⟨hidh, h1, s2, hrun⟩
      · exact Or.inl ⟨by rw [hR, h1], h2⟩
      · refine Or.inr ⟨hidh, by rw [hR, h1, List.append_assoc], s2, ?_⟩
        have := hmark hidh h1 _ hrun
        simpa using this

theorem positional_run_done (c : clop_t) (n : Nat) (asg : List (Nat × Str)) (mem : memory)
    (result : List Str) : positional_run c n [] [] asg mem result result :=
  ⟨[], [], [], by simp, List.Sublist.refl _, (fun _ t ht => by cases ht), Or.inl ⟨rfl, rfl⟩⟩

/-- Every run of the loop that returns has the shape `positional_run`, on a registry of legal
flags, when the tokens in front of the input tokens are keys of the flag map. -/
theorem parse_loop_positional (c : clop_t) (hlegal : flags_legal c.flagset) (n : Nat) :
    ∀ (E R : List Str) (asg : List (Nat × Str)) (mem : memory) (result : List Str) (s' : pstate)
      (out : List Str), (∀ t ∈ E, (map_find c.flagset t).isSome = true) →
      parse_loop c n { Q := E ++ R, assigned_options := asg, mem := mem } result
        = some (s', .ok out) →
      positional_run c n E R asg mem result out := by
  induction n with
  | zero =>
    intro E R asg mem result s' out hE h
    cases hQ : E ++ R with
    | nil =>
      rw [parse_loop_nil c _ _ result hQ] at h
      simp only [Option.some.injEq, Prod.mk.injEq, Except.ok.injEq] at h
      obtain ⟨hE0, hR0⟩ := List.append_eq_nil.1 hQ
      subst hE0 hR0
      rw [← h.2]
      exact positional_run_done c 0 asg mem result
    | cons a Q =>
      rw [parse_loop_zero c _ result a Q hQ] at h
      cases h
  | succ n ih =>
    intro E R asg mem result s' out hE h
    have heta : ∀ (s1 : pstate) (Q1 : List Str), s1.Q = Q1 →
        s1 = { Q := Q1, assigned_options := s1.assigned_options, mem := s1.mem } := by
      intro s1 Q1 hq
      cases s1
      simp only at hq
      subst hq
      rfl
    cases E with
    | nil =>
      cases R with
      | nil =>
        rw [parse_loop_nil c _ _ result rfl] at h
        simp only [Option.some.injEq, Prod.mk.injEq, Except.ok.injEq] at h
        rw [← h.2]
        exact positional_run_done c (n + 1) asg mem result
      | cons arg Q =>
        simp only [List.nil_append] at h
        by_cases hm : (c.interpret_double_hypen && arg == ['-', '-']) = true
        · simp only [Bool.and_eq_true, beq_iff_eq] at hm
          obtain ⟨hidh, rfl⟩ := hm
          rw [parse_loop_marker c n asg mem result Q hidh] at h
          simp only [Option.some.injEq, Prod.mk.injEq, Except.ok.injEq] at h
          rw [← h.2]
          refine ⟨[], [], Q, by simp, List.Sublist.refl _, (fun _ t ht => by cases ht),
            Or.inr ⟨hidh, rfl, ⟨[], asg, mem⟩, ?_⟩⟩
          rw [parse_loop_nil c _ _ result rfl]
          simp
        · obtain ⟨s1, b, result1, hp, hrun, hb⟩ :=
            parse_loop_step_ok c n arg Q asg mem result s' out hm h
          rcases process_arg_shape arg c.flagset _ s1 b hp with ⟨hbe, hbt, hQ1⟩ | ⟨hbe, hpf⟩
          · have hkeys : ∀ t ∈ expand_arg arg, (map_find c.flagset t).isSome = true := by
              intro t ht
              simp only [bundle_expands, bundle_legal, Bool.and_eq_true, List.all_eq_true] at hbe
              exact hbe.2 t ht
            rw [heta s1 _ hQ1] at hrun
            exact positional_run_step c n [] (arg :: Q) (expand_arg arg) Q [arg] arg Q asg mem
              result result1 out s1 b rfl rfl hm hp hQ1 hb (fun hf => by rw [hbt] at hf; cases hf)
              (ih _ _ _ _ _ _ _ hkeys hrun)
          · rcases process_flags_Q arg c.flagset _ s1 b hpf with hq | ⟨x, hq⟩
            · have hq2 : s1.Q = [] ++ Q := hq
              rw [heta s1 _ hq2] at hrun
              exact positional_run_step c n [] (arg :: Q) [] Q [arg] arg Q asg mem
                result result1 out s1 b rfl rfl hm hp hq2 hb (fun _ => ⟨[], rfl⟩)
                (ih _ _ _ _ _ _ _ (fun t ht => by cases ht) hrun)
            · have hq1 : Q = x :: s1.Q := hq
              have hq2 : s1.Q = [] ++ s1.Q := rfl
              rw [heta s1 _ hq2] at hrun
              exact positional_run_step c n [] (arg :: Q) [] s1.Q [arg, x] arg Q asg mem
                result result1 out s1 b rfl (by rw [hq1]; rfl) hm hp hq2 hb
                (fun _ => ⟨[x], rfl⟩)
                (ih _ _ _ _ _ _ _ (fun t ht => by cases ht) hrun)
    | cons t E =>
      simp only [List.cons_append] at h
      have hsome := hE t (List.mem_cons_self _ _)
      have hE2 : ∀ u ∈ E, (map_find c.flagset u).isSome = true :=
        fun u hu => hE u (List.mem_cons_of_mem _ hu)
      cases hfind : map_find c.flagset t with
      | none => simp [hfind] at hsome
      | some o =>
        have hleg := find_legal c.flagset t o hlegal hfind
        have hm : ¬ ((c.interpret_double_hypen && t == ['-', '-']) = true) := by
          simp only [Bool.and_eq_true, beq_iff_eq, not_and]
          exact fun _ => legal_ne_marker t hleg
        obtain ⟨s1, b, result1, hp, hrun, hb⟩ :=
          parse_loop_step_ok c n t (E ++ R) asg mem result s' out hm h
        rcases process_arg_shape t c.flagset _ s1 b hp with ⟨hbe, _, _⟩ | ⟨hbe, hpf⟩
        · rw [legal_not_bundle c.flagset t hleg] at hbe
          cases hbe
        · have hbt := process_flags_key_true c.flagset hlegal t o hfind _ s1 b hpf
          have hd : b = false → ∃ d2, ([] : List Str) = t :: d2 := by
            intro hf
            rw [hbt] at hf
            cases hf
          rcases process_flags_Q t c.flagset _ s1 b hpf with hq | ⟨x, hq⟩
          · have hq2 : s1.Q = E ++ R := hq
            rw [heta s1 _ hq2] at hrun
            exact positional_run_step c n (t :: E) R E R [] t (E ++ R) asg mem
              result result1 out s1 b rfl rfl hm hp hq2 hb hd
              (ih _ _ _ _ _ _ _ hE2 hrun)
          · have hq1 : E ++ R = x :: s1.Q := hq
            cases E with
            | nil =>
              have hR : R = x :: s1.Q := hq1
              have hq2 : s1.Q = [] ++ s1.Q := rfl
              rw [heta s1 _ hq2] at hrun
              have hstep := positional_run_step c n [t] R [] s1.Q [x] t R asg mem
                result result1 out s1 b rfl (by rw [hR]; rfl) hm hp hq2 hb
                (fun hf => by rw [hbt] at hf; cases hf)
                (ih _ _ _ _ _ _ _ (fun t ht => by cases ht) hrun)
              exact hstep
            | cons e E =>
              simp only [List.cons_append, List.cons.injEq] at hq1
              have hq2 : s1.Q = E ++ R := hq1.2.symm
              rw [heta s1 _ hq2] at hrun
              exact positional_run_step c n (t :: e :: E) R E R [] t (e :: E ++ R) asg mem
                result result1 out s1 b rfl rfl hm hp hq2 hb hd
                (ih _ _ _ _ _ _ _ (fun u hu => hE2 u (List.mem_cons_of_mem _ hu)) hrun)

/-- C25. On a registry of legal flags (every registry built by `add` is one), when `parse`
returns a list, that list is an order-preserving subsequence of the arguments behind the
program name: it splits into tokens `pos` picked in order from a front part `pre` of the
arguments, followed by a part `tail`, and either `pre` is all of the arguments and `tail` is
empty, or `interpret_double_hypen` is on, the arguments hold a marker `--` right behind `pre`,
`tail` is everything behind that marker, and `parse` of the arguments in front of the marker
returns `pos` (the loop meets the marker at the front of the queue). With `hypen_arg_error` on
no token of `pos` begins with a hyphen, so a returned token that does lies behind that marker. -/
theorem C25_positionals_are_input_tokens (c : clop_t) (hlegal : flags_legal c.flagset)
    (mem : memory) (argv : List Str) (r : outcome) (out : List Str)
    (hp : c.parse mem argv = some r) (hok : r.result = .ok out) :
    out.Sublist (argv.drop 1) ∧
    ∃ pos pre tail, out = pos ++ tail ∧ pos.Sublist pre ∧
      (c.hypen_arg_error = true → ∀ t ∈ pos, t.head? ≠ some '-') ∧
      ((argv.drop 1 = pre ∧ tail = []) ∨
        (c.interpret_double_hypen = true ∧ argv.drop 1 = pre ++ ['-', '-'] :: tail ∧
          (c.parse mem (argv.take (pre.length + 1))).map (fun o => o.result)
            = some (.ok pos))) := by
  obtain ⟨s, hloop, _, _⟩ := loop_of_parse c mem argv r hp
  rw [hok] at hloop
  have hloop2 : parse_loop c (queue_weight (argv.drop 1))
      { Q := [] ++ argv.drop 1, assigned_options := [], mem := mem } [] = some (s, .ok out) :=
    hloop
  obtain ⟨pos, pre, tail, hout, hsub, hhy, hcase⟩ :=
    parse_loop_positional c hlegal _ [] (argv.drop 1) [] mem [] s out
      (fun t ht => by cases ht) hloop2
  simp only [List.nil_append] at hout hcase
  refine ⟨?_, pos, pre, tail, hout, hsub, hhy, ?_⟩
  · rcases hcase with ⟨h1, h2⟩ | ⟨_, h1, _⟩
    · rw [hout, h1, h2, List.append_nil]
      exact hsub
    · rw [hout, h1]
      exact List.Sublist.append hsub (List.sublist_cons_self _ _)
  · rcases hcase with ⟨h1, h2⟩ | ⟨hidh, h1, s2, hrun⟩
    · exact Or.inl ⟨h1, h2⟩
    · refine Or.inr ⟨hidh, h1, ?_⟩
      cases argv with
      | nil => simp at h1
      | cons a rest =>
        simp only [List.drop_succ_cons, List.drop_zero] at h1
        have htake : (a :: rest).take (pre.length + 1) = a :: pre := by
          rw [h1]
          simp
        rw [htake]
        have hrun2 : parse_loop c (queue_weight ((a :: rest).drop 1))
            { Q := (a :: pre).drop 1, assigned_options := [], mem := mem } []
            = some (s2, .ok pos) := hrun
        rw [parse_of_loop c mem (a :: pre) _ s2 (.ok pos) hrun2]
        rfl

/-- Witness for C25 on the sample registry: of `x -ab -- -z y` the call returns `x -z y`;
`x` is picked from the part `x -ab` in front of the marker, `-z y` is the part behind it. -/
theorem C25_positionals_are_input_tokens_witness :
    ∃ r, demo_clop.parse demo_mem
        [['p'], ['x'], ['-', 'a', 'b'], ['-', '-'], ['-', 'z'], ['y']] = some r ∧
      r.result = .ok [['x'], ['-', 'z'], ['y']] ∧
      ([['x'], ['-', 'z'], ['y']] : List Str).Sublist
        (([['p'], ['x'], ['-', 'a', 'b'], ['-', '-'], ['-', 'z'], ['y']] : List Str).drop 1) ∧
      demo_clop.hypen_arg_error = true := by
  obtain ⟨r, hr⟩ := parse_total demo_clop demo_mem
    [['p'], ['x'], ['-', 'a', 'b'], ['-', '-'], ['-', 'z'], ['y']]
  have h : (demo_clop.parse demo_mem
      [['p'], ['x'], ['-', 'a', 'b'], ['-', '-'], ['-', 'z'], ['y']]).map (fun o => o.result)
      = some (.ok [['x'], ['-', 'z'], ['y']]) := by decide
  have hres : r.result = .ok [['x'], ['-', 'z'], ['y']] := by
    rw [hr] at h
    simpa using h
  exact ⟨r, hr, hres,
    (C25_positionals_are_input_tokens demo_clop (built_invariant demo_clop demo_built).1
      demo_mem _ r _ hr hres).1, by decide⟩

end noto
